import Mathlib

/-!
# Cluster-size analysis (`gmx_clustsize.cpp`, function `clust_size`)

A shallow embedding of the per-frame clustering pipeline of `clust_size`:
the proximity loop that fills the contact map `cs_map`, the merge loop over
`clust_index` / `clust_size`, and the per-frame aggregation into `cs_dist`.

Conventions of the embedding.
* C arrays indexed by an entity or particle number are total functions on `Nat`;
  only the entries below the array length are ever read or written.
* `int` values are `Int` (or `Nat` where the code only stores indices); no value
  of the pipeline exceeds the entity count, so no wrap-around is modelled.
* `real` values are rationals: comparisons and sums are exact, where the code rounds
  to floating point; a division by zero gives 0, where the code gives inf or NaN.
* `gmx_fatal` is the result `none`.
* The loops run in program order (one thread). The proximity loop, which the code runs
  under `omp parallel for` with shared loop variables, is modelled a second time with
  interleaved threads (`ompStep`, `ompRun`).
-/

namespace ClustSize

/-! ## Arrays -/

/-- Array store `a[i] = v`. -/
def arrSet {α : Type} (a : Nat → α) (i : Nat) (v : α) : Nat → α :=
  fun k => if k = i then v else a k

/-- A `for` loop whose body may abort: the body is run on each element of the list in turn,
and the first `none` ends the run. -/
def forM? {σ α : Type} (body : σ → α → Option σ) : List α → σ → Option σ
  | [], s => some s
  | x :: xs, s =>
    match body s x with
    | none => none
    | some s' => forM? body xs s'

/-! ## Cluster labelling: `clust_index` and `clust_size` -/

/-- The two arrays of the labelling: `clust_index[k]` is the label of entity `k`,
`clust_size[c]` the number of entities recorded under label `c`. -/
structure ClusterState where
  clust_index : Nat → Nat
  clust_size : Nat → Int

/-- Lines 225-232: every entity in its own cluster, with size 1. -/
def initClusters : ClusterState :=
  { clust_index := fun i => i, clust_size := fun _ => 1 }

/-- Lines 320-330, one iteration of the loop over `k`: if entity `k` carries label `cj`
it is moved to `ci`; a non-positive `clust_size[cj]` at that moment is fatal. -/
def relabelStep (ci cj : Nat) (s : ClusterState) (k : Nat) : Option ClusterState :=
  if s.clust_index k = cj then
    if s.clust_size cj ≤ 0 then none
    else
      let size1 := arrSet s.clust_size cj (s.clust_size cj - 1)
      some { clust_index := arrSet s.clust_index k ci
             clust_size := arrSet size1 ci (size1 ci + 1) }
  else some s

/-- Lines 318-331: the loop over `k`, here over an explicit list of values of `k`. -/
def relabelLoop (ci cj : Nat) (ks : List Nat) (s : ClusterState) : Option ClusterState :=
  forM? (relabelStep ci cj) ks s

/-- Lines 307-333, the body of the loop over `j`: `cj` is read, and when the labels
differ and `cs_map[i][j]` is set, cluster `cj` is merged into `ci`. -/
def pairStep (nindex : Nat) (cs_map : Nat → Nat → Int) (i ci : Nat)
    (s : ClusterState) (j : Nat) : Option ClusterState :=
  let cj := s.clust_index j
  if ci ≠ cj then
    if cs_map i j ≠ 0 then relabelLoop ci cj (List.range nindex) s else some s
  else some s

/-- Lines 302-334, the body of the loop over `i`: `ci` is read once, then `j` runs
over the given list (in the code `i + 1 .. nindex - 1`). -/
def rowLoop (nindex : Nat) (cs_map : Nat → Nat → Int) (i : Nat) (js : List Nat)
    (s : ClusterState) : Option ClusterState :=
  forM? (pairStep nindex cs_map i (s.clust_index i)) js s

/-- The values of `j` in `for (j = i + 1; j < nindex; j++)`. -/
def upperRange (nindex i : Nat) : List Nat :=
  List.range' (i + 1) (nindex - (i + 1))

/-- One iteration of the loop over `i` in lines 300-335. -/
def entityStep (nindex : Nat) (cs_map : Nat → Nat → Int) (s : ClusterState) (i : Nat) :
    Option ClusterState :=
  rowLoop nindex cs_map i (upperRange nindex i) s

/-- Lines 300-335 with `i` running over an explicit list. -/
def mergeLoop (nindex : Nat) (cs_map : Nat → Nat → Int) (is : List Nat)
    (s : ClusterState) : Option ClusterState :=
  forM? (entityStep nindex cs_map) is s

/-- Lines 300-335: the merge loop. -/
def mergePass (nindex : Nat) (cs_map : Nat → Nat → Int) (s : ClusterState) :
    Option ClusterState :=
  mergeLoop nindex cs_map (List.range nindex) s

/-- The state of the merge loop at an inner point: all iterations `i < i0` are done,
in iteration `i0` the values `j < j0` are done, and in the merge at `(i0, j0)`
(when there is one) the values `k < k0` are done. -/
def mergePrefix (nindex : Nat) (cs_map : Nat → Nat → Int) (i0 j0 k0 : Nat)
    (s : ClusterState) : Option ClusterState :=
  match mergeLoop nindex cs_map (List.range i0) s with
  | none => none
  | some s1 =>
    let ci := s1.clust_index i0
    match forM? (pairStep nindex cs_map i0 ci) (List.range' (i0 + 1) (j0 - (i0 + 1))) s1 with
    | none => none
    | some s2 =>
      let cj := s2.clust_index j0
      if ci ≠ cj then
        if cs_map i0 j0 ≠ 0 then relabelLoop ci cj (List.range k0) s2 else some s2
      else some s2

/-! ## Geometry -/

/-- A position or displacement (`rvec`, `DIM = 3`). -/
structure RVec where
  x : ℚ
  y : ℚ
  z : ℚ

/-- The box matrix of a frame. -/
structure Box where
  a : RVec
  b : RVec
  c : RVec

/-- `clear_rvec`. -/
def clear_rvec : RVec := ⟨0, 0, 0⟩

/-- `rvec_sub(a, b, dx)`. -/
def rvec_sub (a b : RVec) : RVec := ⟨a.x - b.x, a.y - b.y, a.z - b.z⟩

/-- `norm2`, in exact arithmetic (the code rounds the products and the sum to `real`). -/
def norm2 (a : RVec) : ℚ := a.x * a.x + a.y * a.y + a.z * a.z

/-- A block of `mols`: the particles `first .. stop - 1` (`begin()` and `end()`). -/
structure Block where
  first : Nat
  stop : Nat

/-- The particle numbers visited by `for (ii = b.begin(); ii < b.end(); ii++)`. -/
def Block.particles (b : Block) : List Nat :=
  List.range' b.first (b.stop - b.first)

/-- What `clust_size` is called with, as far as the clustering reads it. The library
routine behind `set_pbc` / `pbc_dx` is the field `pbc_dx`, and `mols.block(a)` is the
field `mols`. -/
structure Setup where
  nindex : Nat
  index : Nat → Nat
  mols : Nat → Block
  bPBC : Bool
  pbc_dx : Box → RVec → RVec → RVec
  cut : ℚ
  mol_cut : ℚ
  nskip : Int

/-- One trajectory frame: particle positions `fr.x` and `fr.box`. -/
structure Frame where
  x : Nat → RVec
  box : Box

/-- Lines 260-267 and 277-284: `pbc_dx` when `bPBC`, else `rvec_sub`. -/
def displacement (S : Setup) (fr : Frame) (a b : RVec) : RVec :=
  if S.bPBC then S.pbc_dx fr.box a b else rvec_sub a b

/-- Lines 231-250: the centre `xcm[i]`: the positions of the block of `index[i]` are
summed into the cleared `xcm[i]`, `tm` counts them, and the sum is divided by `tm`. -/
def centre (S : Setup) (fr : Frame) (i : Nat) : RVec :=
  let acc := (S.mols (S.index i)).particles.foldl
    (fun (p : RVec × ℚ) ii =>
      (⟨p.1.x + (fr.x ii).x, p.1.y + (fr.x ii).y, p.1.z + (fr.x ii).z⟩, p.2 + 1))
    (clear_rvec, 0)
  ⟨acc.1.x / acc.2, acc.1.y / acc.2, acc.1.z / acc.2⟩

/-! ## Proximity loop -/

/-- Lines 275-288: the loop over `jj` for one `ii`; `bSame` is assigned at every
particle pair and the loop is left at the first hit. -/
def scanInner (S : Setup) (fr : Frame) (ii : Nat) : List Nat → Bool → Bool
  | [], bSame => bSame
  | jj :: rest, _ =>
    let dx2 := norm2 (displacement S fr (fr.x ii) (fr.x jj))
    let bSame := decide (dx2 < S.cut * S.cut)
    if bSame then bSame else scanInner S fr ii rest bSame

/-- Lines 273-290: the loop over `ii`, left as soon as `bSame` holds. -/
def scanOuter (S : Setup) (fr : Frame) (jjs : List Nat) : List Nat → Bool → Bool
  | [], bSame => bSame
  | ii :: rest, bSame =>
    let bSame := scanInner S fr ii jjs bSame
    if bSame then bSame else scanOuter S fr jjs rest bSame

/-- Lines 260-294, the body of the loop over `j`: the coarse test on the centres
(`continue` when `dx2 > mcut2`), the particle scan, and the store `cs_map[i][j] = 1`. -/
def proximityStep (S : Setup) (fr : Frame) (i : Nat) (cs_map : Nat → Nat → Int) (j : Nat) :
    Nat → Nat → Int :=
  let dx2 := norm2 (displacement S fr (centre S fr i) (centre S fr j))
  if dx2 > S.mol_cut * S.mol_cut then cs_map
  else
    let bSame := scanOuter S fr (S.mols (S.index j)).particles
      (S.mols (S.index i)).particles false
    if bSame then arrSet cs_map i (arrSet (cs_map i) j 1) else cs_map

/-- Lines 254-296: the proximity loop over `i` and `j = i + 1 .. nindex - 1`, with the rows
run one after the other in program order (one thread). The rows interleaved by several
threads are `ompRun`. -/
def proximityLoop (S : Setup) (fr : Frame) (cs_map : Nat → Nat → Int) : Nat → Nat → Int :=
  (List.range S.nindex).foldl
    (fun m i => (upperRange S.nindex i).foldl (proximityStep S fr i) m) cs_map

/-! ## Per-frame aggregation -/

/-- The scalars and the histogram row written in lines 353-375. `row` is
`cs_dist[n_x - 1]`; `max_size` lives across frames. -/
structure Aggregate where
  max_clust_size : Int
  max_clust_ind : Int
  nclust : Int
  cav : ℚ
  nav : Int
  max_size : Int
  row : Nat → ℚ

/-- Lines 358-374, the body of the aggregation loop. -/
def aggregateStep (clust_size : Nat → Int) (a : Aggregate) (i : Nat) : Aggregate :=
  let ci := clust_size i
  let a1 : Aggregate :=
    if ci > a.max_clust_size then { a with max_clust_size := ci, max_clust_ind := i } else a
  if ci > 0 then
    { a1 with
      nclust := a1.nclust + 1
      row := arrSet a1.row (ci - 1).toNat (a1.row (ci - 1).toNat + 1)
      max_size := max a1.max_size ci
      cav := if ci > 1 then a1.cav + ci else a1.cav
      nav := if ci > 1 then a1.nav + 1 else a1.nav }
  else a1

/-- Lines 221-222 and 352-355: the values the aggregation loop starts from. -/
def aggregateInit (max_size : Int) : Aggregate :=
  { max_clust_size := 1, max_clust_ind := -1, nclust := 0, cav := 0, nav := 0,
    max_size := max_size, row := fun _ => 0 }

/-- Lines 353-375: the aggregation loop. -/
def aggregate (nindex : Nat) (clust_size : Nat → Int) (max_size : Int) : Aggregate :=
  (List.range nindex).foldl (aggregateStep clust_size) (aggregateInit max_size)

/-! ## Frame loop -/

/-- What one analysed frame leaves behind: the labelling and the aggregate. -/
structure FrameOutput where
  clusters : ClusterState
  agg : Aggregate

/-- The variables of `clust_size` that live across frames. `analysed` holds one entry
per analysed frame, oldest first: its length is `n_x` and the rows are `cs_dist`. -/
structure RunState where
  cs_map : Nat → Nat → Int
  clusters : ClusterState
  nframe : Int
  max_size : Int
  analysed : List FrameOutput

/-- Lines 191-211: the state before the first frame (`snew` zeroes the arrays). -/
def runInit : RunState :=
  { cs_map := fun _ _ => 0
    clusters := { clust_index := fun _ => 0, clust_size := fun _ => 0 }
    nframe := 0
    max_size := 0
    analysed := [] }

/-- Line 215: the stride test. The remainder is only taken when `nskip > 0`, on a frame
number that is never negative, where the C remainder and `%` on `Int` agree. -/
def isAnalysed (nskip nframe : Int) : Bool :=
  decide (nskip = 0) || (decide (nskip > 0) && decide (nframe % nskip = 0))

/-- Lines 217-381 for one frame: reset of the labelling, proximity loop into the
contact map handed in, merge loop, aggregation. -/
def analyseFrame (S : Setup) (cs_map : Nat → Nat → Int) (max_size : Int) (fr : Frame) :
    Option ((Nat → Nat → Int) × FrameOutput) :=
  let cs_map1 := proximityLoop S fr cs_map
  match mergePass S.nindex cs_map1 initClusters with
  | none => none
  | some s =>
    some (cs_map1, { clusters := s, agg := aggregate S.nindex s.clust_size max_size })

/-- Lines 213-421, the body of the frame loop (clustering part). -/
def frameStep (S : Setup) (st : RunState) (fr : Frame) : Option RunState :=
  if isAnalysed S.nskip st.nframe then
    match analyseFrame S st.cs_map st.max_size fr with
    | none => none
    | some (m, out) =>
      some { cs_map := m
             clusters := out.clusters
             nframe := st.nframe + 1
             max_size := out.agg.max_size
             analysed := st.analysed ++ [out] }
  else some { st with nframe := st.nframe + 1 }

/-- The frame loop over a trajectory. -/
def runFrames (S : Setup) (frames : List Frame) : Option RunState :=
  forM? (frameStep S) frames runInit

/-- Contact map given by a list of marked pairs. -/
def mapOfPairs (ps : List (Nat × Nat)) : Nat → Nat → Int :=
  fun i j => if (i, j) ∈ ps then 1 else 0

/-! ## Specification vocabulary -/

/-- Number of entities below `n` that carry label `c`. -/
def memberCount (n : Nat) (label : Nat → Nat) (c : Nat) : Int :=
  ∑ k in Finset.range n, if label k = c then 1 else 0

/-- The pair `(a, b)` is marked in the half matrix read by the merge loop. -/
def Marked (n : Nat) (cs_map : Nat → Nat → Int) (a b : Nat) : Prop :=
  a < b ∧ b < n ∧ cs_map a b ≠ 0

/-- Adjacency in the undirected graph of the half matrix. -/
def Adjacent (n : Nat) (cs_map : Nat → Nat → Int) (a b : Nat) : Prop :=
  Marked n cs_map a b ∨ Marked n cs_map b a

/-- Entities `a` and `b` are joined by a path of adjacent pairs. -/
def Connected (n : Nat) (cs_map : Nat → Nat → Int) (a b : Nat) : Prop :=
  Relation.ReflTransGen (Adjacent n cs_map) a b

/-- Sum of `clust_size[c]` over the labels `c < n` with `clust_size[c] > 0`. -/
def presentSizeSum (n : Nat) (s : ClusterState) : Int :=
  ∑ c in (Finset.range n).filter (fun c => 0 < s.clust_size c), s.clust_size c

/-- The proximity test in the words of the specification: the squared displacement of the
two centres does not exceed the squared coarse cutoff, and some particle of the block of
entity `i` and some particle of the block of entity `j` are at a squared displacement
strictly below the squared fine cutoff. -/
def WithinCutoffs (S : Setup) (fr : Frame) (i j : Nat) : Prop :=
  norm2 (displacement S fr (centre S fr i) (centre S fr j)) ≤ S.mol_cut * S.mol_cut ∧
  ∃ ii ∈ (S.mols (S.index i)).particles, ∃ jj ∈ (S.mols (S.index j)).particles,
    norm2 (displacement S fr (fr.x ii) (fr.x jj)) < S.cut * S.cut

instance (S : Setup) (fr : Frame) (i j : Nat) : Decidable (WithinCutoffs S fr i j) := by
  unfold WithinCutoffs
  infer_instance

/-- Two single-particle entities, no periodic images, both cutoffs 1, every frame analysed. -/
def pairSetup : Setup :=
  { nindex := 2, index := fun i => i, mols := fun a => ⟨a, a + 1⟩, bPBC := false,
    pbc_dx := fun _ a b => rvec_sub a b, cut := 1, mol_cut := 1, nskip := 0 }

/-- A box with zero edges (not read without periodic images). -/
def zeroBox : Box := ⟨clear_rvec, clear_rvec, clear_rvec⟩

/-- Particle 1 at distance 1/2 from particle 0. -/
def nearFrame : Frame :=
  { x := fun p => if p = 1 then ⟨1 / 2, 0, 0⟩ else ⟨0, 0, 0⟩, box := zeroBox }

/-- Particle 1 at distance 10 from particle 0. -/
def farFrame : Frame :=
  { x := fun p => if p = 1 then ⟨10, 0, 0⟩ else ⟨0, 0, 0⟩, box := zeroBox }

/-- The setup `pairSetup` with both cutoffs set to zero. -/
def zeroCutSetup : Setup :=
  { pairSetup with cut := 0, mol_cut := 0 }

/-- The sizes count the members and the labels are entity numbers. -/
structure SizeInv (n : Nat) (s : ClusterState) : Prop where
  label_lt : ∀ k, k < n → s.clust_index k < n
  size_eq : ∀ c, c < n → s.clust_size c = memberCount n s.clust_index c

/-- Invariant of the merge loop between two merges. -/
structure MergeInv (n : Nat) (cs_map : Nat → Nat → Int) (s : ClusterState) : Prop where
  sizes : SizeInv n s
  idem : ∀ k, k < n → s.clust_index (s.clust_index k) = s.clust_index k
  sound : ∀ a b, a < n → b < n → s.clust_index a = s.clust_index b → Connected n cs_map a b

/-- Entities that share a label in `s` still share one in `t`. -/
def Coarser (n : Nat) (s t : ClusterState) : Prop :=
  ∀ a b, a < n → b < n → s.clust_index a = s.clust_index b → t.clust_index a = t.clust_index b


/-! ## Further setups -/

/-- The setup `pairSetup` cut down to a single entity. -/
def singleSetup : Setup :=
  { pairSetup with nindex := 1 }

/-- Four single-particle entities, no periodic images, both cutoffs 1. -/
def quadSetup : Setup :=
  { pairSetup with nindex := 4 }

/-- Particles 0 and 2 are 1/2 apart, particles 1 and 3 are 1/2 apart, and the two pairs are
10 apart. -/
def twoPairsFrame : Frame :=
  { x := fun p =>
      if p = 0 then ⟨0, 0, 0⟩ else if p = 1 then ⟨10, 0, 0⟩
      else if p = 2 then ⟨1 / 2, 0, 0⟩ else ⟨21 / 2, 0, 0⟩
    box := zeroBox }

/-- The partner of an entity in `twoPairsFrame`. -/
def twoPairsPartner (i : Nat) : Nat := (i + 2) % 4

/-- Four particles on a line, 1/4 apart: every pair is closer than 1. -/
def quadNearFrame : Frame :=
  { x := fun p => ⟨(p : ℚ) / 4, 0, 0⟩, box := zeroBox }

/-! ## Post-processing of the histogram -/

/-- The matrix `cs_dist` as the frame loop leaves it: row `f` is the histogram row of the
`f`-th analysed frame (rows beyond `n_x` do not exist and read as zero). -/
def rawHist (st : RunState) : Nat → Nat → ℚ :=
  fun f =>
    match st.analysed[f]? with
    | some out => out.agg.row
    | none => fun _ => 0

/-- The matrix and the two colour-scale values of the scans in lines 516-548. -/
structure ScanState where
  cs_dist : Nat → Nat → ℚ
  cmid : ℚ
  cmax : ℚ

/-- Lines 541-546, the body of the weighting loop: `cs_dist[i][j] *= (j + 1)`, then the
update of `cmid` and `cmax` with the new value. -/
def weightStep (i : Nat) (st : ScanState) (j : Nat) : ScanState :=
  let v := st.cs_dist i j * ((j : ℚ) + 1)
  { cs_dist := arrSet st.cs_dist i (arrSet (st.cs_dist i) j v)
    cmid := if v > 0 ∧ v < st.cmid then v else st.cmid
    cmax := max v st.cmax }

/-- Lines 535-548: the weighting loop over `i < n_x` and `j < max_size`, started with
`cmid = 100.0` and `cmax = 0.0`. -/
def weightLoop (n_x : Nat) (max_size : Int) (cs_dist : Nat → Nat → ℚ) : ScanState :=
  (List.range n_x).foldl
    (fun st i => (List.range max_size.toNat).foldl (weightStep i) st)
    { cs_dist := cs_dist, cmid := 100, cmax := 0 }

/-! ## Temperature of the largest cluster -/

/-- `iprod`. -/
def iprod (a b : RVec) : ℚ := a.x * b.x + a.y * b.y + a.z * b.z

/-- Lines 157-164: `tfac`, in exact arithmetic (`natoms = 0` gives 0 here, where the
floating-point division of the code gives inf or NaN). -/
def tfac (ndf : Int) (natoms : Nat) : ℚ :=
  if ndf ≤ -1 then 1 else (ndf : ℚ) / (3 * (natoms : ℚ))

/-- What the temperature part of `clust_size` reads on top of `Setup`: whether a tpr file
was given, the atom count, `ndf`, the atom masses behind `mtopGetAtomMass`, and the
library constant `BOLTZ`. -/
structure TempSetup extends Setup where
  tpr : Bool
  natoms : Nat
  ndf : Int
  mass : Nat → ℚ
  BOLTZ : ℚ

/-- A trajectory frame with the fields read outside the clustering: velocities and the
time stamps. -/
structure TrajFrame extends Frame where
  bV : Bool
  v : Nat → RVec
  bTime : Bool
  time : ℚ
  bStep : Bool
  step : Int

/-- Lines 400-409: the kinetic energy loop over the entities with label `max_clust_ind`. -/
def ekinLoop (T : TempSetup) (v : Nat → RVec) (clust_index : Nat → Nat)
    (max_clust_ind : Int) : ℚ :=
  (List.range T.nindex).foldl
    (fun ekin i =>
      if (clust_index i : Int) = max_clust_ind then
        let ai := T.index i
        ekin + 1 / 2 * T.mass ai * iprod (v ai) (v ai)
      else ekin)
    0

/-- Line 410: `temp`, in exact arithmetic. When the divisor is zero the value here is 0,
where the floating-point division of the code gives inf or NaN. -/
def temperature (T : TempSetup) (ekin : ℚ) (max_clust_size : Int) : ℚ :=
  (ekin * 2) / (3 * tfac T.ndf T.natoms * (max_clust_size : ℚ) * T.BOLTZ)

/-- The variables of the frame loop including those of the temperature part. `temps` are
the lines written to the temperature file, oldest first, as pairs of `frameTime` and
`temp`. `frameTime` is not initialised in the code; it is written by the first analysed
frame before any temperature line can read it. -/
structure TempRunState where
  run : RunState
  max_clust_size : Int
  max_clust_ind : Int
  frameTime : ℚ
  frameCounter : Int
  temps : List (ℚ × ℚ)

/-- Lines 191-211 with lines 209-210: the state before the first frame. -/
def tempRunInit : TempRunState :=
  { run := runInit, max_clust_size := 1, max_clust_ind := -1, frameTime := 0,
    frameCounter := 0, temps := [] }

/-- Lines 215-382, the stride block: for an analysed frame the clustering of `analyseFrame`,
the max cluster of the frame and `frameTime` (lines 338-349); for any other frame nothing. -/
def strideBlock (T : TempSetup) (st : TempRunState) (fr : TrajFrame) : Option TempRunState :=
  if isAnalysed T.nskip st.run.nframe then
    match analyseFrame T.toSetup st.run.cs_map st.run.max_size fr.toFrame with
    | none => none
    | some (m, out) =>
      let counter : Int :=
        if fr.bTime then st.frameCounter
        else if fr.bStep then st.frameCounter else st.frameCounter + 1
      let frameTime : ℚ :=
        if fr.bTime then fr.time else if fr.bStep then (fr.step : ℚ) else (counter : ℚ)
      some { run := { cs_map := m
                      clusters := out.clusters
                      nframe := st.run.nframe
                      max_size := out.agg.max_size
                      analysed := st.run.analysed ++ [out] }
             max_clust_size := out.agg.max_clust_size
             max_clust_ind := out.agg.max_clust_ind
             frameTime := frameTime
             frameCounter := counter
             temps := st.temps }
  else some st

/-- Lines 383-414: the velocity block, run for every frame after the stride block. -/
def velocityBlock (T : TempSetup) (st : TempRunState) (fr : TrajFrame) : List (ℚ × ℚ) :=
  if fr.bV then
    if T.tpr then
      if st.max_clust_ind ≥ 0 then
        st.temps ++ [(st.frameTime,
          temperature T (ekinLoop T fr.v st.run.clusters.clust_index st.max_clust_ind)
            st.max_clust_size)]
      else st.temps
    else st.temps
  else st.temps

/-- Lines 213-421, the body of the frame loop: stride block, velocity block, `nframe++`. -/
def tempFrameStep (T : TempSetup) (st : TempRunState) (fr : TrajFrame) :
    Option TempRunState :=
  match strideBlock T st fr with
  | none => none
  | some s1 =>
    some { s1 with
      temps := velocityBlock T s1 fr
      run := { s1.run with nframe := s1.run.nframe + 1 } }

/-- The frame loop over a trajectory, temperature part included. -/
def tempRunFrames (T : TempSetup) (frames : List TrajFrame) : Option TempRunState :=
  forM? (tempFrameStep T) frames tempRunInit

/-- The kinetic energy in the words of the specification: the sum of
`0.5 * mass * |velocity|^2` over every particle of the block of every entity whose label
is `label`. -/
def clusterKinetic (T : TempSetup) (v : Nat → RVec) (clust_index : Nat → Nat)
    (label : Int) : ℚ :=
  (List.range T.nindex).foldl
    (fun ekin i =>
      if (clust_index i : Int) = label then
        ekin + (((T.mols (T.index i)).particles.map
          (fun ii => 1 / 2 * T.mass ii * iprod (v ii) (v ii))).sum)
      else ekin)
    0

/-- The temperature in the words of the specification:
`2 * E_kinetic / (dof_factor * cluster_particle_count * k_B)`. -/
def specTemperature (ekin dof_factor count k_B : ℚ) : ℚ :=
  2 * ekin / (dof_factor * count * k_B)

/-- Two molecules of two atoms each, clustered as molecules (`index[i] = i`), unit masses,
a tpr file given, no `ndf`, and `BOLTZ` as in the library (kJ/mol/K). -/
def molSetup : TempSetup :=
  { nindex := 2, index := fun i => i, mols := fun a => ⟨2 * a, 2 * a + 2⟩, bPBC := false,
    pbc_dx := fun _ a b => rvec_sub a b, cut := 1, mol_cut := 1, nskip := 0,
    tpr := true, natoms := 4, ndf := -1, mass := fun _ => 1,
    BOLTZ := 8314462618 / 1000000000000 }

/-- Atom `p` moves with velocity `(p + 1, 0, 0)`. -/
def molVelocities : Nat → RVec := fun p => ⟨(p : ℚ) + 1, 0, 0⟩

/-- The four atoms of `molSetup` on a line, 1/4 apart, with the velocities
`molVelocities`, at time 5. -/
def molFrame : TrajFrame :=
  { x := fun p => ⟨(p : ℚ) / 4, 0, 0⟩, box := zeroBox, bV := true, v := molVelocities,
    bTime := true, time := 5, bStep := false, step := 0 }

/-- The two-entity setup with every second frame analysed, a tpr file and unit masses. -/
def strideSetup : TempSetup :=
  { toSetup := { pairSetup with nskip := 2 }, tpr := true, natoms := 2, ndf := -1,
    mass := fun _ => 1, BOLTZ := 8314462618 / 1000000000000 }

/-- The frame `nearFrame` with velocities and the time stamp `t`. -/
def timedNearFrame (t : ℚ) : TrajFrame :=
  { toFrame := nearFrame, bV := true, v := molVelocities, bTime := true, time := t,
    bStep := false, step := 0 }

/-- The two-entity setup with every frame analysed, a tpr file and unit masses. -/
def pairTempSetup : TempSetup :=
  { toSetup := pairSetup, tpr := true, natoms := 2, ndf := -1,
    mass := fun _ => 1, BOLTZ := 8314462618 / 1000000000000 }

/-! ## Block partition -/

/-- The library class `gmx::RangePartitioning` as far as `clust_size` relies on it: the
list `index_` of block boundaries. -/
structure RangePartitioning where
  index_ : List Nat

/-- The default-constructed partition of line 166: the boundary 0 alone, no block. -/
def RangePartitioning.unfilled : RangePartitioning := ⟨[0]⟩

/-- `numBlocks()`. -/
def RangePartitioning.numBlocks (r : RangePartitioning) : Nat := r.index_.length - 1

/-- `block(a)`: the range from `index_[a]` to `index_[a + 1]`; `none` when one of the two
reads lies outside `index_`. -/
def RangePartitioning.block (r : RangePartitioning) (a : Nat) : Option Block :=
  match r.index_[a]?, r.index_[a + 1]? with
  | some b, some e => some ⟨b, e⟩
  | _, _ => none

/-- Lines 166-189: `mols` is filled from the topology only when `bMol` is set; with a flat
index list it stays as constructed. -/
def molsOf (bMol : Bool) (topology : RangePartitioning) : RangePartitioning :=
  if bMol then topology else RangePartitioning.unfilled

/-! ## Threads in the proximity loop -/

/-- Where a thread stands in the loop over `j` (line 258) of its current row `i`. -/
inductive RowPc where
  | start
  | test
  | body
  | incr

/-- The private part of a thread: the values of `i` it still has to run (the first is the
current row) and its place in the loop over `j`. -/
structure ThreadState where
  rows : List Nat
  pc : RowPc

/-- The parallel region of lines 253-296: `j` is declared at function scope (line 112) and
so is one variable for all threads, like `cs_map`; `i` is private to each thread. -/
structure OmpState where
  j : Nat
  cs_map : Nat → Nat → Int
  threads : Nat → ThreadState

/-- One statement of thread `t` in the loop `for (j = i + 1; j < nindex; j++)`:
`j = i + 1`, the test `j < nindex`, the loop body (lines 260-294, taken as one step on
the current value of `j`), or `j++`. A thread without rows is finished. -/
def ompStep (S : Setup) (fr : Frame) (st : OmpState) (t : Nat) : OmpState :=
  match (st.threads t).rows with
  | [] => st
  | i :: rest =>
    match (st.threads t).pc with
    | RowPc.start =>
      { st with j := i + 1, threads := arrSet st.threads t ⟨i :: rest, RowPc.test⟩ }
    | RowPc.test =>
      if st.j < S.nindex then
        { st with threads := arrSet st.threads t ⟨i :: rest, RowPc.body⟩ }
      else { st with threads := arrSet st.threads t ⟨rest, RowPc.start⟩ }
    | RowPc.body =>
      { st with
        cs_map := proximityStep S fr i st.cs_map st.j
        threads := arrSet st.threads t ⟨i :: rest, RowPc.incr⟩ }
    | RowPc.incr =>
      { st with j := st.j + 1, threads := arrSet st.threads t ⟨i :: rest, RowPc.test⟩ }

/-- The parallel region under a schedule: the list names the thread that runs the next
statement. -/
def ompRun (S : Setup) (fr : Frame) (schedule : List Nat) (st : OmpState) : OmpState :=
  schedule.foldl (ompStep S fr) st

/-- Entry of the parallel region: thread `t` is given the rows `chunks[t]`. -/
def ompInit (chunks : List (List Nat)) (cs_map : Nat → Nat → Int) : OmpState :=
  { j := 0, cs_map := cs_map, threads := fun t => ⟨chunks.getD t [], RowPc.start⟩ }

/-- Three single-particle entities, no periodic images, both cutoffs 1. -/
def tripleSetup : Setup :=
  { pairSetup with nindex := 3 }

/-- Particles 0 and 2 are 1/2 apart, particle 1 is 10 away. -/
def tripleFrame : Frame :=
  { x := fun p => if p = 0 then ⟨0, 0, 0⟩ else if p = 1 then ⟨10, 0, 0⟩ else ⟨1 / 2, 0, 0⟩
    box := zeroBox }

/-! ## Average size and colour-scale scan -/

/-- Lines 377-380: the line of the average-size file, written only when `nav > 0`, with
the value `cav / nav`. -/
def averageLine (a : Aggregate) : Option ℚ :=
  if a.nav > 0 then some (a.cav / (a.nav : ℚ)) else none

/-- Lines 522-526, the body of the scan of the raw histogram. -/
def scanStep (i : Nat) (st : ScanState) (j : Nat) : ScanState :=
  { st with
    cmid := if st.cs_dist i j > 0 ∧ st.cs_dist i j < st.cmid then st.cs_dist i j else st.cmid
    cmax := max (st.cs_dist i j) st.cmax }

/-- Lines 516-528: the scan of the raw histogram over `i < n_x` and `j < max_size`, started
with `cmid = 100.0` and `cmax = 0.0`; its result is what line 529 prints. -/
def scanLoop (n_x : Nat) (max_size : Int) (cs_dist : Nat → Nat → ℚ) : ScanState :=
  (List.range n_x).foldl
    (fun st i => (List.range max_size.toNat).foldl (scanStep i) st)
    { cs_dist := cs_dist, cmid := 100, cmax := 0 }

/-- One hundred and one single-particle entities with both cutoffs zero. -/
def crowdSetup : Setup :=
  { zeroCutSetup with nindex := 101 }

/-- What the scan of the raw histogram `h` has established after the cells `seen`:
`cmax` is the largest of 0 and the values seen, `cmid` the smallest of 100 and the
strictly positive values seen. -/
structure ScanInv (h : Nat → Nat → ℚ) (seen : Nat → Nat → Prop) (st : ScanState) : Prop where
  same : st.cs_dist = h
  cmax_ge : ∀ a b, seen a b → h a b ≤ st.cmax
  cmax_nonneg : 0 ≤ st.cmax
  cmax_attained : st.cmax = 0 ∨ ∃ a b, seen a b ∧ st.cmax = h a b
  cmid_le_start : st.cmid ≤ 100
  cmid_le : ∀ a b, seen a b → 0 < h a b → st.cmid ≤ h a b
  cmid_attained : st.cmid = 100 ∨ ∃ a b, seen a b ∧ 0 < h a b ∧ st.cmid = h a b

/-! ## Loops -/

theorem forM?_append {σ α : Type} (body : σ → α → Option σ) (l1 l2 : List α) (s : σ) :
    forM? body (l1 ++ l2) s = (forM? body l1 s).bind (forM? body l2) := by
  induction l1 generalizing s with
  | nil => rfl
  | cons x xs ih =>
    simp only [List.cons_append, forM?]
    cases body s x with
    | none => rfl
    | some s' => exact ih s'

/-! ## Member counts -/

theorem memberCount_arrSet {n k : Nat} (hk : k < n) (f : Nat → Nat) (v c : Nat) :
    memberCount n (arrSet f k v) c
      = memberCount n f c - (if f k = c then 1 else 0) + (if v = c then 1 else 0) := by
  unfold memberCount
  have hmem : k ∈ Finset.range n := Finset.mem_range.2 hk
  rw [← Finset.add_sum_erase _ _ hmem,
    ← Finset.add_sum_erase (Finset.range n) (fun x => if f x = c then (1 : Int) else 0) hmem]
  have hrest : ∑ x in (Finset.range n).erase k, (if arrSet f k v x = c then (1 : Int) else 0)
      = ∑ x in (Finset.range n).erase k, (if f x = c then (1 : Int) else 0) := by
    apply Finset.sum_congr rfl
    intro x hx
    have hne : x ≠ k := Finset.ne_of_mem_erase hx
    simp [arrSet, hne]
  rw [hrest]
  simp only [arrSet, if_true]
  ring

theorem memberCount_nonneg (n : Nat) (f : Nat → Nat) (c : Nat) : 0 ≤ memberCount n f c := by
  unfold memberCount
  apply Finset.sum_nonneg
  intro x _
  split_ifs <;> simp

theorem memberCount_pos {n k : Nat} (hk : k < n) (f : Nat → Nat) : 0 < memberCount n f (f k) := by
  unfold memberCount
  have hmem : k ∈ Finset.range n := Finset.mem_range.2 hk
  have hle := Finset.single_le_sum
    (f := fun x => if f x = f k then (1 : Int) else 0)
    (fun x _ => by dsimp only; split_ifs <;> simp) hmem
  simp only [if_true] at hle
  omega

theorem memberCount_eq_zero {n : Nat} {f : Nat → Nat} {c : Nat}
    (h : ∀ k, k < n → f k ≠ c) : memberCount n f c = 0 := by
  unfold memberCount
  apply Finset.sum_eq_zero
  intro x hx
  simp [h x (Finset.mem_range.1 hx)]

theorem memberCount_sum {n : Nat} {f : Nat → Nat} (h : ∀ k, k < n → f k < n) :
    ∑ c in Finset.range n, memberCount n f c = n := by
  unfold memberCount
  rw [Finset.sum_comm]
  have : ∀ k ∈ Finset.range n, (∑ c in Finset.range n, if f k = c then (1 : Int) else 0) = 1 := by
    intro k hk
    rw [Finset.sum_ite_eq]
    simp [h k (Finset.mem_range.1 hk)]
  rw [Finset.sum_congr rfl this]
  simp

/-! ## One relabelling step -/

theorem relabelStep_ok {n ci k : Nat} (cj : Nat) {s : ClusterState} (h : SizeInv n s)
    (hk : k < n) (hci : ci < n) :
    ∃ s', relabelStep ci cj s k = some s' ∧ SizeInv n s' ∧
      s'.clust_index = (if s.clust_index k = cj then arrSet s.clust_index k ci
        else s.clust_index) := by
  by_cases hlab : s.clust_index k = cj
  · have hcj : cj < n := hlab ▸ h.label_lt k hk
    have hpos : 0 < s.clust_size cj := by
      rw [h.size_eq cj hcj, ← hlab]
      exact memberCount_pos hk _
    refine ⟨{ clust_index := arrSet s.clust_index k ci
              clust_size := arrSet (arrSet s.clust_size cj (s.clust_size cj - 1)) ci
                (arrSet s.clust_size cj (s.clust_size cj - 1) ci + 1) },
      by simp only [relabelStep, hlab, if_true, not_le.2 hpos, if_false], ?_, ?_⟩
    · constructor
      · intro x hx
        simp only [arrSet]
        split_ifs
        · exact hci
        · exact h.label_lt x hx
      · intro c hc
        simp only []
        rw [memberCount_arrSet hk, hlab]
        have hc1 := h.size_eq c hc
        have hc2 := h.size_eq ci hci
        have hc3 := h.size_eq cj hcj
        simp only [arrSet]
        split_ifs <;> subst_vars <;> omega
    · simp [hlab]
  · exact ⟨s, by simp [relabelStep, hlab], h, by simp [hlab]⟩

/-! ## The loop over `k` -/

theorem relabelLoop_ok {n ci : Nat} (cj : Nat) {s : ClusterState} (h : SizeInv n s)
    (hci : ci < n) (m : Nat) (hm : m ≤ n) :
    ∃ s', relabelLoop ci cj (List.range m) s = some s' ∧ SizeInv n s' ∧
      ∀ x, s'.clust_index x = if x < m ∧ s.clust_index x = cj then ci else s.clust_index x := by
  induction m with
  | zero => exact ⟨s, rfl, h, by simp⟩
  | succ m ih =>
    obtain ⟨s1, hrun, hinv, hlab⟩ := ih (Nat.le_of_succ_le hm)
    obtain ⟨s2, hstep, hinv2, hlab2⟩ := relabelStep_ok cj hinv (k := m) (by omega) hci
    refine ⟨s2, ?_, hinv2, ?_⟩
    · unfold relabelLoop at hrun ⊢
      rw [List.range_succ, forM?_append, hrun]
      simp only [Option.some_bind, forM?, hstep]
    · intro x
      have hm1 : s1.clust_index m = s.clust_index m := by simp [hlab m]
      rw [hlab2, hm1]
      by_cases hc : s.clust_index m = cj
      · simp only [hc, if_true, arrSet]
        by_cases hx : x = m
        · subst hx; simp [hc]
        · simp only [hx, if_false, hlab x]
          have hiff : x < m + 1 ↔ x < m := by omega
          simp only [hiff]
      · simp only [hc, if_false, hlab x]
        by_cases hx : x = m
        · subst hx; simp [hc]
        · have hiff : x < m + 1 ↔ x < m := by omega
          simp only [hiff]

/-! ## Connectivity -/

theorem adjacent_symm {n : Nat} {cs_map : Nat → Nat → Int} {a b : Nat}
    (h : Adjacent n cs_map a b) : Adjacent n cs_map b a :=
  Or.symm h

theorem connected_symm {n : Nat} {cs_map : Nat → Nat → Int} {a b : Nat}
    (h : Connected n cs_map a b) : Connected n cs_map b a := by
  unfold Connected at h ⊢
  induction h with
  | refl => exact Relation.ReflTransGen.refl
  | tail _ hbc ih => exact Relation.ReflTransGen.head (adjacent_symm hbc) ih

theorem connected_trans {n : Nat} {cs_map : Nat → Nat → Int} {a b c : Nat}
    (h1 : Connected n cs_map a b) (h2 : Connected n cs_map b c) : Connected n cs_map a c :=
  Relation.ReflTransGen.trans h1 h2

theorem connected_of_marked {n : Nat} {cs_map : Nat → Nat → Int} {a b : Nat}
    (h : Marked n cs_map a b) : Connected n cs_map a b :=
  Relation.ReflTransGen.single (Or.inl h)

/-! ## The merge invariant -/

theorem sizeInv_init (n : Nat) : SizeInv n initClusters := by
  constructor
  · intro k hk; exact hk
  · intro c hc
    simp only [initClusters, memberCount]
    rw [Finset.sum_ite_eq']
    simp [hc]

theorem mergeInv_init (n : Nat) (cs_map : Nat → Nat → Int) : MergeInv n cs_map initClusters := by
  refine ⟨sizeInv_init n, fun k _ => rfl, ?_⟩
  intro a b _ _ hab
  have : a = b := hab
  subst this
  exact Relation.ReflTransGen.refl

theorem coarser_refl (n : Nat) (s : ClusterState) : Coarser n s s :=
  fun _ _ _ _ h => h

theorem coarser_trans {n : Nat} {s t u : ClusterState} (h1 : Coarser n s t) (h2 : Coarser n t u) :
    Coarser n s u :=
  fun a b ha hb h => h2 a b ha hb (h1 a b ha hb h)

/-- Effect of a whole merge of `cj` into `ci` on the invariant. -/
theorem mergeInv_relabel {n : Nat} {cs_map : Nat → Nat → Int} {s s' : ClusterState}
    {i j ci cj : Nat} (h : MergeInv n cs_map s) (hij : i < j) (hj : j < n)
    (hci : s.clust_index i = ci) (hcj : s.clust_index j = cj) (hne : ci ≠ cj)
    (hmap : cs_map i j ≠ 0) (hsz : SizeInv n s')
    (hlab : ∀ x, s'.clust_index x = if x < n ∧ s.clust_index x = cj then ci
      else s.clust_index x) :
    MergeInv n cs_map s' ∧ s'.clust_index i = ci ∧ Coarser n s s' ∧
      s'.clust_index i = s'.clust_index j := by
  have hi : i < n := by omega
  have hadj : Connected n cs_map i j := connected_of_marked ⟨hij, hj, hmap⟩
  have hi' : s'.clust_index i = ci := by
    rw [hlab i, hci]; simp [hne]
  have hj' : s'.clust_index j = ci := by
    rw [hlab j]; simp [hj, hcj]
  have hcilt : ci < n := hci ▸ h.sizes.label_lt i hi
  have hcici : s.clust_index ci = ci := by
    rw [← hci]; exact h.idem i hi
  refine ⟨⟨hsz, ?_, ?_⟩, hi', ?_, by rw [hi', hj']⟩
  · intro k hk
    rw [hlab k]
    by_cases hkc : s.clust_index k = cj
    · simp only [hk, hkc, and_self, if_true]
      rw [hlab ci, hcici]; simp [hne]
    · simp only [hkc, and_false, if_false]
      rw [hlab (s.clust_index k), h.idem k hk]
      simp [hkc]
  · intro a b ha hb hab
    rw [hlab a, hlab b] at hab
    by_cases hac : s.clust_index a = cj
    · have haj : Connected n cs_map a j := h.sound a j ha hj (by rw [hac, hcj])
      by_cases hbc : s.clust_index b = cj
      · exact connected_trans haj (h.sound j b hj hb (by rw [hbc, hcj]))
      · simp only [ha, hac, and_self, if_true, hbc, and_false, if_false] at hab
        have hib : Connected n cs_map i b := h.sound i b hi hb (by rw [hci, hab])
        exact connected_trans haj (connected_trans (connected_symm hadj) hib)
    · by_cases hbc : s.clust_index b = cj
      · simp only [hb, hac, and_self, if_true, hbc, and_false, if_false] at hab
        have hai : Connected n cs_map a i := h.sound a i ha hi (by rw [hci, hab])
        exact connected_trans hai (connected_trans hadj (h.sound j b hj hb (by rw [hbc, hcj])))
      · simp only [hac, hbc, and_false, if_false] at hab
        exact h.sound a b ha hb hab
  · intro a b ha hb hab
    rw [hlab a, hlab b, hab]
    simp [ha, hb]

theorem pairStep_ok {n : Nat} {cs_map : Nat → Nat → Int} {s : ClusterState} {i j ci : Nat}
    (h : MergeInv n cs_map s) (hij : i < j) (hj : j < n) (hci : s.clust_index i = ci) :
    ∃ s', pairStep n cs_map i ci s j = some s' ∧ MergeInv n cs_map s' ∧
      s'.clust_index i = ci ∧ Coarser n s s' ∧
      (cs_map i j ≠ 0 → s'.clust_index i = s'.clust_index j) := by
  by_cases hne : ci = s.clust_index j
  · refine ⟨s, by simp [pairStep, hne], h, hci, coarser_refl n s, fun _ => ?_⟩
    rw [hci, hne]
  · by_cases hmap : cs_map i j = 0
    · exact ⟨s, by simp [pairStep, hne, hmap], h, hci, coarser_refl n s,
        fun hc => absurd hmap hc⟩
    · have hcilt : ci < n := hci ▸ h.sizes.label_lt i (by omega)
      obtain ⟨s', hrun, hsz, hlab⟩ :=
        relabelLoop_ok (s.clust_index j) h.sizes hcilt n (Nat.le_refl n)
      obtain ⟨hinv, hi', hco, hsame⟩ :=
        mergeInv_relabel h hij hj hci rfl hne hmap hsz hlab
      exact ⟨s', by simp [pairStep, hne, hmap, hrun], hinv, hi', hco, fun _ => hsame⟩

theorem rowLoop_ok {n : Nat} {cs_map : Nat → Nat → Int} {i ci : Nat} (js : List Nat)
    (hjs : ∀ j ∈ js, i < j ∧ j < n) {s : ClusterState} (h : MergeInv n cs_map s)
    (hci : s.clust_index i = ci) :
    ∃ s', forM? (pairStep n cs_map i ci) js s = some s' ∧ MergeInv n cs_map s' ∧
      s'.clust_index i = ci ∧ Coarser n s s' ∧
      ∀ j ∈ js, cs_map i j ≠ 0 → s'.clust_index i = s'.clust_index j := by
  induction js generalizing s with
  | nil => exact ⟨s, rfl, h, hci, coarser_refl n s, by simp⟩
  | cons j rest ih =>
    have hj := hjs j (List.mem_cons_self j rest)
    obtain ⟨s1, hstep, hinv1, hci1, hco1, hsame1⟩ := pairStep_ok h hj.1 hj.2 hci
    obtain ⟨s2, hrun, hinv2, hci2, hco2, hsame2⟩ :=
      ih (fun x hx => hjs x (List.mem_cons_of_mem j hx)) hinv1 hci1
    refine ⟨s2, by simp only [forM?, hstep, hrun], hinv2, hci2, coarser_trans hco1 hco2, ?_⟩
    intro x hx hmap
    rcases List.mem_cons.1 hx with rfl | hx
    · exact hco2 i x (by omega) hj.2 (hsame1 hmap)
    · exact hsame2 x hx hmap

theorem entityStep_ok {n : Nat} {cs_map : Nat → Nat → Int} {s : ClusterState} (i : Nat)
    (h : MergeInv n cs_map s) :
    ∃ s', entityStep n cs_map s i = some s' ∧ MergeInv n cs_map s' ∧ Coarser n s s' ∧
      ∀ j, Marked n cs_map i j → s'.clust_index i = s'.clust_index j := by
  have hmem : ∀ j ∈ upperRange n i, i < j ∧ j < n := by
    intro j hj
    unfold upperRange at hj
    rw [List.mem_range'_1] at hj
    omega
  obtain ⟨s', hrun, hinv, _, hco, hsame⟩ := rowLoop_ok (upperRange n i) hmem h rfl
  refine ⟨s', hrun, hinv, hco, ?_⟩
  intro j hm
  apply hsame j _ hm.2.2
  unfold upperRange
  rw [List.mem_range'_1]
  have := hm.1; have := hm.2.1
  omega

theorem mergeLoop_ok {n : Nat} {cs_map : Nat → Nat → Int} (is : List Nat)
    {s : ClusterState} (h : MergeInv n cs_map s) :
    ∃ s', mergeLoop n cs_map is s = some s' ∧ MergeInv n cs_map s' ∧ Coarser n s s' ∧
      ∀ i ∈ is, ∀ j, Marked n cs_map i j → s'.clust_index i = s'.clust_index j := by
  induction is generalizing s with
  | nil => exact ⟨s, rfl, h, coarser_refl n s, by simp⟩
  | cons i rest ih =>
    obtain ⟨s1, hstep, hinv1, hco1, hsame1⟩ := entityStep_ok i h
    obtain ⟨s2, hrun, hinv2, hco2, hsame2⟩ := ih hinv1
    refine ⟨s2, ?_, hinv2, coarser_trans hco1 hco2, ?_⟩
    · unfold mergeLoop at hrun ⊢
      simp only [forM?, hstep, hrun]
    · intro x hx j hm
      rcases List.mem_cons.1 hx with rfl | hx
      · exact hco2 x j (by have := hm.1; have := hm.2.1; omega) hm.2.1 (hsame1 j hm)
      · exact hsame2 x hx j hm

/-- The merge loop started from any state that meets the invariant returns, keeps the
invariant, and puts the two ends of every marked pair under one label. -/
theorem mergePass_ok {n : Nat} {cs_map : Nat → Nat → Int} {s : ClusterState}
    (h : MergeInv n cs_map s) :
    ∃ s', mergePass n cs_map s = some s' ∧ MergeInv n cs_map s' ∧
      ∀ a b, Connected n cs_map a b → s'.clust_index a = s'.clust_index b := by
  obtain ⟨s', hrun, hinv, _, hsame⟩ := mergeLoop_ok (List.range n) h
  refine ⟨s', hrun, hinv, ?_⟩
  intro a b hab
  unfold Connected at hab
  induction hab with
  | refl => rfl
  | tail _ hbc ih =>
    rw [ih]
    rcases hbc with hm | hm
    · exact hsame _ (List.mem_range.2 (by have := hm.1; have := hm.2.1; omega)) _ hm
    · exact (hsame _ (List.mem_range.2 (by have := hm.1; have := hm.2.1; omega)) _ hm).symm

/-! ## Consequences of the size invariant -/

theorem memberCount_pos_iff (n : Nat) (f : Nat → Nat) (c : Nat) :
    0 < memberCount n f c ↔ ∃ k, k < n ∧ f k = c := by
  constructor
  · intro hpos
    by_contra hno
    have hz : memberCount n f c = 0 :=
      memberCount_eq_zero (fun k hk hkc => hno ⟨k, hk, hkc⟩)
    omega
  · rintro ⟨k, hk, rfl⟩
    exact memberCount_pos hk f

theorem presentSizeSum_eq {n : Nat} {s : ClusterState} (h : SizeInv n s) :
    presentSizeSum n s = n := by
  unfold presentSizeSum
  rw [Finset.sum_filter]
  have hterm : ∀ c ∈ Finset.range n,
      (if 0 < s.clust_size c then s.clust_size c else 0) = memberCount n s.clust_index c := by
    intro c hc
    have hsz := h.size_eq c (Finset.mem_range.1 hc)
    have hnn := memberCount_nonneg n s.clust_index c
    split_ifs <;> omega
  rw [Finset.sum_congr rfl hterm]
  exact memberCount_sum h.label_lt

/-- The size invariant holds at every inner point of the merge loop. -/
theorem mergePrefix_ok {n : Nat} {cs_map : Nat → Nat → Int} {s : ClusterState}
    (h : MergeInv n cs_map s) {i0 j0 k0 : Nat} (hij : i0 < j0) (hj : j0 < n) (hk : k0 ≤ n) :
    ∃ s', mergePrefix n cs_map i0 j0 k0 s = some s' ∧ SizeInv n s' := by
  obtain ⟨s1, hrun1, hinv1, _, _⟩ := mergeLoop_ok (List.range i0) h
  have hmem : ∀ j ∈ List.range' (i0 + 1) (j0 - (i0 + 1)), i0 < j ∧ j < n := by
    intro j hjm
    rw [List.mem_range'_1] at hjm
    omega
  obtain ⟨s2, hrun2, hinv2, hci2, _, _⟩ :=
    rowLoop_ok (i := i0) _ hmem hinv1 rfl
  have hcilt : s1.clust_index i0 < n := hinv1.sizes.label_lt i0 (by omega)
  obtain ⟨s3, hrun3, hinv3, _⟩ :=
    relabelLoop_ok (s2.clust_index j0) hinv2.sizes hcilt k0 hk
  unfold mergePrefix
  simp only [hrun1, hrun2]
  by_cases hne : s1.clust_index i0 = s2.clust_index j0
  · exact ⟨s2, by simp [hne], hinv2.sizes⟩
  · by_cases hmap : cs_map i0 j0 = 0
    · exact ⟨s2, by simp [hne, hmap], hinv2.sizes⟩
    · exact ⟨s3, by simp [hne, hmap, hrun3], hinv3⟩

/-- The inner point with all `k` done is the state after the pair `(i0, j0)`: the loop
over `j` of iteration `i0` run up to and including `j0`. -/
theorem mergePrefix_all_k (n : Nat) (cs_map : Nat → Nat → Int) {i0 j0 : Nat} (hij : i0 < j0)
    (s : ClusterState) :
    mergePrefix n cs_map i0 j0 n s
      = (mergeLoop n cs_map (List.range i0) s).bind (fun s1 =>
          forM? (pairStep n cs_map i0 (s1.clust_index i0))
            (List.range' (i0 + 1) (j0 - (i0 + 1) + 1)) s1) := by
  unfold mergePrefix
  cases mergeLoop n cs_map (List.range i0) s with
  | none => rfl
  | some s1 =>
    simp only [Option.some_bind]
    rw [List.range'_concat, forM?_append]
    cases forM? (pairStep n cs_map i0 (s1.clust_index i0))
        (List.range' (i0 + 1) (j0 - (i0 + 1))) s1 with
    | none => rfl
    | some s2 =>
      have hj : i0 + 1 + 1 * (j0 - (i0 + 1)) = j0 := by omega
      simp only [Option.some_bind, forM?, hj, pairStep]
      split_ifs <;> first | rfl | (cases relabelLoop _ _ _ s2 <;> rfl)

/-- The loop over `i` run up to and including `i0` is the loop up to `i0` followed by the
whole loop over `j` of iteration `i0`. -/
theorem mergeLoop_succ (n : Nat) (cs_map : Nat → Nat → Int) (i0 : Nat) (s : ClusterState) :
    mergeLoop n cs_map (List.range (i0 + 1)) s
      = (mergeLoop n cs_map (List.range i0) s).bind (fun s1 =>
          forM? (pairStep n cs_map i0 (s1.clust_index i0)) (upperRange n i0) s1) := by
  unfold mergeLoop
  rw [List.range_succ, forM?_append]
  cases forM? (entityStep n cs_map) (List.range i0) s with
  | none => rfl
  | some s1 =>
    simp only [Option.some_bind, forM?, entityStep, rowLoop]
    cases forM? (pairStep n cs_map i0 (s1.clust_index i0)) (upperRange n i0) s1 <;> rfl

/-! ## Claims on the merge loop -/

/-- C1: for every entity count `n` and every contact map, the merge loop started from
`clust_index[k] = k`, `clust_size[k] = 1` returns, and afterwards two entities carry the
same label if and only if a path of adjacent pairs joins them. -/
theorem merge_labels_are_components (n : Nat) (cs_map : Nat → Nat → Int) :
    ∃ s, mergePass n cs_map initClusters = some s ∧
      ∀ a b, a < n → b < n →
        (s.clust_index a = s.clust_index b ↔ Connected n cs_map a b) := by
  obtain ⟨s, hrun, hinv, hcomplete⟩ := mergePass_ok (mergeInv_init n cs_map)
  exact ⟨s, hrun, fun a b ha hb => ⟨hinv.sound a b ha hb, hcomplete a b⟩⟩

/-- C2: after the merge loop the sizes of the labels with positive size add up to the
entity count `n`, and so they do at every inner point of the loop: after the iterations
`i < i0`, the values `j < j0` of iteration `i0`, and the first `k0` steps of the merge at
`(i0, j0)`. -/
theorem size_sum_is_entity_count (n : Nat) (cs_map : Nat → Nat → Int) :
    (∃ s, mergePass n cs_map initClusters = some s ∧ presentSizeSum n s = n) ∧
    ∀ i0 j0 k0, i0 < j0 → j0 < n → k0 ≤ n →
      ∃ s, mergePrefix n cs_map i0 j0 k0 initClusters = some s ∧ presentSizeSum n s = n := by
  constructor
  · obtain ⟨s, hrun, hinv, _⟩ := mergePass_ok (mergeInv_init n cs_map)
    exact ⟨s, hrun, presentSizeSum_eq hinv.sizes⟩
  · intro i0 j0 k0 hij hj hk
    obtain ⟨s, hrun, hinv⟩ := mergePrefix_ok (mergeInv_init n cs_map) hij hj hk
    exact ⟨s, hrun, presentSizeSum_eq hinv⟩

/-- C3: after the merge loop, for every index `c < n` the size `clust_size[c]` is positive
exactly when some entity carries label `c` and is zero otherwise, and every entity lies in
exactly one label of positive size. -/
theorem size_positive_iff_label_used (n : Nat) (cs_map : Nat → Nat → Int) :
    ∃ s, mergePass n cs_map initClusters = some s ∧
      (∀ c, c < n →
        (0 < s.clust_size c ↔ ∃ k, k < n ∧ s.clust_index k = c) ∧
        ((¬ ∃ k, k < n ∧ s.clust_index k = c) → s.clust_size c = 0)) ∧
      ∀ k, k < n → ∃! c, c < n ∧ 0 < s.clust_size c ∧ s.clust_index k = c := by
  obtain ⟨s, hrun, hinv, _⟩ := mergePass_ok (mergeInv_init n cs_map)
  refine ⟨s, hrun, ?_, ?_⟩
  · intro c hc
    rw [hinv.sizes.size_eq c hc]
    refine ⟨memberCount_pos_iff n _ c, fun hno => ?_⟩
    exact memberCount_eq_zero (fun k hk hkc => hno ⟨k, hk, hkc⟩)
  · intro k hk
    have hlt := hinv.sizes.label_lt k hk
    refine ⟨s.clust_index k, ⟨hlt, ?_, rfl⟩, fun c hc => hc.2.2.symm⟩
    rw [hinv.sizes.size_eq _ hlt]
    exact memberCount_pos hk _

/-- C4, as stated, fails: with three entities and the marked pairs `(0, 2)` and `(1, 2)`
the merge loop leaves all three entities under label `1`, although entity `0` is a
member of that cluster. -/
theorem label_not_smallest_member :
    ∃ s, mergePass 3 (mapOfPairs [(0, 2), (1, 2)]) initClusters = some s ∧
      ¬ (∀ k, k < 3 → ∀ m, m < 3 → s.clust_index m = s.clust_index k → s.clust_index k ≤ m) := by
  have hval : (mergePass 3 (mapOfPairs [(0, 2), (1, 2)]) initClusters).map
      (fun s => s.clust_index 0) = some 1 := by decide
  obtain ⟨s, hrun, _⟩ := mergePass_ok (mergeInv_init 3 (mapOfPairs [(0, 2), (1, 2)]))
  refine ⟨s, hrun, fun hmin => ?_⟩
  rw [hrun] at hval
  have h0 : s.clust_index 0 = 1 := by simpa using hval
  have := hmin 0 (by decide) 0 (by decide) rfl
  omega

/-- C4, amended: after the merge loop the label of every entity is the index of a member
of its own cluster, the same for all members: it is an entity number, it carries itself
as label, the entity is joined to it by a path of adjacent pairs, and every entity joined
to the entity by such a path carries the same label. -/
theorem label_is_cluster_member (n : Nat) (cs_map : Nat → Nat → Int) :
    ∃ s, mergePass n cs_map initClusters = some s ∧
      ∀ k, k < n →
        s.clust_index k < n ∧
        s.clust_index (s.clust_index k) = s.clust_index k ∧
        Connected n cs_map k (s.clust_index k) ∧
        ∀ m, m < n → Connected n cs_map k m → s.clust_index m = s.clust_index k := by
  obtain ⟨s, hrun, hinv, hcomplete⟩ := mergePass_ok (mergeInv_init n cs_map)
  refine ⟨s, hrun, fun k hk => ?_⟩
  have hlt := hinv.sizes.label_lt k hk
  exact ⟨hlt, hinv.idem k hk, hinv.sound k _ hk hlt (hinv.idem k hk).symm,
    fun m _ hkm => (hcomplete k m hkm).symm⟩

/-- C7: the merge loop started from the initial labelling never takes the fatal branch:
it returns, and at every inner point of the loop the label of the entity `k0` examined
next has positive size. -/
theorem merge_never_fatal (n : Nat) (cs_map : Nat → Nat → Int) :
    (∃ s, mergePass n cs_map initClusters = some s) ∧
    ∀ i0 j0 k0, i0 < j0 → j0 < n → k0 < n →
      ∃ s, mergePrefix n cs_map i0 j0 k0 initClusters = some s ∧
        0 < s.clust_size (s.clust_index k0) := by
  constructor
  · obtain ⟨s, hrun, _⟩ := mergePass_ok (mergeInv_init n cs_map)
    exact ⟨s, hrun⟩
  · intro i0 j0 k0 hij hj hk
    obtain ⟨s, hrun, hinv⟩ :=
      mergePrefix_ok (mergeInv_init n cs_map) hij hj (Nat.le_of_lt hk)
    refine ⟨s, hrun, ?_⟩
    rw [hinv.size_eq _ (hinv.label_lt k0 hk)]
    exact memberCount_pos hk _

/-! ## Proximity loop -/

theorem scanInner_iff (S : Setup) (fr : Frame) (ii : Nat) (jjs : List Nat) :
    scanInner S fr ii jjs false = true ↔
      ∃ jj ∈ jjs, norm2 (displacement S fr (fr.x ii) (fr.x jj)) < S.cut * S.cut := by
  induction jjs with
  | nil => simp [scanInner]
  | cons jj rest ih =>
    simp only [scanInner]
    by_cases hit : norm2 (displacement S fr (fr.x ii) (fr.x jj)) < S.cut * S.cut
    · simp [hit]
    · simp [hit, ih]

theorem scanOuter_iff (S : Setup) (fr : Frame) (jjs iis : List Nat) :
    scanOuter S fr jjs iis false = true ↔
      ∃ ii ∈ iis, ∃ jj ∈ jjs,
        norm2 (displacement S fr (fr.x ii) (fr.x jj)) < S.cut * S.cut := by
  induction iis with
  | nil => simp [scanOuter]
  | cons ii rest ih =>
    simp only [scanOuter]
    by_cases hrow : scanInner S fr ii jjs false = true
    · simp only [hrow, if_true, true_iff]
      obtain ⟨jj, hjj, hlt⟩ := (scanInner_iff S fr ii jjs).1 hrow
      exact ⟨ii, List.mem_cons_self ii rest, jj, hjj, hlt⟩
    · have hno := mt (scanInner_iff S fr ii jjs).2 hrow
      have hf : scanInner S fr ii jjs false = false := by simpa using hrow
      simp only [hf, Bool.false_eq_true, if_false, ih, List.mem_cons]
      constructor
      · rintro ⟨x, hx, hrest⟩
        exact ⟨x, Or.inr hx, hrest⟩
      · rintro ⟨x, hx | hx, hrest⟩
        · subst hx; exact absurd hrest hno
        · exact ⟨x, hx, hrest⟩

theorem proximityStep_apply (S : Setup) (fr : Frame) (i j : Nat) (m : Nat → Nat → Int)
    (a b : Nat) :
    proximityStep S fr i m j a b
      = if a = i ∧ b = j ∧ WithinCutoffs S fr i j then 1 else m a b := by
  unfold proximityStep WithinCutoffs
  simp only [gt_iff_lt]
  by_cases hfar : S.mol_cut * S.mol_cut
      < norm2 (displacement S fr (centre S fr i) (centre S fr j))
  · simp [hfar, not_le.2 hfar]
  · simp only [hfar, if_false, not_lt.1 hfar, true_and]
    by_cases hscan : scanOuter S fr (S.mols (S.index j)).particles
        (S.mols (S.index i)).particles false = true
    · have hex := (scanOuter_iff S fr _ _).1 hscan
      simp only [hscan, if_true, arrSet]
      by_cases ha : a = i
      · by_cases hb : b = j
        · simp [ha, hb, hex, arrSet]
        · simp [ha, hb, arrSet]
      · simp [ha]
    · have hex := mt (scanOuter_iff S fr _ _).2 hscan
      simp [hscan, hex]

theorem proximityRow_apply (S : Setup) (fr : Frame) (i : Nat) (js : List Nat)
    (m : Nat → Nat → Int) (a b : Nat) :
    js.foldl (proximityStep S fr i) m a b
      = if a = i ∧ b ∈ js ∧ WithinCutoffs S fr i b then 1 else m a b := by
  induction js generalizing m with
  | nil => simp
  | cons j rest ih =>
    rw [List.foldl_cons, ih, proximityStep_apply]
    by_cases hw : a = i ∧ b ∈ rest ∧ WithinCutoffs S fr i b
    · have hw2 : a = i ∧ b ∈ j :: rest ∧ WithinCutoffs S fr i b :=
        ⟨hw.1, List.mem_cons_of_mem j hw.2.1, hw.2.2⟩
      rw [if_pos hw, if_pos hw2]
    · rw [if_neg hw]
      by_cases hj : a = i ∧ b = j ∧ WithinCutoffs S fr i j
      · have hw2 : a = i ∧ b ∈ j :: rest ∧ WithinCutoffs S fr i b := by
          obtain ⟨h1, h2, h3⟩ := hj
          subst h2
          exact ⟨h1, List.mem_cons_self b rest, h3⟩
        rw [if_pos hj, if_pos hw2]
      · have hw2 : ¬ (a = i ∧ b ∈ j :: rest ∧ WithinCutoffs S fr i b) := by
          rintro ⟨h1, h2, h3⟩
          rcases List.mem_cons.1 h2 with h2 | h2
          · subst h2; exact hj ⟨h1, rfl, h3⟩
          · exact hw ⟨h1, h2, h3⟩
        rw [if_neg hj, if_neg hw2]

theorem proximityRows_apply (S : Setup) (fr : Frame) (is : List Nat)
    (m : Nat → Nat → Int) (a b : Nat) :
    is.foldl (fun m i => (upperRange S.nindex i).foldl (proximityStep S fr i) m) m a b
      = if a ∈ is ∧ b ∈ upperRange S.nindex a ∧ WithinCutoffs S fr a b then 1 else m a b := by
  induction is generalizing m with
  | nil => simp
  | cons i rest ih =>
    rw [List.foldl_cons, ih, proximityRow_apply]
    by_cases hw : a ∈ rest ∧ b ∈ upperRange S.nindex a ∧ WithinCutoffs S fr a b
    · have hw2 : a ∈ i :: rest ∧ b ∈ upperRange S.nindex a ∧ WithinCutoffs S fr a b :=
        ⟨List.mem_cons_of_mem i hw.1, hw.2⟩
      rw [if_pos hw, if_pos hw2]
    · rw [if_neg hw]
      by_cases hi : a = i ∧ b ∈ upperRange S.nindex i ∧ WithinCutoffs S fr i b
      · have hw2 : a ∈ i :: rest ∧ b ∈ upperRange S.nindex a ∧ WithinCutoffs S fr a b := by
          obtain ⟨h1, h2, h3⟩ := hi
          subst h1
          exact ⟨List.mem_cons_self a rest, h2, h3⟩
        rw [if_pos hi, if_pos hw2]
      · have hw2 : ¬ (a ∈ i :: rest ∧ b ∈ upperRange S.nindex a ∧ WithinCutoffs S fr a b) := by
          rintro ⟨h1, h2, h3⟩
          rcases List.mem_cons.1 h1 with h1 | h1
          · subst h1; exact hi ⟨rfl, h2, h3⟩
          · exact hw ⟨h1, h2, h3⟩
        rw [if_neg hi, if_neg hw2]

theorem mem_upperRange (n i j : Nat) : j ∈ upperRange n i ↔ i < j ∧ j < n := by
  unfold upperRange
  rw [List.mem_range'_1]
  omega

/-- The contact map after the proximity loop: a pair `a < b < nindex` within the cutoffs
of this frame is set to 1, every other cell keeps the value it had before the loop. -/
theorem proximityLoop_apply (S : Setup) (fr : Frame) (m : Nat → Nat → Int) (a b : Nat) :
    proximityLoop S fr m a b
      = if a < b ∧ b < S.nindex ∧ WithinCutoffs S fr a b then 1 else m a b := by
  unfold proximityLoop
  rw [proximityRows_apply]
  by_cases hw : a < b ∧ b < S.nindex ∧ WithinCutoffs S fr a b
  · have hw2 : a ∈ List.range S.nindex ∧ b ∈ upperRange S.nindex a ∧ WithinCutoffs S fr a b := by
      obtain ⟨h1, h2, h3⟩ := hw
      exact ⟨List.mem_range.2 (by omega), (mem_upperRange _ _ _).2 ⟨h1, h2⟩, h3⟩
    rw [if_pos hw, if_pos hw2]
  · have hw2 : ¬ (a ∈ List.range S.nindex ∧ b ∈ upperRange S.nindex a ∧
        WithinCutoffs S fr a b) := by
      rintro ⟨_, h2, h3⟩
      have := (mem_upperRange _ _ _).1 h2
      exact hw ⟨this.1, this.2, h3⟩
    rw [if_neg hw, if_neg hw2]

/-! ## The merge loop reads only the marks of the half matrix -/

theorem forM?_congr {σ α : Type} {body1 body2 : σ → α → Option σ} {l : List α}
    (h : ∀ x ∈ l, ∀ s, body1 s x = body2 s x) (s : σ) :
    forM? body1 l s = forM? body2 l s := by
  induction l generalizing s with
  | nil => rfl
  | cons x xs ih =>
    simp only [forM?, h x (List.mem_cons_self x xs) s]
    cases body2 s x with
    | none => rfl
    | some s' => exact ih (fun y hy => h y (List.mem_cons_of_mem x hy)) s'

theorem mergePass_congr {n : Nat} {m1 m2 : Nat → Nat → Int}
    (h : ∀ i j, i < j → j < n → (m1 i j ≠ 0 ↔ m2 i j ≠ 0)) (s : ClusterState) :
    mergePass n m1 s = mergePass n m2 s := by
  unfold mergePass mergeLoop
  apply forM?_congr
  intro i _ t
  unfold entityStep rowLoop
  apply forM?_congr
  intro j hj u
  obtain ⟨hij, hjn⟩ := (mem_upperRange n i j).1 hj
  unfold pairStep
  simp only [h i j hij hjn]

theorem forM?_invariant {σ α : Type} (P : σ → Prop) (body : σ → α → Option σ)
    (h : ∀ s x, P s → ∃ s', body s x = some s' ∧ P s') (l : List α) (s : σ) (hs : P s) :
    ∃ s', forM? body l s = some s' ∧ P s' := by
  induction l generalizing s with
  | nil => exact ⟨s, rfl, hs⟩
  | cons x xs ih =>
    obtain ⟨s1, h1, hp1⟩ := h s x hs
    obtain ⟨s2, h2, hp2⟩ := ih s1 hp1
    exact ⟨s2, by simp only [forM?, h1, h2], hp2⟩

/-! ## Aggregation -/

theorem aggregateStep_nclust (size : Nat → Int) (a : Aggregate) (i : Nat) :
    (aggregateStep size a i).nclust = a.nclust + if 0 < size i then 1 else 0 := by
  unfold aggregateStep
  simp only [gt_iff_lt]
  split_ifs <;> simp

theorem aggregateStep_row (size : Nat → Int) (a : Aggregate) (i : Nat) :
    (aggregateStep size a i).row
      = if 0 < size i then
          arrSet a.row (size i - 1).toNat (a.row (size i - 1).toNat + 1)
        else a.row := by
  unfold aggregateStep
  simp only [gt_iff_lt]
  split_ifs <;> simp

theorem aggregate_fold_nclust (size : Nat → Int) (a : Aggregate) (m : Nat) :
    ((List.range m).foldl (aggregateStep size) a).nclust
      = a.nclust + ∑ c in Finset.range m, if 0 < size c then 1 else 0 := by
  induction m with
  | zero => simp
  | succ m ih =>
    rw [List.range_succ, List.foldl_append, List.foldl_cons, List.foldl_nil,
      aggregateStep_nclust, ih, Finset.sum_range_succ]
    ring

theorem aggregate_fold_row (size : Nat → Int) (a : Aggregate) (m s : Nat) :
    ((List.range m).foldl (aggregateStep size) a).row s
      = a.row s + ∑ c in Finset.range m,
          if 0 < size c ∧ (size c - 1).toNat = s then 1 else 0 := by
  induction m with
  | zero => simp
  | succ m ih =>
    rw [List.range_succ, List.foldl_append, List.foldl_cons, List.foldl_nil,
      aggregateStep_row, Finset.sum_range_succ]
    by_cases hpos : 0 < size m
    · simp only [hpos, if_true, true_and, arrSet]
      by_cases hs : s = (size m - 1).toNat
      · subst hs
        simp only [if_true]
        rw [ih]; ring
      · have hs' : ¬ (size m - 1).toNat = s := fun h => hs h.symm
        simp only [hs, hs', if_false]
        rw [ih]; ring
    · simp only [hpos, if_false, false_and]
      rw [ih]; ring

/-- The cluster count of a frame is the number of labels with positive size. -/
theorem aggregate_nclust (n : Nat) (size : Nat → Int) (max_size : Int) :
    (aggregate n size max_size).nclust
      = ∑ c in Finset.range n, if 0 < size c then 1 else 0 := by
  unfold aggregate
  rw [aggregate_fold_nclust]
  simp [aggregateInit]

/-- Bin `s` of the histogram row counts the labels of size `s + 1`. -/
theorem aggregate_row (n : Nat) (size : Nat → Int) (max_size : Int) (s : Nat) :
    (aggregate n size max_size).row s
      = ∑ c in Finset.range n, if 0 < size c ∧ (size c - 1).toNat = s then 1 else 0 := by
  unfold aggregate
  rw [aggregate_fold_row]
  simp [aggregateInit]

theorem memberCount_le (n : Nat) (f : Nat → Nat) (c : Nat) : memberCount n f c ≤ n := by
  unfold memberCount
  have hle : ∑ k in Finset.range n, (if f k = c then (1 : Int) else 0)
      ≤ ∑ _k in Finset.range n, (1 : Int) := by
    apply Finset.sum_le_sum
    intro k _
    split_ifs <;> simp
  simpa using hle

theorem sum_Icc_pred (n : Nat) (f : Nat → ℚ) :
    ∑ s in Finset.Icc 1 n, f (s - 1) = ∑ s in Finset.range n, f s := by
  induction n with
  | zero => simp
  | succ n ih =>
    rw [Finset.sum_Icc_succ_top (by omega), ih, Finset.sum_range_succ]
    simp

/-- When no size exceeds `n`, the bins `0 .. n - 1` of the row add up to the cluster count. -/
theorem aggregate_row_sum (n : Nat) (size : Nat → Int) (max_size : Int)
    (hle : ∀ c, c < n → size c ≤ n) :
    ∑ s in Finset.Icc 1 n, (aggregate n size max_size).row (s - 1)
      = ((aggregate n size max_size).nclust : ℚ) := by
  rw [sum_Icc_pred, aggregate_nclust]
  simp only [aggregate_row]
  rw [Finset.sum_comm]
  push_cast
  apply Finset.sum_congr rfl
  intro c hc
  have hcn := hle c (Finset.mem_range.1 hc)
  by_cases hpos : 0 < size c
  · simp only [hpos, true_and, if_true]
    rw [Finset.sum_ite_eq]
    have hidx : (size c - 1).toNat ∈ Finset.range n := by
      rw [Finset.mem_range]; omega
    rw [if_pos hidx]
  · simp [hpos]

/-! ## One analysed frame and the frame loop -/

theorem analyseFrame_eq (S : Setup) (m : Nat → Nat → Int) (max_size : Int) (fr : Frame)
    {s : ClusterState}
    (h : mergePass S.nindex (proximityLoop S fr m) initClusters = some s) :
    analyseFrame S m max_size fr
      = some (proximityLoop S fr m,
          { clusters := s, agg := aggregate S.nindex s.clust_size max_size }) := by
  unfold analyseFrame
  simp only [h]

theorem analyseFrame_ok (S : Setup) (m : Nat → Nat → Int) (max_size : Int) (fr : Frame) :
    ∃ s, mergePass S.nindex (proximityLoop S fr m) initClusters = some s ∧
      analyseFrame S m max_size fr
        = some (proximityLoop S fr m,
            { clusters := s, agg := aggregate S.nindex s.clust_size max_size }) ∧
      MergeInv S.nindex (proximityLoop S fr m) s ∧
      ∀ a b, Connected S.nindex (proximityLoop S fr m) a b →
        s.clust_index a = s.clust_index b := by
  obtain ⟨s, hrun, hinv, hcomplete⟩ :=
    mergePass_ok (mergeInv_init S.nindex (proximityLoop S fr m))
  exact ⟨s, hrun, analyseFrame_eq S m max_size fr hrun, hinv, hcomplete⟩

/-- Induction over the frame loop: a property `I` of the contact map that every analysed
frame keeps, and a property `Q` that every analysed frame gives its output. -/
theorem runFrames_from (S : Setup) (I : (Nat → Nat → Int) → Prop) (Q : FrameOutput → Prop)
    (hstep : ∀ m max_size fr, I m →
      ∃ m' out, analyseFrame S m max_size fr = some (m', out) ∧ I m' ∧ Q out)
    (frames : List Frame) (st0 : RunState) (hI : I st0.cs_map)
    (hQ : ∀ out ∈ st0.analysed, Q out) :
    ∃ st, forM? (frameStep S) frames st0 = some st ∧ I st.cs_map ∧
      (∀ out ∈ st.analysed, Q out) ∧
      (S.nskip = 0 → st.analysed.length = st0.analysed.length + frames.length) := by
  induction frames generalizing st0 with
  | nil => exact ⟨st0, rfl, hI, hQ, fun _ => rfl⟩
  | cons fr rest ih =>
    by_cases han : isAnalysed S.nskip st0.nframe = true
    · obtain ⟨m', out, hfr, hI', hQout⟩ := hstep st0.cs_map st0.max_size fr hI
      have hQ' : ∀ o ∈ st0.analysed ++ [out], Q o := by
        intro o ho
        rcases List.mem_append.1 ho with ho | ho
        · exact hQ o ho
        · rw [List.mem_singleton.1 ho]; exact hQout
      obtain ⟨st, hrun, hIst, hQst, hlen⟩ :=
        ih { cs_map := m', clusters := out.clusters, nframe := st0.nframe + 1,
             max_size := out.agg.max_size, analysed := st0.analysed ++ [out] } hI' hQ'
      refine ⟨st, ?_, hIst, hQst, ?_⟩
      · simp only [forM?, frameStep, han, if_true, hfr, hrun]
      · intro h0
        have hl := hlen h0
        simp only [List.length_append, List.length_singleton] at hl
        rw [hl, List.length_cons]
        omega
    · obtain ⟨st, hrun, hIst, hQst, hlen⟩ :=
        ih { st0 with nframe := st0.nframe + 1 } hI hQ
      refine ⟨st, ?_, hIst, hQst, ?_⟩
      · simp only [forM?, frameStep, han]
        exact hrun
      · intro h0
        exact absurd (by simp [isAnalysed, h0]) han

theorem norm2_nonneg (a : RVec) : 0 ≤ norm2 a := by
  unfold norm2
  have h1 := mul_self_nonneg a.x
  have h2 := mul_self_nonneg a.y
  have h3 := mul_self_nonneg a.z
  linarith

theorem pairStep_unmarked {n : Nat} {cs_map : Nat → Nat → Int} {i j : Nat}
    (h : cs_map i j = 0) (ci : Nat) (s : ClusterState) :
    pairStep n cs_map i ci s j = some s := by
  unfold pairStep
  simp [h]

/-- With no cell set, the merge loop returns the state it was given. -/
theorem mergePass_unmarked {n : Nat} {cs_map : Nat → Nat → Int}
    (h : ∀ i j, cs_map i j = 0) (s : ClusterState) : mergePass n cs_map s = some s := by
  have hrow : ∀ (i ci : Nat) (js : List Nat) (t : ClusterState),
      forM? (pairStep n cs_map i ci) js t = some t := by
    intro i ci js
    induction js with
    | nil => intro t; rfl
    | cons j rest ih =>
      intro t
      simp only [forM?, pairStep_unmarked (h i j), ih]
  have hall : ∀ (is : List Nat) (t : ClusterState), mergeLoop n cs_map is t = some t := by
    intro is
    induction is with
    | nil => intro t; rfl
    | cons i rest ih =>
      intro t
      unfold mergeLoop at ih ⊢
      simp only [forM?, entityStep, rowLoop, hrow, ih]
  exact hall _ s

/-! ## Evaluation of the two-entity setup -/

theorem pairSetup_centre (fr : Frame) (i : Nat) : centre pairSetup fr i = fr.x i := by
  simp [centre, pairSetup, Block.particles, clear_rvec, List.range']

theorem pairSetup_within (fr : Frame) :
    WithinCutoffs pairSetup fr 0 1 ↔ norm2 (rvec_sub (fr.x 0) (fr.x 1)) < 1 := by
  unfold WithinCutoffs
  rw [pairSetup_centre, pairSetup_centre]
  simp only [displacement, pairSetup, Block.particles, Bool.false_eq_true, if_false]
  simp only [Nat.add_sub_cancel_left, List.range', List.mem_singleton, exists_eq_left]
  constructor
  · intro h; simpa using h.2
  · intro h; exact ⟨by simpa using le_of_lt h, by simpa using h⟩

theorem nearFrame_within : WithinCutoffs pairSetup nearFrame 0 1 := by
  rw [pairSetup_within]
  norm_num [norm2, rvec_sub, nearFrame]

theorem farFrame_not_within : ¬ WithinCutoffs pairSetup farFrame 0 1 := by
  rw [pairSetup_within]
  norm_num [norm2, rvec_sub, farFrame]

theorem pair_merge_marked {m : Nat → Nat → Int} (h : m 0 1 ≠ 0) :
    ∃ s, mergePass 2 m initClusters = some s ∧ s.clust_index 0 = 0 ∧ s.clust_index 1 = 0 ∧
      s.clust_size 0 = 2 ∧ s.clust_size 1 = 0 := by
  have hval : (mergePass 2 (mapOfPairs [(0, 1)]) initClusters).map
      (fun s => (s.clust_index 0, s.clust_index 1, s.clust_size 0, s.clust_size 1))
      = some (0, 0, 2, 0) := by decide
  have hcongr : mergePass 2 m initClusters = mergePass 2 (mapOfPairs [(0, 1)]) initClusters := by
    apply mergePass_congr
    intro i j hij hj
    have hi : i = 0 := by omega
    have hj1 : j = 1 := by omega
    subst hi hj1
    simp only [ne_eq, h, not_false_eq_true, true_iff]
    decide
  obtain ⟨s, hrun, _⟩ := mergePass_ok (mergeInv_init 2 m)
  rw [← hcongr, hrun] at hval
  simp only [Option.map_some', Option.some.injEq, Prod.mk.injEq] at hval
  exact ⟨s, hrun, hval.1, hval.2.1, hval.2.2.1, hval.2.2.2⟩

theorem pair_merge_unmarked {m : Nat → Nat → Int} (h : m 0 1 = 0) :
    ∃ s, mergePass 2 m initClusters = some s ∧ s.clust_index 0 = 0 ∧ s.clust_index 1 = 1 ∧
      s.clust_size 0 = 1 ∧ s.clust_size 1 = 1 := by
  have hval : (mergePass 2 (mapOfPairs []) initClusters).map
      (fun s => (s.clust_index 0, s.clust_index 1, s.clust_size 0, s.clust_size 1))
      = some (0, 1, 1, 1) := by decide
  have hcongr : mergePass 2 m initClusters = mergePass 2 (mapOfPairs []) initClusters := by
    apply mergePass_congr
    intro i j hij hj
    have hi : i = 0 := by omega
    have hj1 : j = 1 := by omega
    subst hi hj1
    simp only [ne_eq, h, not_true_eq_false, false_iff, not_not]
    decide
  obtain ⟨s, hrun, _⟩ := mergePass_ok (mergeInv_init 2 m)
  rw [← hcongr, hrun] at hval
  simp only [Option.map_some', Option.some.injEq, Prod.mk.injEq] at hval
  exact ⟨s, hrun, hval.1, hval.2.1, hval.2.2.1, hval.2.2.2⟩

/-! ## Claims on the frame pipeline -/

/-- C5 at a concrete trajectory: with two single-particle entities and both cutoffs 1, the
pair is not within the cutoffs in the frame `farFrame`; yet when `farFrame` follows
`nearFrame` the cell `cs_map[0][1]` is still set, entity 1 gets label 0 and the frame
reports one cluster, whereas `farFrame` analysed alone gives entity 1 label 1 and two
clusters. -/
theorem stale_contact_merges_far_pair :
    ¬ WithinCutoffs pairSetup farFrame 0 1 ∧
    (∃ st o1 o2, runFrames pairSetup [nearFrame, farFrame] = some st ∧
      st.analysed = [o1, o2] ∧ st.cs_map 0 1 = 1 ∧
      o2.clusters.clust_index 1 = 0 ∧ o2.agg.nclust = 1) ∧
    (∃ st o, runFrames pairSetup [farFrame] = some st ∧
      st.analysed = [o] ∧ st.cs_map 0 1 = 0 ∧
      o.clusters.clust_index 1 = 1 ∧ o.agg.nclust = 2) := by
  have hnear : proximityLoop pairSetup nearFrame (fun _ _ => 0) 0 1 = 1 := by
    rw [proximityLoop_apply, if_pos ⟨by decide, by decide, nearFrame_within⟩]
  have hstale : proximityLoop pairSetup farFrame
      (proximityLoop pairSetup nearFrame (fun _ _ => 0)) 0 1 = 1 := by
    rw [proximityLoop_apply, hnear]
    split_ifs <;> rfl
  have hfar : proximityLoop pairSetup farFrame (fun _ _ => 0) 0 1 = 0 := by
    rw [proximityLoop_apply, if_neg (fun h => farFrame_not_within h.2.2)]
  have hs : isAnalysed pairSetup.nskip 0 = true := by decide
  have hs1 : isAnalysed pairSetup.nskip (0 + 1) = true := by decide
  refine ⟨farFrame_not_within, ?_, ?_⟩
  · obtain ⟨s1, hrun1, _⟩ := pair_merge_marked (m := proximityLoop pairSetup nearFrame
      (fun _ _ => 0)) (by rw [hnear]; decide)
    obtain ⟨s2, hrun2, _, h21, h22, h23⟩ := pair_merge_marked
      (m := proximityLoop pairSetup farFrame (proximityLoop pairSetup nearFrame (fun _ _ => 0)))
      (by rw [hstale]; decide)
    have ha1 := analyseFrame_eq pairSetup (fun _ _ => 0) 0 nearFrame hrun1
    have ha2 := analyseFrame_eq pairSetup (proximityLoop pairSetup nearFrame (fun _ _ => 0))
      (aggregate 2 s1.clust_size 0).max_size farFrame hrun2
    refine ⟨{ cs_map := proximityLoop pairSetup farFrame
                (proximityLoop pairSetup nearFrame (fun _ _ => 0))
              clusters := s2
              nframe := 0 + 1 + 1
              max_size := (aggregate 2 s2.clust_size (aggregate 2 s1.clust_size 0).max_size).max_size
              analysed := [] ++ [{ clusters := s1, agg := aggregate 2 s1.clust_size 0 }] ++
                [{ clusters := s2
                   agg := aggregate 2 s2.clust_size (aggregate 2 s1.clust_size 0).max_size }] },
      { clusters := s1, agg := aggregate 2 s1.clust_size 0 },
      { clusters := s2
        agg := aggregate 2 s2.clust_size (aggregate 2 s1.clust_size 0).max_size },
      ?_, rfl, hstale, h21, ?_⟩
    · have hn : pairSetup.nindex = 2 := rfl
      simp only [hn] at ha1 ha2
      simp only [runFrames, forM?, frameStep, runInit, hs, hs1, if_true]
      rw [ha1]
      simp only [hs1, if_true]
      rw [ha2]
    · show (aggregate 2 s2.clust_size _).nclust = 1
      rw [aggregate_nclust]
      simp only [Finset.sum_range_succ, Finset.sum_range_zero, h22, h23]
      decide
  · obtain ⟨s, hrun, _, h1, h2, h3⟩ := pair_merge_unmarked
      (m := proximityLoop pairSetup farFrame (fun _ _ => 0)) hfar
    have ha := analyseFrame_eq pairSetup (fun _ _ => 0) 0 farFrame hrun
    refine ⟨{ cs_map := proximityLoop pairSetup farFrame (fun _ _ => 0)
              clusters := s
              nframe := 0 + 1
              max_size := (aggregate 2 s.clust_size 0).max_size
              analysed := [] ++ [{ clusters := s, agg := aggregate 2 s.clust_size 0 }] },
      { clusters := s, agg := aggregate 2 s.clust_size 0 }, ?_, rfl, hfar, h1, ?_⟩
    · have hn : pairSetup.nindex = 2 := rfl
      simp only [hn] at ha
      simp only [runFrames, forM?, frameStep, runInit, hs, if_true]
      rw [ha]
    · show (aggregate 2 s.clust_size _).nclust = 2
      rw [aggregate_nclust]
      simp only [Finset.sum_range_succ, Finset.sum_range_zero, h2, h3]
      decide

/-- The proximity loop run by one thread in exact arithmetic: when the stride admits the
first frame (`nskip ≥ 0`), that frame is analysed on the zeroed contact map, and afterwards
a cell `cs_map[i][j]` with `i < j < nindex` is set if and only if the coarse test on the
centres passes and some particle pair of the two blocks is strictly below the fine
cutoff. -/
theorem first_frame_contacts (S : Setup) (fr : Frame) (hskip : 0 ≤ S.nskip) :
    ∃ st out, runFrames S [fr] = some st ∧ st.analysed = [out] ∧
      ∀ i j, i < j → j < S.nindex → (st.cs_map i j ≠ 0 ↔ WithinCutoffs S fr i j) := by
  have han : isAnalysed S.nskip 0 = true := by
    unfold isAnalysed
    rcases lt_or_eq_of_le hskip with h | h
    · simp [h]
    · simp [h.symm]
  obtain ⟨s, _, heq, _, _⟩ := analyseFrame_ok S (fun _ _ => 0) 0 fr
  refine ⟨{ cs_map := proximityLoop S fr (fun _ _ => 0)
            clusters := s
            nframe := 0 + 1
            max_size := (aggregate S.nindex s.clust_size 0).max_size
            analysed := [] ++ [{ clusters := s, agg := aggregate S.nindex s.clust_size 0 }] },
    { clusters := s, agg := aggregate S.nindex s.clust_size 0 }, ?_, rfl, ?_⟩
  · simp only [runFrames, forM?, frameStep, runInit, han, if_true]
    rw [heq]
  · intro i j hij hj
    show proximityLoop S fr (fun _ _ => 0) i j ≠ 0 ↔ _
    rw [proximityLoop_apply]
    by_cases hw : WithinCutoffs S fr i j
    · simp [hij, hj, hw]
    · simp [hw]

/-- The one-thread first frame on the two-entity setup. -/
theorem first_frame_contacts_witness :
    0 ≤ pairSetup.nskip ∧
    ∃ st out, runFrames pairSetup [nearFrame] = some st ∧ st.analysed = [out] ∧
      ∀ i j, i < j → j < pairSetup.nindex →
        (st.cs_map i j ≠ 0 ↔ WithinCutoffs pairSetup nearFrame i j) :=
  ⟨by decide, first_frame_contacts pairSetup nearFrame (by decide)⟩

/-- C8: every analysed frame returns, and the bins `hist[frame][s - 1]`, `s = 1 .. nindex`,
of its histogram row add up to the cluster count of the frame; this holds for a frame
analysed on any contact map, hence for every entry the frame loop records. -/
theorem histogram_row_sum_is_cluster_count (S : Setup) :
    (∀ (m : Nat → Nat → Int) (max_size : Int) (fr : Frame),
      ∃ m' out, analyseFrame S m max_size fr = some (m', out) ∧
        ∑ s in Finset.Icc 1 S.nindex, out.agg.row (s - 1) = (out.agg.nclust : ℚ)) ∧
    ∀ frames : List Frame, ∃ st, runFrames S frames = some st ∧
      ∀ out ∈ st.analysed,
        ∑ s in Finset.Icc 1 S.nindex, out.agg.row (s - 1) = (out.agg.nclust : ℚ) := by
  have hframe : ∀ (m : Nat → Nat → Int) (max_size : Int) (fr : Frame),
      ∃ m' out, analyseFrame S m max_size fr = some (m', out) ∧
        ∑ s in Finset.Icc 1 S.nindex, out.agg.row (s - 1) = (out.agg.nclust : ℚ) := by
    intro m max_size fr
    obtain ⟨s, _, heq, hinv, _⟩ := analyseFrame_ok S m max_size fr
    refine ⟨_, _, heq, ?_⟩
    apply aggregate_row_sum
    intro c hc
    rw [hinv.sizes.size_eq c hc]
    exact memberCount_le _ _ _
  refine ⟨hframe, fun frames => ?_⟩
  obtain ⟨st, hrun, _, hQ, _⟩ := runFrames_from S (fun _ => True)
    (fun out => ∑ s in Finset.Icc 1 S.nindex, out.agg.row (s - 1) = (out.agg.nclust : ℚ))
    (fun m max_size fr _ => by
      obtain ⟨m', out, h1, h2⟩ := hframe m max_size fr
      exact ⟨m', out, h1, trivial, h2⟩)
    frames runInit trivial (by intro out hout; cases hout)
  exact ⟨st, hrun, hQ⟩

/-- Aggregation of the initial sizes: `n` clusters, all in bin 0. -/
theorem aggregate_singletons (n : Nat) (max_size : Int) :
    (aggregate n initClusters.clust_size max_size).nclust = n ∧
    (aggregate n initClusters.clust_size max_size).row 0 = n := by
  constructor
  · rw [aggregate_nclust]
    simp [initClusters]
  · rw [aggregate_row]
    simp [initClusters]

/-- C9: when the coarse and the fine cutoff are both zero, the frame loop returns on every
trajectory, and every analysed frame has cluster count `nindex`, `clust_size[c] = 1` and
`clust_index[c] = c` for every entity `c`, and `nindex` in bin 0 of its histogram row. -/
theorem zero_cutoffs_give_singletons (S : Setup) (hcut : S.cut = 0) (_hmol : S.mol_cut = 0)
    (frames : List Frame) :
    ∃ st, runFrames S frames = some st ∧
      ∀ out ∈ st.analysed,
        out.agg.nclust = S.nindex ∧
        (∀ c, c < S.nindex →
          out.clusters.clust_size c = 1 ∧ out.clusters.clust_index c = c) ∧
        out.agg.row 0 = S.nindex := by
  obtain ⟨st, hrun, _, hQ, _⟩ := runFrames_from S (fun m => ∀ i j, m i j = 0)
    (fun out => out.agg.nclust = S.nindex ∧
        (∀ c, c < S.nindex →
          out.clusters.clust_size c = 1 ∧ out.clusters.clust_index c = c) ∧
        out.agg.row 0 = S.nindex)
    (fun m max_size fr hm => by
      have hzero : ∀ i j, proximityLoop S fr m i j = 0 := by
        intro i j
        rw [proximityLoop_apply, hm i j, if_neg]
        rintro ⟨_, _, _, ii, _, jj, _, hlt⟩
        rw [hcut] at hlt
        have := norm2_nonneg (displacement S fr (fr.x ii) (fr.x jj))
        simp only [mul_zero] at hlt
        exact absurd hlt (not_lt.2 this)
      have hrun := mergePass_unmarked (n := S.nindex) hzero initClusters
      refine ⟨_, _, analyseFrame_eq S m max_size fr hrun, hzero, ?_⟩
      have hagg := aggregate_singletons S.nindex max_size
      exact ⟨hagg.1, fun c _ => ⟨rfl, rfl⟩, hagg.2⟩)
    frames runInit (fun _ _ => rfl) (by intro out hout; cases hout)
  exact ⟨st, hrun, hQ⟩

/-- Witness of C9: two frames analysed with both cutoffs zero. -/
theorem zero_cutoffs_give_singletons_witness :
    zeroCutSetup.cut = 0 ∧ zeroCutSetup.mol_cut = 0 ∧
    ∃ st, runFrames zeroCutSetup [nearFrame, farFrame] = some st ∧
      ∀ out ∈ st.analysed,
        out.agg.nclust = zeroCutSetup.nindex ∧
        (∀ c, c < zeroCutSetup.nindex →
          out.clusters.clust_size c = 1 ∧ out.clusters.clust_index c = c) ∧
        out.agg.row 0 = zeroCutSetup.nindex :=
  ⟨rfl, rfl, zero_cutoffs_give_singletons zeroCutSetup rfl rfl [nearFrame, farFrame]⟩

theorem memberCount_const {n : Nat} {f : Nat → Nat} {c : Nat} (h : ∀ k, k < n → f k = c) :
    memberCount n f c = n := by
  unfold memberCount
  have hterm : ∀ k ∈ Finset.range n, (if f k = c then (1 : Int) else 0) = 1 := by
    intro k hk
    rw [if_pos (h k (Finset.mem_range.1 hk))]
  rw [Finset.sum_congr rfl hterm]
  simp

/-- The proximity loop run by one thread in exact arithmetic: a frame with at least one
entity, non-empty blocks, every centre pair below the coarse cutoff and every particle pair
of different blocks below the fine cutoff (squared displacements against squared cutoffs,
as the code compares them) is analysed into one cluster, on whatever contact map it
starts: cluster count 1, one label `L` of size `nindex`, every entity under `L`, every
other size 0. -/
theorem one_cluster_when_all_within (S : Setup) (m : Nat → Nat → Int) (max_size : Int)
    (fr : Frame) (hn : 1 ≤ S.nindex)
    (hblock : ∀ i, i < S.nindex → (S.mols (S.index i)).first < (S.mols (S.index i)).stop)
    (hcoarse : ∀ i j, i < j → j < S.nindex →
      norm2 (displacement S fr (centre S fr i) (centre S fr j)) < S.mol_cut * S.mol_cut)
    (hfine : ∀ i j, i < j → j < S.nindex →
      ∀ ii ∈ (S.mols (S.index i)).particles, ∀ jj ∈ (S.mols (S.index j)).particles,
        norm2 (displacement S fr (fr.x ii) (fr.x jj)) < S.cut * S.cut) :
    ∃ m' out, analyseFrame S m max_size fr = some (m', out) ∧
      out.agg.nclust = 1 ∧
      ∃ L, L < S.nindex ∧ out.clusters.clust_size L = S.nindex ∧
        (∀ k, k < S.nindex → out.clusters.clust_index k = L) ∧
        ∀ c, c < S.nindex → c ≠ L → out.clusters.clust_size c = 0 := by
  obtain ⟨s, _, heq, hinv, hcomplete⟩ := analyseFrame_ok S m max_size fr
  have hfirst : ∀ i, i < S.nindex →
      (S.mols (S.index i)).first ∈ (S.mols (S.index i)).particles := by
    intro i hi
    have := hblock i hi
    unfold Block.particles
    rw [List.mem_range'_1]
    omega
  have hmarked : ∀ a b, a < b → b < S.nindex →
      Marked S.nindex (proximityLoop S fr m) a b := by
    intro a b hab hb
    have hw : WithinCutoffs S fr a b :=
      ⟨le_of_lt (hcoarse a b hab hb), _, hfirst a (by omega), _, hfirst b hb,
        hfine a b hab hb _ (hfirst a (by omega)) _ (hfirst b hb)⟩
    refine ⟨hab, hb, ?_⟩
    rw [proximityLoop_apply, if_pos ⟨hab, hb, hw⟩]
    decide
  have hconn : ∀ a b, a < S.nindex → b < S.nindex →
      Connected S.nindex (proximityLoop S fr m) a b := by
    intro a b ha hb
    rcases Nat.lt_trichotomy a b with h | h | h
    · exact connected_of_marked (hmarked a b h hb)
    · subst h; exact Relation.ReflTransGen.refl
    · exact connected_symm (connected_of_marked (hmarked b a h ha))
  have hlab : ∀ k, k < S.nindex → s.clust_index k = s.clust_index 0 :=
    fun k hk => hcomplete k 0 (hconn k 0 hk (by omega))
  have hL : s.clust_index 0 < S.nindex := hinv.sizes.label_lt 0 (by omega)
  have hsizeL : s.clust_size (s.clust_index 0) = S.nindex := by
    rw [hinv.sizes.size_eq _ hL]
    exact memberCount_const hlab
  have hsize0 : ∀ c, c < S.nindex → c ≠ s.clust_index 0 → s.clust_size c = 0 := by
    intro c hc hne
    rw [hinv.sizes.size_eq c hc]
    exact memberCount_eq_zero (fun k hk hkc => hne (by rw [← hkc, hlab k hk]))
  refine ⟨_, _, heq, ?_, s.clust_index 0, hL, hsizeL, hlab, hsize0⟩
  show (aggregate S.nindex s.clust_size max_size).nclust = 1
  rw [aggregate_nclust]
  have hterm : ∀ c ∈ Finset.range S.nindex,
      (if 0 < s.clust_size c then (1 : Int) else 0) = if s.clust_index 0 = c then 1 else 0 := by
    intro c hc
    by_cases hcl : s.clust_index 0 = c
    · subst hcl
      rw [hsizeL]
      simp only [if_true]
      rw [if_pos]
      exact_mod_cast hn
    · rw [hsize0 c (Finset.mem_range.1 hc) (fun h => hcl h.symm)]
      simp [hcl]
  rw [Finset.sum_congr rfl hterm, Finset.sum_ite_eq]
  simp [hL]

theorem nearFrame_coarse :
    norm2 (displacement pairSetup nearFrame (centre pairSetup nearFrame 0)
      (centre pairSetup nearFrame 1)) < pairSetup.mol_cut * pairSetup.mol_cut := by
  rw [pairSetup_centre, pairSetup_centre]
  norm_num [displacement, pairSetup, norm2, rvec_sub, nearFrame]

theorem nearFrame_fine :
    norm2 (displacement pairSetup nearFrame (nearFrame.x 0) (nearFrame.x 1))
      < pairSetup.cut * pairSetup.cut := by
  norm_num [displacement, pairSetup, norm2, rvec_sub, nearFrame]

theorem pairSetup_particles (a : Nat) : (pairSetup.mols (pairSetup.index a)).particles = [a] := by
  simp [pairSetup, Block.particles, List.range']

/-- The one-thread analysis of the two-entity setup on the frame with the particles 1/2
apart. -/
theorem one_cluster_when_all_within_witness :
    1 ≤ pairSetup.nindex ∧
    ∃ m' out, analyseFrame pairSetup (fun _ _ => 0) 0 nearFrame = some (m', out) ∧
      out.agg.nclust = 1 ∧
      ∃ L, L < pairSetup.nindex ∧ out.clusters.clust_size L = pairSetup.nindex ∧
        (∀ k, k < pairSetup.nindex → out.clusters.clust_index k = L) ∧
        ∀ c, c < pairSetup.nindex → c ≠ L → out.clusters.clust_size c = 0 :=
  ⟨by decide,
    one_cluster_when_all_within pairSetup (fun _ _ => 0) 0 nearFrame (by decide)
      (fun i _ => by simp [pairSetup])
      (fun i j hij hj => by
        have hj2 : j < 2 := hj
        have hi : i = 0 := by omega
        have hj1 : j = 1 := by omega
        subst hi hj1
        exact nearFrame_coarse)
      (fun i j hij hj ii hii jj hjj => by
        have hj2 : j < 2 := hj
        have hi : i = 0 := by omega
        have hj1 : j = 1 := by omega
        subst hi hj1
        rw [pairSetup_particles, List.mem_singleton] at hii hjj
        subst hii hjj
        exact nearFrame_fine)⟩

/-! ## Largest cluster of a frame -/

theorem aggregateStep_max (size : Nat → Int) (a : Aggregate) (i : Nat) :
    (aggregateStep size a i).max_clust_size
        = (if a.max_clust_size < size i then size i else a.max_clust_size) ∧
    (aggregateStep size a i).max_clust_ind
        = (if a.max_clust_size < size i then (i : Int) else a.max_clust_ind) := by
  unfold aggregateStep
  simp only [gt_iff_lt]
  split_ifs <;> simp

/-- The maximum tracked by the aggregation loop after the entities below `m`: it starts
from size 1 and index -1 and moves only on a strictly larger size. -/
theorem aggregate_fold_max (size : Nat → Int) (max_size : Int) (m : Nat) :
    1 ≤ ((List.range m).foldl (aggregateStep size) (aggregateInit max_size)).max_clust_size ∧
    (∀ i, i < m → size i
      ≤ ((List.range m).foldl (aggregateStep size) (aggregateInit max_size)).max_clust_size) ∧
    ((((List.range m).foldl (aggregateStep size) (aggregateInit max_size)).max_clust_ind = -1 ∧
      ((List.range m).foldl (aggregateStep size) (aggregateInit max_size)).max_clust_size = 1) ∨
     ∃ L, L < m ∧
      ((List.range m).foldl (aggregateStep size) (aggregateInit max_size)).max_clust_ind = L ∧
      size L = ((List.range m).foldl (aggregateStep size) (aggregateInit max_size)).max_clust_size ∧
      1 < ((List.range m).foldl (aggregateStep size) (aggregateInit max_size)).max_clust_size) := by
  induction m with
  | zero =>
    refine ⟨by simp [aggregateInit], fun i hi => absurd hi (Nat.not_lt_zero i), Or.inl ?_⟩
    simp [aggregateInit]
  | succ m ih =>
    rw [List.range_succ, List.foldl_append, List.foldl_cons, List.foldl_nil]
    obtain ⟨h1, hle, hind⟩ := ih
    obtain ⟨hs, hi⟩ := aggregateStep_max size
      ((List.range m).foldl (aggregateStep size) (aggregateInit max_size)) m
    rw [hs, hi]
    by_cases hgt : ((List.range m).foldl (aggregateStep size)
        (aggregateInit max_size)).max_clust_size < size m
    · simp only [hgt, if_true]
      refine ⟨by omega, ?_, Or.inr ⟨m, Nat.lt_succ_self m, rfl, rfl, by omega⟩⟩
      intro i hi'
      rcases Nat.lt_succ_iff_lt_or_eq.1 hi' with h | h
      · have := hle i h; omega
      · subst h; exact le_refl _
    · simp only [hgt, if_false]
      refine ⟨h1, ?_, ?_⟩
      · intro i hi'
        rcases Nat.lt_succ_iff_lt_or_eq.1 hi' with h | h
        · exact hle i h
        · subst h; omega
      · rcases hind with h | ⟨L, hL, h2, h3, h4⟩
        · exact Or.inl h
        · exact Or.inr ⟨L, Nat.lt_succ_of_lt hL, h2, h3, h4⟩

theorem mergePass_single (m : Nat → Nat → Int) (s : ClusterState) :
    mergePass 1 m s = some s := rfl

/-! ## Claims on single frames -/

/-- C12: with a single entity, whatever the cutoffs and positions, the loop over `j` has no
value to run over, the merge loop returns the state it was given without a merge, and
every analysed frame of every trajectory reports cluster count 1 with `clust_size[0] = 1`
and `clust_index[0] = 0`. -/
theorem single_entity_one_cluster (S : Setup) (hn : S.nindex = 1) (frames : List Frame) :
    (∀ i, upperRange S.nindex i = []) ∧
    (∀ (m : Nat → Nat → Int) (s : ClusterState), mergePass S.nindex m s = some s) ∧
    ∃ st, runFrames S frames = some st ∧
      ∀ out ∈ st.analysed,
        out.agg.nclust = 1 ∧ out.clusters.clust_size 0 = 1 ∧ out.clusters.clust_index 0 = 0 := by
  refine ⟨fun i => ?_, fun m s => ?_, ?_⟩
  · unfold upperRange
    rw [hn]
    have : 1 - (i + 1) = 0 := by omega
    rw [this]
    rfl
  · rw [hn]
    exact mergePass_single m s
  · obtain ⟨st, hrun, _, hQ, _⟩ := runFrames_from S (fun _ => True)
      (fun out => out.agg.nclust = 1 ∧ out.clusters.clust_size 0 = 1 ∧
        out.clusters.clust_index 0 = 0)
      (fun m max_size fr _ => by
        have hrun : mergePass S.nindex (proximityLoop S fr m) initClusters
            = some initClusters := by
          rw [hn]
          exact mergePass_single _ _
        refine ⟨_, _, analyseFrame_eq S m max_size fr hrun, trivial, ?_, rfl, rfl⟩
        have hagg := (aggregate_singletons S.nindex max_size).1
        rw [hn] at hagg
        rw [hn]
        exact hagg)
      frames runInit trivial (by intro out hout; cases hout)
    exact ⟨st, hrun, hQ⟩

/-- Witness of C12: one entity, two frames. -/
theorem single_entity_one_cluster_witness :
    singleSetup.nindex = 1 ∧
    (∀ i, upperRange singleSetup.nindex i = []) ∧
    (∀ (m : Nat → Nat → Int) (s : ClusterState), mergePass singleSetup.nindex m s = some s) ∧
    ∃ st, runFrames singleSetup [nearFrame, farFrame] = some st ∧
      ∀ out ∈ st.analysed,
        out.agg.nclust = 1 ∧ out.clusters.clust_size 0 = 1 ∧ out.clusters.clust_index 0 = 0 :=
  ⟨rfl, single_entity_one_cluster singleSetup rfl [nearFrame, farFrame]⟩

/-- C19: for a frame with at least one entity, analysed on any contact map, the max cluster
size of the frame is the maximum of `clust_size[i]` over the entities: no size exceeds it
and some entity index has exactly that size. -/
theorem max_cluster_size_is_maximum (S : Setup) (m : Nat → Nat → Int) (max_size : Int)
    (fr : Frame) (hn : 1 ≤ S.nindex) :
    ∃ m' out, analyseFrame S m max_size fr = some (m', out) ∧
      (∀ i, i < S.nindex → out.clusters.clust_size i ≤ out.agg.max_clust_size) ∧
      ∃ i, i < S.nindex ∧ out.clusters.clust_size i = out.agg.max_clust_size := by
  obtain ⟨s, _, heq, hinv, _⟩ := analyseFrame_ok S m max_size fr
  obtain ⟨_, hle, hind⟩ := aggregate_fold_max s.clust_size max_size S.nindex
  refine ⟨_, _, heq, hle, ?_⟩
  rcases hind with ⟨_, hone⟩ | ⟨L, hL, _, hsz, _⟩
  · have hlt := hinv.sizes.label_lt 0 (by omega)
    have hpos : 0 < s.clust_size (s.clust_index 0) := by
      rw [hinv.sizes.size_eq _ hlt]
      exact memberCount_pos (by omega) _
    have hle1 := hle _ hlt
    refine ⟨s.clust_index 0, hlt, ?_⟩
    show s.clust_size (s.clust_index 0) = (aggregate S.nindex s.clust_size max_size).max_clust_size
    unfold aggregate
    omega
  · exact ⟨L, hL, hsz⟩

/-- Witness of C19 on the two-entity setup. -/
theorem max_cluster_size_is_maximum_witness :
    1 ≤ pairSetup.nindex ∧
    ∃ m' out, analyseFrame pairSetup (fun _ _ => 0) 0 nearFrame = some (m', out) ∧
      (∀ i, i < pairSetup.nindex → out.clusters.clust_size i ≤ out.agg.max_clust_size) ∧
      ∃ i, i < pairSetup.nindex ∧ out.clusters.clust_size i = out.agg.max_clust_size :=
  ⟨by decide, max_cluster_size_is_maximum pairSetup (fun _ _ => 0) 0 nearFrame (by decide)⟩

/-- C20, as stated, fails: on the two-entity setup with the particles 10 apart the frame
has two clusters of size 1, and the label recorded for the max cluster is -1, which is no
entity index. -/
theorem max_cluster_label_unset :
    ∃ m' out, analyseFrame pairSetup (fun _ _ => 0) 0 farFrame = some (m', out) ∧
      out.agg.max_clust_ind = -1 ∧
      ¬ ∃ L : Nat, L < pairSetup.nindex ∧ out.agg.max_clust_ind = L := by
  have hfar : proximityLoop pairSetup farFrame (fun _ _ => 0) 0 1 = 0 := by
    rw [proximityLoop_apply, if_neg (fun h => farFrame_not_within h.2.2)]
  obtain ⟨s, hrun, _, _, h0, h1⟩ := pair_merge_unmarked hfar
  have heq := analyseFrame_eq pairSetup (fun _ _ => 0) 0 farFrame hrun
  obtain ⟨_, _, hind⟩ := aggregate_fold_max s.clust_size 0 2
  have hunset : (aggregate 2 s.clust_size 0).max_clust_ind = -1 := by
    rcases hind with ⟨h, _⟩ | ⟨L, hL, _, hsz, hgt⟩
    · exact h
    · have hL' : L = 0 ∨ L = 1 := by omega
      rcases hL' with rfl | rfl
      · rw [h0] at hsz; omega
      · rw [h1] at hsz; omega
  refine ⟨_, _, heq, hunset, ?_⟩
  rintro ⟨L, _, hL⟩
  have : (aggregate 2 s.clust_size 0).max_clust_ind = (L : Int) := hL
  omega

/-- C20, amended: for a frame analysed on any contact map, either some cluster has more
than one entity, and then the label recorded for the max cluster is an entity index `L`
below `nindex` with `clust_size[L]` equal to the max cluster size, or every size is at
most 1, and then the recorded label is -1 and the max cluster size is 1. -/
theorem max_cluster_label_when_set (S : Setup) (m : Nat → Nat → Int) (max_size : Int)
    (fr : Frame) :
    ∃ m' out, analyseFrame S m max_size fr = some (m', out) ∧
      ((∃ L, L < S.nindex ∧ out.agg.max_clust_ind = L ∧
          out.clusters.clust_size L = out.agg.max_clust_size ∧ 1 < out.agg.max_clust_size) ∨
       (out.agg.max_clust_ind = -1 ∧ out.agg.max_clust_size = 1 ∧
          ∀ i, i < S.nindex → out.clusters.clust_size i ≤ 1)) := by
  obtain ⟨s, _, heq, _, _⟩ := analyseFrame_ok S m max_size fr
  obtain ⟨_, hle, hind⟩ := aggregate_fold_max s.clust_size max_size S.nindex
  refine ⟨_, _, heq, ?_⟩
  rcases hind with ⟨hunset, hone⟩ | hset
  · refine Or.inr ⟨hunset, hone, fun i hi => ?_⟩
    have := hle i hi
    rw [hone] at this
    exact this
  · exact Or.inl hset

/-! ## Four entities in two pairs -/

theorem mapOfPairs_ne_zero (ps : List (Nat × Nat)) (i j : Nat) :
    mapOfPairs ps i j ≠ 0 ↔ (i, j) ∈ ps := by
  unfold mapOfPairs
  split_ifs with h <;> simp [h]

/-- A trajectory of one frame that the stride admits: the frame is analysed on the zeroed
contact map. -/
theorem runFrames_single (S : Setup) (fr : Frame) (hskip : 0 ≤ S.nskip) {s : ClusterState}
    (h : mergePass S.nindex (proximityLoop S fr (fun _ _ => 0)) initClusters = some s) :
    runFrames S [fr]
      = some { cs_map := proximityLoop S fr (fun _ _ => 0)
               clusters := s
               nframe := 0 + 1
               max_size := (aggregate S.nindex s.clust_size 0).max_size
               analysed := [] ++ [{ clusters := s, agg := aggregate S.nindex s.clust_size 0 }] } := by
  have han : isAnalysed S.nskip 0 = true := by
    unfold isAnalysed
    rcases lt_or_eq_of_le hskip with h | h
    · simp [h]
    · simp [h.symm]
  have heq := analyseFrame_eq S (fun _ _ => 0) 0 fr h
  simp only [runFrames, forM?, frameStep, runInit, han, if_true]
  rw [heq]

/-- The three ways to split four entities into two pairs. -/
theorem pairing_cases {p : Nat → Nat} (hp : ∀ i, i < 4 → p i < 4 ∧ p i ≠ i ∧ p (p i) = i) :
    (p 0 = 1 ∧ p 1 = 0 ∧ p 2 = 3 ∧ p 3 = 2) ∨
    (p 0 = 2 ∧ p 1 = 3 ∧ p 2 = 0 ∧ p 3 = 1) ∨
    (p 0 = 3 ∧ p 1 = 2 ∧ p 2 = 1 ∧ p 3 = 0) := by
  obtain ⟨a1, a2, a3⟩ := hp 0 (by decide)
  obtain ⟨b1, b2, b3⟩ := hp 1 (by decide)
  obtain ⟨c1, c2, c3⟩ := hp 2 (by decide)
  obtain ⟨d1, d2, d3⟩ := hp 3 (by decide)
  have ha : p 0 = 1 ∨ p 0 = 2 ∨ p 0 = 3 := by omega
  have hb : p 1 = 0 ∨ p 1 = 2 ∨ p 1 = 3 := by omega
  have hc : p 2 = 0 ∨ p 2 = 1 ∨ p 2 = 3 := by omega
  have hd : p 3 = 0 ∨ p 3 = 1 ∨ p 3 = 2 := by omega
  rcases ha with ha | ha | ha <;> rcases hb with hb | hb | hb <;>
    rcases hc with hc | hc | hc <;> rcases hd with hd | hd | hd <;>
    simp only [ha, hb, hc, hd] at a3 b3 c3 d3 <;>
    omega

/-- Aggregation of four sizes that are 0 or 2 and add up to 4. -/
theorem aggregate_two_pairs (size : Nat → Int) (max_size : Int)
    (h : ∀ c, c < 4 → size c = 0 ∨ size c = 2)
    (hsum : size 0 + size 1 + size 2 + size 3 = 4) :
    (aggregate 4 size max_size).nclust = 2 ∧
    (aggregate 4 size max_size).row 1 = 2 ∧
    ∀ s, s ≠ 1 → (aggregate 4 size max_size).row s = 0 := by
  have h0 := h 0 (by decide)
  have h1 := h 1 (by decide)
  have h2 := h 2 (by decide)
  have h3 := h 3 (by decide)
  refine ⟨?_, ?_, ?_⟩
  · rw [aggregate_nclust]
    simp only [Finset.sum_range_succ, Finset.sum_range_zero]
    rcases h0 with h0 | h0 <;> rcases h1 with h1 | h1 <;> rcases h2 with h2 | h2 <;>
      rcases h3 with h3 | h3 <;> rw [h0, h1, h2, h3] at hsum ⊢ <;>
      first | (exfalso; omega) | decide
  · rw [aggregate_row]
    simp only [Finset.sum_range_succ, Finset.sum_range_zero]
    rcases h0 with h0 | h0 <;> rcases h1 with h1 | h1 <;> rcases h2 with h2 | h2 <;>
      rcases h3 with h3 | h3 <;> rw [h0, h1, h2, h3] at hsum ⊢ <;>
      first | (exfalso; omega) | norm_num
  · intro s hs
    rw [aggregate_row]
    apply Finset.sum_eq_zero
    intro c hc
    have hc4 := Finset.mem_range.1 hc
    rcases h c hc4 with hz | htwo
    · simp [hz]
    · rw [htwo]
      have hne : ¬ 1 = s := fun heq => hs heq.symm
      simp [hne]

/-- Sizes after the merge loop on four entities, read off a contact map that marks the
pairs of a given list. -/
theorem merge_sizes_of_pairs {m : Nat → Nat → Int} (ps : List (Nat × Nat))
    (v : Int × Int × Int × Int)
    (hm : ∀ i j, i < j → j < 4 → (m i j ≠ 0 ↔ (i, j) ∈ ps))
    (hval : (mergePass 4 (mapOfPairs ps) initClusters).map
      (fun s => (s.clust_size 0, s.clust_size 1, s.clust_size 2, s.clust_size 3)) = some v) :
    ∃ s, mergePass 4 m initClusters = some s ∧
      (s.clust_size 0, s.clust_size 1, s.clust_size 2, s.clust_size 3) = v := by
  have hcongr : mergePass 4 m initClusters = mergePass 4 (mapOfPairs ps) initClusters := by
    apply mergePass_congr
    intro i j hij hj
    rw [hm i j hij hj, mapOfPairs_ne_zero]
  obtain ⟨s, hrun, _⟩ := mergePass_ok (mergeInv_init 4 m)
  rw [← hcongr, hrun] at hval
  simp only [Option.map_some', Option.some.injEq] at hval
  exact ⟨s, hrun, hval⟩

theorem two_pairs_sizes {m : Nat → Nat → Int} {p : Nat → Nat}
    (hp : ∀ i, i < 4 → p i < 4 ∧ p i ≠ i ∧ p (p i) = i)
    (hm : ∀ i j, i < j → j < 4 → (m i j ≠ 0 ↔ j = p i)) :
    ∃ s, mergePass 4 m initClusters = some s ∧
      (∀ c, c < 4 → s.clust_size c = 0 ∨ s.clust_size c = 2) ∧
      s.clust_size 0 + s.clust_size 1 + s.clust_size 2 + s.clust_size 3 = 4 := by
  have hpairs : ∀ i j, i < j → j < 4 →
      (i = 0 ∧ j = 1) ∨ (i = 0 ∧ j = 2) ∨ (i = 0 ∧ j = 3) ∨
      (i = 1 ∧ j = 2) ∨ (i = 1 ∧ j = 3) ∨ (i = 2 ∧ j = 3) := by
    intro i j hij hj
    omega
  have hfin : ∀ (s : ClusterState) (v : Int × Int × Int × Int),
      (s.clust_size 0, s.clust_size 1, s.clust_size 2, s.clust_size 3) = v →
      (v = (2, 0, 2, 0) ∨ v = (2, 2, 0, 0)) →
      (∀ c, c < 4 → s.clust_size c = 0 ∨ s.clust_size c = 2) ∧
      s.clust_size 0 + s.clust_size 1 + s.clust_size 2 + s.clust_size 3 = 4 := by
    intro s v hv hcase
    have hall : ∀ c, c < 4 → c = 0 ∨ c = 1 ∨ c = 2 ∨ c = 3 := by
      intro c hc; omega
    rcases hcase with rfl | rfl <;>
      simp only [Prod.mk.injEq] at hv <;>
      obtain ⟨e0, e1, e2, e3⟩ := hv <;>
      refine ⟨fun c hc => ?_, by rw [e0, e1, e2, e3]; decide⟩ <;>
      rcases hall c hc with rfl | rfl | rfl | rfl <;>
      simp [e0, e1, e2, e3]
  rcases pairing_cases hp with ⟨h0, h1, h2, h3⟩ | ⟨h0, h1, h2, h3⟩ | ⟨h0, h1, h2, h3⟩
  · obtain ⟨s, hrun, hv⟩ := merge_sizes_of_pairs (m := m) [(0, 1), (2, 3)] (2, 0, 2, 0)
      (fun i j hij hj => by
        rw [hm i j hij hj]
        rcases hpairs i j hij hj with ⟨rfl, rfl⟩ | ⟨rfl, rfl⟩ | ⟨rfl, rfl⟩ | ⟨rfl, rfl⟩ |
          ⟨rfl, rfl⟩ | ⟨rfl, rfl⟩ <;> simp [h0, h1, h2, h3])
      (by decide)
    exact ⟨s, hrun, hfin s _ hv (Or.inl rfl)⟩
  · obtain ⟨s, hrun, hv⟩ := merge_sizes_of_pairs (m := m) [(0, 2), (1, 3)] (2, 2, 0, 0)
      (fun i j hij hj => by
        rw [hm i j hij hj]
        rcases hpairs i j hij hj with ⟨rfl, rfl⟩ | ⟨rfl, rfl⟩ | ⟨rfl, rfl⟩ | ⟨rfl, rfl⟩ |
          ⟨rfl, rfl⟩ | ⟨rfl, rfl⟩ <;> simp [h0, h1, h2, h3])
      (by decide)
    exact ⟨s, hrun, hfin s _ hv (Or.inr rfl)⟩
  · obtain ⟨s, hrun, hv⟩ := merge_sizes_of_pairs (m := m) [(0, 3), (1, 2)] (2, 2, 0, 0)
      (fun i j hij hj => by
        rw [hm i j hij hj]
        rcases hpairs i j hij hj with ⟨rfl, rfl⟩ | ⟨rfl, rfl⟩ | ⟨rfl, rfl⟩ | ⟨rfl, rfl⟩ |
          ⟨rfl, rfl⟩ | ⟨rfl, rfl⟩ <;> simp [h0, h1, h2, h3])
      (by decide)
    exact ⟨s, hrun, hfin s _ hv (Or.inr rfl)⟩

theorem quadSetup_within (fr : Frame) (i j : Nat) :
    WithinCutoffs quadSetup fr i j ↔ norm2 (rvec_sub (fr.x i) (fr.x j)) < 1 := by
  have hc : ∀ k, centre quadSetup fr k = fr.x k := by
    intro k
    simp [centre, quadSetup, pairSetup, Block.particles, clear_rvec, List.range']
  unfold WithinCutoffs
  rw [hc, hc]
  simp only [displacement, quadSetup, pairSetup, Block.particles, Bool.false_eq_true, if_false]
  simp only [Nat.add_sub_cancel_left, List.range', List.mem_singleton, exists_eq_left]
  constructor
  · intro h; simpa using h.2
  · intro h; exact ⟨by simpa using le_of_lt h, by simpa using h⟩

/-- First frame, one thread, exact arithmetic: four entities that fall into two pairs, in
whatever way the indices 0..3 are spread over them (`p` gives the partner of an index):
when exactly the two partners of a pair are within the cutoffs, a trajectory of this one
frame has cluster count 2, both realised clusters of size 2, the value 2 in bin 1 of the
histogram row and 0 in every other bin. -/
theorem two_pairs_two_clusters (S : Setup) (fr : Frame) (p : Nat → Nat)
    (hn : S.nindex = 4) (hskip : 0 ≤ S.nskip)
    (hp : ∀ i, i < 4 → p i < 4 ∧ p i ≠ i ∧ p (p i) = i)
    (hw : ∀ i j, i < j → j < 4 → (WithinCutoffs S fr i j ↔ j = p i)) :
    ∃ st out, runFrames S [fr] = some st ∧ st.analysed = [out] ∧
      out.agg.nclust = 2 ∧
      (∀ c, c < 4 → out.clusters.clust_size c = 0 ∨ out.clusters.clust_size c = 2) ∧
      out.agg.row 1 = 2 ∧
      ∀ s, s ≠ 1 → out.agg.row s = 0 := by
  have hm : ∀ i j, i < j → j < 4 →
      (proximityLoop S fr (fun _ _ => 0) i j ≠ 0 ↔ j = p i) := by
    intro i j hij hj
    rw [proximityLoop_apply, ← hw i j hij hj]
    by_cases hwc : WithinCutoffs S fr i j
    · simp [hij, hn, hj, hwc]
    · simp [hwc]
  obtain ⟨s, hrun, hsz, hsum⟩ := two_pairs_sizes hp hm
  have hrun' : mergePass S.nindex (proximityLoop S fr (fun _ _ => 0)) initClusters = some s := by
    rw [hn]; exact hrun
  obtain ⟨hcount, hbin, hrest⟩ := aggregate_two_pairs s.clust_size 0 hsz hsum
  refine ⟨_, _, runFrames_single S fr hskip hrun', rfl, ?_, hsz, ?_, ?_⟩
  · show (aggregate S.nindex s.clust_size 0).nclust = 2
    rw [hn]; exact hcount
  · show (aggregate S.nindex s.clust_size 0).row 1 = 2
    rw [hn]; exact hbin
  · intro b hb
    show (aggregate S.nindex s.clust_size 0).row b = 0
    rw [hn]; exact hrest b hb

/-- The one-frame run with the pairs `{0, 2}` and `{1, 3}`. -/
theorem two_pairs_two_clusters_witness :
    quadSetup.nindex = 4 ∧ 0 ≤ quadSetup.nskip ∧
    ∃ st out, runFrames quadSetup [twoPairsFrame] = some st ∧ st.analysed = [out] ∧
      out.agg.nclust = 2 ∧
      (∀ c, c < 4 → out.clusters.clust_size c = 0 ∨ out.clusters.clust_size c = 2) ∧
      out.agg.row 1 = 2 ∧
      ∀ s, s ≠ 1 → out.agg.row s = 0 :=
  ⟨rfl, by decide,
    two_pairs_two_clusters quadSetup twoPairsFrame twoPairsPartner rfl (by decide)
      (fun i hi => by unfold twoPairsPartner; omega)
      (fun i j hij hj => by
        rw [quadSetup_within]
        have hcases : (i = 0 ∧ j = 1) ∨ (i = 0 ∧ j = 2) ∨ (i = 0 ∧ j = 3) ∨
            (i = 1 ∧ j = 2) ∨ (i = 1 ∧ j = 3) ∨ (i = 2 ∧ j = 3) := by omega
        rcases hcases with ⟨rfl, rfl⟩ | ⟨rfl, rfl⟩ | ⟨rfl, rfl⟩ | ⟨rfl, rfl⟩ |
          ⟨rfl, rfl⟩ | ⟨rfl, rfl⟩ <;>
          norm_num [twoPairsFrame, twoPairsPartner, norm2, rvec_sub])⟩

/-! ## Weighted histogram -/

theorem arrSet_apply {α : Type} (a : Nat → α) (i : Nat) (v : α) (k : Nat) :
    arrSet a i v k = if k = i then v else a k := rfl

theorem weightStep_apply (i : Nat) (st : ScanState) (j a b : Nat) :
    (weightStep i st j).cs_dist a b
      = if a = i ∧ b = j then st.cs_dist a b * ((b : ℚ) + 1) else st.cs_dist a b := by
  unfold weightStep
  simp only [arrSet_apply]
  by_cases ha : a = i
  · by_cases hb : b = j
    · simp [ha, hb, arrSet_apply]
    · simp [ha, hb, arrSet_apply]
  · simp [ha]

theorem weightRow_apply (i : Nat) (st : ScanState) (m a b : Nat) :
    ((List.range m).foldl (weightStep i) st).cs_dist a b
      = if a = i ∧ b < m then st.cs_dist a b * ((b : ℚ) + 1) else st.cs_dist a b := by
  induction m with
  | zero => simp
  | succ m ih =>
    rw [List.range_succ, List.foldl_append, List.foldl_cons, List.foldl_nil, weightStep_apply,
      ih]
    by_cases ha : a = i
    · by_cases hb : b = m
      · subst hb
        simp [ha]
      · have hlt : b < m + 1 ↔ b < m := by omega
        simp only [ha, hb, and_false, if_false, true_and, hlt]
    · simp only [ha, false_and, if_false]

theorem weightRows_apply (M : Nat) (st : ScanState) (k a b : Nat) :
    ((List.range k).foldl (fun st i => (List.range M).foldl (weightStep i) st) st).cs_dist a b
      = if a < k ∧ b < M then st.cs_dist a b * ((b : ℚ) + 1) else st.cs_dist a b := by
  induction k with
  | zero => simp
  | succ k ih =>
    rw [List.range_succ, List.foldl_append, List.foldl_cons, List.foldl_nil, weightRow_apply, ih]
    by_cases ha : a = k
    · subst ha
      by_cases hb : b < M
      · simp [hb]
      · simp [hb]
    · have hlt : a < k + 1 ↔ a < k := by omega
      simp only [ha, false_and, if_false, hlt]

/-- The weighted matrix: the cells `f < n_x`, `s < max_size` are multiplied by `s + 1`,
all other cells are left as they are. -/
theorem weightLoop_apply (n_x : Nat) (max_size : Int) (h : Nat → Nat → ℚ) (f s : Nat) :
    (weightLoop n_x max_size h).cs_dist f s
      = if f < n_x ∧ s < max_size.toNat then h f s * ((s : ℚ) + 1) else h f s := by
  unfold weightLoop
  rw [weightRows_apply]

theorem aggregateStep_max_size (size : Nat → Int) (a : Aggregate) (i : Nat) :
    (aggregateStep size a i).max_size
      = if 0 < size i then max a.max_size (size i) else a.max_size := by
  unfold aggregateStep
  simp only [gt_iff_lt]
  split_ifs <;> simp

theorem aggregate_fold_max_size (size : Nat → Int) (a : Aggregate) (m : Nat) :
    a.max_size ≤ ((List.range m).foldl (aggregateStep size) a).max_size ∧
    ∀ i, i < m → 0 < size i →
      size i ≤ ((List.range m).foldl (aggregateStep size) a).max_size := by
  induction m with
  | zero => exact ⟨le_refl _, fun i hi => absurd hi (Nat.not_lt_zero i)⟩
  | succ m ih =>
    rw [List.range_succ, List.foldl_append, List.foldl_cons, List.foldl_nil,
      aggregateStep_max_size]
    obtain ⟨h1, h2⟩ := ih
    by_cases hpos : 0 < size m
    · simp only [hpos, if_true]
      refine ⟨le_trans h1 (le_max_left _ _), fun i hi hp => ?_⟩
      rcases Nat.lt_succ_iff_lt_or_eq.1 hi with h | h
      · exact le_trans (h2 i h hp) (le_max_left _ _)
      · subst h; exact le_max_right _ _
    · simp only [hpos, if_false]
      refine ⟨h1, fun i hi hp => ?_⟩
      rcases Nat.lt_succ_iff_lt_or_eq.1 hi with h | h
      · exact h2 i h hp
      · subst h; exact absurd hp hpos

/-- The running `max_size` never decreases over a frame, and the histogram row of the
frame is zero in every bin at or above it. -/
theorem aggregate_row_above_max_size (n : Nat) (size : Nat → Int) (max_size : Int) :
    max_size ≤ (aggregate n size max_size).max_size ∧
    ∀ s : Nat, (aggregate n size max_size).max_size ≤ s → (aggregate n size max_size).row s = 0 := by
  obtain ⟨h1, h2⟩ := aggregate_fold_max_size size (aggregateInit max_size) n
  refine ⟨h1, fun s hs => ?_⟩
  rw [aggregate_row]
  apply Finset.sum_eq_zero
  intro c hc
  rw [if_neg]
  rintro ⟨hpos, hidx⟩
  have hle := h2 c (Finset.mem_range.1 hc) hpos
  have hs' : ((List.range n).foldl (aggregateStep size) (aggregateInit max_size)).max_size ≤ s := hs
  omega

/-- Over the frame loop every recorded histogram row is zero in the bins at or above the
running `max_size`. -/
theorem frameStep_rows_above_max_size (S : Setup) (st : RunState) (fr : Frame)
    (hP : ∀ out ∈ st.analysed, ∀ s : Nat, st.max_size ≤ s → out.agg.row s = 0) :
    ∃ st', frameStep S st fr = some st' ∧
      ∀ out ∈ st'.analysed, ∀ s : Nat, st'.max_size ≤ s → out.agg.row s = 0 := by
  by_cases han : isAnalysed S.nskip st.nframe = true
  · obtain ⟨c, _, heq, _, _⟩ := analyseFrame_ok S st.cs_map st.max_size fr
    obtain ⟨hmono, hrow⟩ := aggregate_row_above_max_size S.nindex c.clust_size st.max_size
    refine ⟨{ cs_map := proximityLoop S fr st.cs_map
              clusters := c
              nframe := st.nframe + 1
              max_size := (aggregate S.nindex c.clust_size st.max_size).max_size
              analysed := st.analysed ++
                [{ clusters := c, agg := aggregate S.nindex c.clust_size st.max_size }] }, ?_, ?_⟩
    · simp only [frameStep, han, if_true, heq]
    · intro out hout s hs
      rcases List.mem_append.1 hout with ho | ho
      · exact hP out ho s (le_trans hmono hs)
      · rw [List.mem_singleton.1 ho]
        exact hrow s hs
  · exact ⟨{ st with nframe := st.nframe + 1 }, by simp only [frameStep, han]; rfl, hP⟩

theorem rawHist_of_lt (st : RunState) {f : Nat} (hf : f < st.analysed.length) :
    rawHist st f = (st.analysed.get ⟨f, hf⟩).agg.row := by
  unfold rawHist
  rw [List.getElem?_eq_getElem hf]
  rfl

/-- C13: after the weighting loop, for every analysed frame `f` and every size index
`s < nindex`, the weighted cell is the raw cell, as the frame loop left it, times `s + 1`;
the cells at or above `max_size`, which the loop does not touch, are zero in the raw
histogram. -/
theorem weighted_histogram_identity (S : Setup) (frames : List Frame) :
    ∃ st, runFrames S frames = some st ∧
      ∀ f, f < st.analysed.length → ∀ s, s < S.nindex →
        (weightLoop st.analysed.length st.max_size (rawHist st)).cs_dist f s
          = rawHist st f s * ((s : ℚ) + 1) := by
  obtain ⟨st, hrun, hP⟩ := forM?_invariant
    (fun st : RunState => ∀ out ∈ st.analysed, ∀ s : Nat, st.max_size ≤ s → out.agg.row s = 0)
    (frameStep S) (fun st fr h => frameStep_rows_above_max_size S st fr h)
    frames runInit (by intro out hout; cases hout)
  refine ⟨st, hrun, fun f hf s _ => ?_⟩
  rw [weightLoop_apply]
  by_cases hs : s < st.max_size.toNat
  · rw [if_pos ⟨hf, hs⟩]
  · rw [if_neg (fun h => hs h.2)]
    have hzero : rawHist st f s = 0 := by
      rw [rawHist_of_lt st hf]
      exact hP _ (List.get_mem _ _ _) s (by omega)
    rw [hzero, zero_mul]

/-! ## Frame loop with the temperature part -/

theorem strideBlock_analysed (T : TempSetup) (st : TempRunState) (fr : TrajFrame)
    (han : isAnalysed T.nskip st.run.nframe = true) {s : ClusterState}
    (h : mergePass T.nindex (proximityLoop T.toSetup fr.toFrame st.run.cs_map) initClusters
      = some s) :
    strideBlock T st fr
      = some
        { run :=
            { cs_map := proximityLoop T.toSetup fr.toFrame st.run.cs_map
              clusters := s
              nframe := st.run.nframe
              max_size := (aggregate T.nindex s.clust_size st.run.max_size).max_size
              analysed := st.run.analysed ++
                [{ clusters := s, agg := aggregate T.nindex s.clust_size st.run.max_size }] }
          max_clust_size := (aggregate T.nindex s.clust_size st.run.max_size).max_clust_size
          max_clust_ind := (aggregate T.nindex s.clust_size st.run.max_size).max_clust_ind
          frameTime :=
            if fr.bTime then fr.time
            else if fr.bStep then (fr.step : ℚ)
            else (((if fr.bTime then st.frameCounter
              else if fr.bStep then st.frameCounter else st.frameCounter + 1 : Int)) : ℚ)
          frameCounter :=
            if fr.bTime then st.frameCounter
            else if fr.bStep then st.frameCounter else st.frameCounter + 1
          temps := st.temps } := by
  have heq := analyseFrame_eq T.toSetup st.run.cs_map st.run.max_size fr.toFrame h
  unfold strideBlock
  simp only [han, if_true, heq]

theorem strideBlock_skipped (T : TempSetup) (st : TempRunState) (fr : TrajFrame)
    (han : isAnalysed T.nskip st.run.nframe = false) :
    strideBlock T st fr = some st := by
  unfold strideBlock
  simp [han]

/-- The clustering part of the frame loop with temperatures is the frame loop
`frameStep`. -/
theorem tempFrameStep_run (T : TempSetup) (st : TempRunState) (fr : TrajFrame) :
    (tempFrameStep T st fr).map (fun s => s.run) = frameStep T.toSetup st.run fr.toFrame := by
  unfold tempFrameStep frameStep
  by_cases han : isAnalysed T.nskip st.run.nframe = true
  · obtain ⟨s, hrun, heq, _, _⟩ :=
      analyseFrame_ok T.toSetup st.run.cs_map st.run.max_size fr.toFrame
    rw [strideBlock_analysed T st fr han hrun]
    simp only [han, if_true, heq, Option.map_some']
  · have hf : isAnalysed T.nskip st.run.nframe = false := by simpa using han
    rw [strideBlock_skipped T st fr hf]
    simp [hf]

theorem aggregate_pair_merged (size : Nat → Int) (max_size : Int)
    (h0 : size 0 = 2) (h1 : size 1 = 0) :
    (aggregate 2 size max_size).max_clust_size = 2 ∧
    (aggregate 2 size max_size).max_clust_ind = 0 := by
  obtain ⟨_, hle, hind⟩ := aggregate_fold_max size max_size 2
  unfold aggregate
  have hle0 := hle 0 (by decide)
  rw [h0] at hle0
  rcases hind with ⟨_, hone⟩ | ⟨L, hL, hi, hsz, hgt⟩
  · omega
  · have hL' : L = 0 ∨ L = 1 := by omega
    rcases hL' with rfl | rfl
    · rw [h0] at hsz
      exact ⟨hsz.symm, by simpa using hi⟩
    · rw [h1] at hsz; omega

/-! ## Claims on the temperature -/

theorem molFrame_within : WithinCutoffs molSetup.toSetup molFrame.toFrame 0 1 := by
  unfold WithinCutoffs
  refine ⟨?_, 0, ?_, 2, ?_, ?_⟩
  · norm_num [centre, molSetup, molFrame, Block.particles, List.range', displacement,
      rvec_sub, norm2, clear_rvec]
  · simp [molSetup, Block.particles, List.range']
  · simp [molSetup, Block.particles, List.range']
  · norm_num [molSetup, molFrame, displacement, rvec_sub, norm2]

theorem ekinLoop_pair (T : TempSetup) (hn : T.nindex = 2) (v : Nat → RVec)
    (label : Nat → Nat) (h0 : label 0 = 0) (h1 : label 1 = 0) :
    ekinLoop T v label 0
      = 1 / 2 * T.mass (T.index 0) * iprod (v (T.index 0)) (v (T.index 0))
        + 1 / 2 * T.mass (T.index 1) * iprod (v (T.index 1)) (v (T.index 1)) := by
  unfold ekinLoop
  rw [hn]
  simp [List.range_succ, h0, h1]

theorem clusterKinetic_pair (T : TempSetup) (hn : T.nindex = 2) (v : Nat → RVec)
    (label : Nat → Nat) (h0 : label 0 = 0) (h1 : label 1 = 0) :
    clusterKinetic T v label 0
      = ((T.mols (T.index 0)).particles.map
          (fun ii => 1 / 2 * T.mass ii * iprod (v ii) (v ii))).sum
        + ((T.mols (T.index 1)).particles.map
          (fun ii => 1 / 2 * T.mass ii * iprod (v ii) (v ii))).sum := by
  unfold clusterKinetic
  rw [hn]
  simp [List.range_succ, h0, h1]

theorem forM?_singleton {σ α : Type} (body : σ → α → Option σ) (x : α) (s : σ) :
    forM? body [x] s = body s x := by
  simp only [forM?]
  cases body s x <;> rfl

theorem tempFrameStep_of_stride {T : TempSetup} {st s1 : TempRunState} {fr : TrajFrame}
    (h : strideBlock T st fr = some s1) :
    tempFrameStep T st fr
      = some { s1 with
          temps := velocityBlock T s1 fr
          run := { s1.run with nframe := s1.run.nframe + 1 } } := by
  unfold tempFrameStep
  rw [h]

/-- With one particle per entity, `index[i]` being that particle, the kinetic energy loop
is the sum over the particles of the cluster. -/
theorem ekinLoop_eq_clusterKinetic (T : TempSetup) (v : Nat → RVec) (label : Nat → Nat)
    (L : Int) (h : ∀ i, i < T.nindex → (T.mols (T.index i)).particles = [T.index i]) :
    ekinLoop T v label L = clusterKinetic T v label L := by
  unfold ekinLoop clusterKinetic
  apply List.foldl_ext
  intro a i hi
  rw [h i (List.mem_range.1 hi)]
  simp

/-- C14 at a concrete frame: two molecules of two atoms each, clustered as molecules and
merged into one cluster with label 0. The kinetic energy loop adds the atoms 0 and 1 (the
entity numbers read as atom numbers) and gets 5/2, and this value goes into the
temperature line; the sum over every particle of every entity of the cluster, atoms 0 to
3, is 15. -/
theorem kinetic_energy_misses_block_particles :
    ∃ st, tempRunFrames molSetup [molFrame] = some st ∧
      st.run.clusters.clust_index 0 = 0 ∧ st.run.clusters.clust_index 1 = 0 ∧
      st.max_clust_ind = 0 ∧
      ekinLoop molSetup molFrame.v st.run.clusters.clust_index st.max_clust_ind = 5 / 2 ∧
      clusterKinetic molSetup molFrame.v st.run.clusters.clust_index st.max_clust_ind = 15 ∧
      st.temps = [(5, temperature molSetup (5 / 2) 2)] := by
  have hmark : proximityLoop molSetup.toSetup molFrame.toFrame (fun _ _ => 0) 0 1 ≠ 0 := by
    rw [proximityLoop_apply, if_pos ⟨by decide, by decide, molFrame_within⟩]
    decide
  obtain ⟨s, hrun, hl0, hl1, hs0, hs1⟩ := pair_merge_marked hmark
  obtain ⟨hmcs, hind⟩ := aggregate_pair_merged s.clust_size 0 hs0 hs1
  have han : isAnalysed molSetup.nskip tempRunInit.run.nframe = true := by decide
  have hstride : ∃ s1, strideBlock molSetup tempRunInit molFrame = some s1 ∧
      s1.run.clusters = s ∧ s1.max_clust_ind = 0 ∧ s1.max_clust_size = 2 ∧
      s1.frameTime = 5 ∧ s1.temps = [] :=
    ⟨_, strideBlock_analysed molSetup tempRunInit molFrame han hrun, rfl, hind, hmcs,
      by simp [molFrame], rfl⟩
  obtain ⟨s1, hs1eq, hc, hi, hm, ht, htemps⟩ := hstride
  have hekin : ekinLoop molSetup molFrame.v s.clust_index 0 = 5 / 2 := by
    rw [ekinLoop_pair molSetup rfl _ _ hl0 hl1]
    norm_num [molSetup, molFrame, molVelocities, iprod]
  have hspec : clusterKinetic molSetup molFrame.v s.clust_index 0 = 15 := by
    rw [clusterKinetic_pair molSetup rfl _ _ hl0 hl1]
    norm_num [molSetup, molFrame, molVelocities, iprod, Block.particles, List.range']
  refine ⟨{ s1 with
      temps := velocityBlock molSetup s1 molFrame
      run := { s1.run with nframe := s1.run.nframe + 1 } }, ?_, ?_, ?_, hi, ?_, ?_, ?_⟩
  · unfold tempRunFrames
    rw [forM?_singleton, tempFrameStep_of_stride hs1eq]
  · show s1.run.clusters.clust_index 0 = 0
    rw [hc]; exact hl0
  · show s1.run.clusters.clust_index 1 = 0
    rw [hc]; exact hl1
  · show ekinLoop molSetup molFrame.v s1.run.clusters.clust_index s1.max_clust_ind = 5 / 2
    rw [hc, hi]; exact hekin
  · show clusterKinetic molSetup molFrame.v s1.run.clusters.clust_index s1.max_clust_ind = 15
    rw [hc, hi]; exact hspec
  · show velocityBlock molSetup s1 molFrame = _
    have hbv : molFrame.bV = true := rfl
    have htpr : molSetup.tpr = true := rfl
    simp only [velocityBlock, hbv, htpr, if_true, hi, hm, hc, ht, htemps, hekin]
    simp

/-- The first frame of a two-entity run whose pair is within the cutoffs, with velocities,
a tpr file and a time stamp: both entities get label 0 and one temperature line is
written. -/
theorem pair_first_frame (T : TempSetup) (fr : TrajFrame) (hn : T.nindex = 2)
    (han : isAnalysed T.nskip 0 = true) (hW : WithinCutoffs T.toSetup fr.toFrame 0 1)
    (hbv : fr.bV = true) (htpr : T.tpr = true) (hbt : fr.bTime = true) :
    ∃ st1, tempFrameStep T tempRunInit fr = some st1 ∧
      st1.run.nframe = 1 ∧ st1.run.analysed.length = 1 ∧
      st1.max_clust_ind = 0 ∧ st1.max_clust_size = 2 ∧ st1.frameTime = fr.time ∧
      st1.run.clusters.clust_index 0 = 0 ∧ st1.run.clusters.clust_index 1 = 0 ∧
      st1.temps
        = [(fr.time, temperature T (ekinLoop T fr.v st1.run.clusters.clust_index 0) 2)] := by
  have hmark : proximityLoop T.toSetup fr.toFrame (fun _ _ => 0) 0 1 ≠ 0 := by
    rw [proximityLoop_apply, if_pos ⟨by decide, by rw [hn]; decide, hW⟩]
    decide
  obtain ⟨s, hrun, hl0, hl1, hs0, hs1⟩ := pair_merge_marked hmark
  obtain ⟨hmcs, hind⟩ := aggregate_pair_merged s.clust_size 0 hs0 hs1
  have hrun' : mergePass T.nindex
      (proximityLoop T.toSetup fr.toFrame tempRunInit.run.cs_map) initClusters = some s := by
    rw [hn]; exact hrun
  have hstride : ∃ s1, strideBlock T tempRunInit fr = some s1 ∧
      s1.run.clusters = s ∧ s1.max_clust_ind = 0 ∧ s1.max_clust_size = 2 ∧
      s1.frameTime = fr.time ∧ s1.temps = [] ∧ s1.run.nframe = 0 ∧
      s1.run.analysed.length = 1 := by
    refine ⟨_, strideBlock_analysed T tempRunInit fr han hrun', rfl, ?_, ?_, ?_, rfl, rfl, rfl⟩
    · show (aggregate T.nindex s.clust_size 0).max_clust_ind = 0
      rw [hn]; exact hind
    · show (aggregate T.nindex s.clust_size 0).max_clust_size = 2
      rw [hn]; exact hmcs
    · simp [hbt]
  obtain ⟨s1, hs1eq, hc, hi, hm, ht, htemps, hnf, hlen⟩ := hstride
  refine ⟨{ s1 with
      temps := velocityBlock T s1 fr
      run := { s1.run with nframe := s1.run.nframe + 1 } },
    tempFrameStep_of_stride hs1eq, ?_, hlen, hi, hm, ht, ?_, ?_, ?_⟩
  · show s1.run.nframe + 1 = 1
    rw [hnf]; rfl
  · show s1.run.clusters.clust_index 0 = 0
    rw [hc]; exact hl0
  · show s1.run.clusters.clust_index 1 = 0
    rw [hc]; exact hl1
  · show velocityBlock T s1 fr = _
    simp only [velocityBlock, hbv, htpr, if_true, hi, hm, ht, htemps]
    simp

theorem timedNearFrame_within (T : TempSetup) (hT : T.toSetup = pairSetup) (t : ℚ) :
    WithinCutoffs T.toSetup (timedNearFrame t).toFrame 0 1 := by
  rw [hT]
  exact nearFrame_within

theorem temperature_eq (T : TempSetup) (ekin : ℚ) (N : Int) :
    temperature T ekin N = 2 * ekin / (3 * tfac T.ndf T.natoms * (N : ℚ) * T.BOLTZ) := by
  unfold temperature
  rw [mul_comm ekin 2]

/-- C15, as stated, fails: on the two-entity setup (one particle per entity, unit masses,
no `ndf`) with the pair merged, the kinetic energy of the cluster is 5/2 and the cluster
has 2 particles, and the temperature written for the frame differs from
`2 * E / (dof_factor * 2 * k_B)` with `dof_factor = 1`. -/
theorem temperature_differs_from_stated_formula :
    ∃ st t, tempRunFrames pairTempSetup [timedNearFrame 5] = some st ∧
      st.temps = [(5, t)] ∧
      clusterKinetic pairTempSetup (timedNearFrame 5).v st.run.clusters.clust_index 0 = 5 / 2 ∧
      tfac pairTempSetup.ndf pairTempSetup.natoms = 1 ∧
      t ≠ specTemperature (5 / 2) 1 2 pairTempSetup.BOLTZ := by
  obtain ⟨st, hstep, _, _, _, _, _, hl0, hl1, htemps⟩ :=
    pair_first_frame pairTempSetup (timedNearFrame 5) rfl (by decide)
      (timedNearFrame_within pairTempSetup rfl 5) rfl rfl rfl
  have hekin : ekinLoop pairTempSetup (timedNearFrame 5).v st.run.clusters.clust_index 0
      = 5 / 2 := by
    rw [ekinLoop_pair pairTempSetup rfl _ _ hl0 hl1]
    norm_num [pairTempSetup, pairSetup, timedNearFrame, molVelocities, iprod]
  have hspec : clusterKinetic pairTempSetup (timedNearFrame 5).v st.run.clusters.clust_index 0
      = 5 / 2 := by
    rw [clusterKinetic_pair pairTempSetup rfl _ _ hl0 hl1]
    norm_num [pairTempSetup, pairSetup, timedNearFrame, molVelocities, iprod, Block.particles,
      List.range']
  refine ⟨st, temperature pairTempSetup (5 / 2) 2, ?_, ?_, hspec, by decide, ?_⟩
  · unfold tempRunFrames
    rw [forM?_singleton]; exact hstep
  · rw [htemps, hekin]; rfl
  · norm_num [temperature, specTemperature, tfac, pairTempSetup]

/-- Invariant of the frame loop with temperatures: a set max cluster label belongs to a
recorded frame, and so does every temperature line. -/
theorem tempFrameStep_inv (T : TempSetup) (st : TempRunState) (fr : TrajFrame)
    (hcur : 0 ≤ st.max_clust_ind → ∃ out ∈ st.run.analysed,
      st.max_clust_size = out.agg.max_clust_size ∧
      st.max_clust_ind = out.agg.max_clust_ind ∧ st.run.clusters = out.clusters)
    (hrec : ∀ r ∈ st.temps, ∃ out ∈ st.run.analysed, ∃ v : Nat → RVec,
      r.2 = temperature T (ekinLoop T v out.clusters.clust_index out.agg.max_clust_ind)
        out.agg.max_clust_size) :
    ∃ st', tempFrameStep T st fr = some st' ∧
      (0 ≤ st'.max_clust_ind → ∃ out ∈ st'.run.analysed,
        st'.max_clust_size = out.agg.max_clust_size ∧
        st'.max_clust_ind = out.agg.max_clust_ind ∧ st'.run.clusters = out.clusters) ∧
      ∀ r ∈ st'.temps, ∃ out ∈ st'.run.analysed, ∃ v : Nat → RVec,
        r.2 = temperature T (ekinLoop T v out.clusters.clust_index out.agg.max_clust_ind)
          out.agg.max_clust_size := by
  have hstride : ∃ s1, strideBlock T st fr = some s1 ∧
      (0 ≤ s1.max_clust_ind → ∃ out ∈ s1.run.analysed,
        s1.max_clust_size = out.agg.max_clust_size ∧
        s1.max_clust_ind = out.agg.max_clust_ind ∧ s1.run.clusters = out.clusters) ∧
      ∀ r ∈ s1.temps, ∃ out ∈ s1.run.analysed, ∃ v : Nat → RVec,
        r.2 = temperature T (ekinLoop T v out.clusters.clust_index out.agg.max_clust_ind)
          out.agg.max_clust_size := by
    by_cases han : isAnalysed T.nskip st.run.nframe = true
    · obtain ⟨s, hrun, _⟩ :=
        mergePass_ok (mergeInv_init T.nindex (proximityLoop T.toSetup fr.toFrame st.run.cs_map))
      refine ⟨_, strideBlock_analysed T st fr han hrun, fun _ => ?_, fun r hr => ?_⟩
      · exact ⟨_, List.mem_append_right _ (List.mem_singleton_self _), rfl, rfl, rfl⟩
      · obtain ⟨out, hout, v, hv⟩ := hrec r hr
        exact ⟨out, List.mem_append_left _ hout, v, hv⟩
    · have hf : isAnalysed T.nskip st.run.nframe = false := by simpa using han
      exact ⟨st, strideBlock_skipped T st fr hf, hcur, hrec⟩
  obtain ⟨s1, hs1, hcur1, hrec1⟩ := hstride
  refine ⟨_, tempFrameStep_of_stride hs1, hcur1, ?_⟩
  intro r hr
  have hr' : r ∈ velocityBlock T s1 fr := hr
  unfold velocityBlock at hr'
  split_ifs at hr' with h1 h2 h3
  · rcases List.mem_append.1 hr' with h | h
    · exact hrec1 r h
    · obtain ⟨out, hout, hsz, hind, hcl⟩ := hcur1 h3
      refine ⟨out, hout, fr.v, ?_⟩
      rw [List.mem_singleton.1 h]
      simp only []
      rw [hsz, hind, hcl]
  · exact hrec1 r hr'
  · exact hrec1 r hr'
  · exact hrec1 r hr'

/-- The frame loop returns on every trajectory, and every temperature line it holds has
the form `2 * E / (3 * tfac * N * BOLTZ)` with `N` the max cluster size of a recorded
frame and `E` a sum of the kinetic energy loop for the max cluster label of that frame. -/
theorem temperature_lines_have_form (T : TempSetup) (frames : List TrajFrame) :
    (T.ndf ≤ -1 → tfac T.ndf T.natoms = 1) ∧
    (-1 < T.ndf → tfac T.ndf T.natoms = (T.ndf : ℚ) / (3 * (T.natoms : ℚ))) ∧
    ∃ st, tempRunFrames T frames = some st ∧
      ∀ r ∈ st.temps, ∃ out ∈ st.run.analysed, ∃ v : Nat → RVec,
        r.2 = 2 * ekinLoop T v out.clusters.clust_index out.agg.max_clust_ind
          / (3 * tfac T.ndf T.natoms * (out.agg.max_clust_size : ℚ) * T.BOLTZ) := by
  refine ⟨fun h => by simp [tfac, h], fun h => by simp [tfac, not_le.2 h], ?_⟩
  obtain ⟨st, hrun, _, hrec⟩ := forM?_invariant
    (fun st : TempRunState =>
      (0 ≤ st.max_clust_ind → ∃ out ∈ st.run.analysed,
        st.max_clust_size = out.agg.max_clust_size ∧
        st.max_clust_ind = out.agg.max_clust_ind ∧ st.run.clusters = out.clusters) ∧
      ∀ r ∈ st.temps, ∃ out ∈ st.run.analysed, ∃ v : Nat → RVec,
        r.2 = temperature T (ekinLoop T v out.clusters.clust_index out.agg.max_clust_ind)
          out.agg.max_clust_size)
    (tempFrameStep T) (fun st fr h => tempFrameStep_inv T st fr h.1 h.2)
    frames tempRunInit
    ⟨fun h => absurd h (by decide), by intro r hr; cases hr⟩
  refine ⟨st, hrun, fun r hr => ?_⟩
  obtain ⟨out, hout, v, hv⟩ := hrec r hr
  exact ⟨out, hout, v, by rw [hv, temperature_eq]⟩

theorem strideSetup_within (t : ℚ) :
    WithinCutoffs strideSetup.toSetup (timedNearFrame t).toFrame 0 1 := by
  unfold WithinCutoffs
  refine ⟨?_, 0, ?_, 1, ?_, ?_⟩
  · norm_num [centre, strideSetup, pairSetup, timedNearFrame, nearFrame, Block.particles,
      List.range', displacement, rvec_sub, norm2, clear_rvec]
  · simp [strideSetup, pairSetup, Block.particles, List.range']
  · simp [strideSetup, pairSetup, Block.particles, List.range']
  · norm_num [strideSetup, pairSetup, timedNearFrame, nearFrame, displacement, rvec_sub, norm2]

/-- C17 at a concrete trajectory: with `nskip = 2` the second frame (frame number 1) is
skipped by the stride, no cluster record is added for it, yet a second temperature line is
written, stamped with the time 5 of the first frame although the frame has time 6. -/
theorem temperature_written_for_skipped_frame :
    isAnalysed strideSetup.nskip 1 = false ∧
    ∃ st r0 r1,
      tempRunFrames strideSetup [timedNearFrame 5, timedNearFrame 6] = some st ∧
      st.run.analysed.length = 1 ∧ st.temps = [r0, r1] ∧ r0.1 = 5 ∧ r1.1 = 5 := by
  refine ⟨by decide, ?_⟩
  obtain ⟨st1, hstep1, hnf, hlen, hi, hm, ht, _, _, htemps⟩ :=
    pair_first_frame strideSetup (timedNearFrame 5) rfl (by decide)
      (strideSetup_within 5) rfl rfl rfl
  have hskip : isAnalysed strideSetup.nskip st1.run.nframe = false := by
    rw [hnf]; decide
  have hstep2 := tempFrameStep_of_stride
    (strideBlock_skipped strideSetup st1 (timedNearFrame 6) hskip)
  have hbv : (timedNearFrame 6).bV = true := rfl
  have htpr : strideSetup.tpr = true := rfl
  have hvel : velocityBlock strideSetup st1 (timedNearFrame 6)
      = [((timedNearFrame 5).time,
            temperature strideSetup
              (ekinLoop strideSetup (timedNearFrame 5).v st1.run.clusters.clust_index 0) 2),
          ((timedNearFrame 5).time,
            temperature strideSetup
              (ekinLoop strideSetup (timedNearFrame 6).v st1.run.clusters.clust_index 0) 2)] := by
    simp only [velocityBlock, hbv, htpr, if_true, hi, hm, ht, htemps]
    simp
  refine ⟨{ st1 with
      temps := velocityBlock strideSetup st1 (timedNearFrame 6)
      run := { st1.run with nframe := st1.run.nframe + 1 } }, _, _, ?_, hlen, hvel, rfl, rfl⟩
  simp only [tempRunFrames, forM?, hstep1, hstep2]

/-! ## Flat index list -/

/-- C16 in the code: with a flat index list (`bMol` not set) the partition `mols` has no
block, and `mols.block(a)` reads outside the partition for every `a`, so neither the centre
loop nor the particle scan gets the particle `index[i]` from it. -/
theorem flat_index_has_no_block (topology : RangePartitioning) (a : Nat) :
    (molsOf false topology).numBlocks = 0 ∧ (molsOf false topology).block a = none := by
  refine ⟨rfl, ?_⟩
  show RangePartitioning.block ⟨[0]⟩ a = none
  unfold RangePartitioning.block
  have h1 : ([0] : List Nat)[a + 1]? = none := by simp
  simp only [h1]
  cases ([0] : List Nat)[a]? <;> rfl

/-! ## Threads -/

theorem tripleSetup_within (fr : Frame) (i j : Nat) :
    WithinCutoffs tripleSetup fr i j ↔ norm2 (rvec_sub (fr.x i) (fr.x j)) < 1 := by
  have hc : ∀ k, centre tripleSetup fr k = fr.x k := by
    intro k
    simp [centre, tripleSetup, pairSetup, Block.particles, clear_rvec, List.range']
  unfold WithinCutoffs
  rw [hc, hc]
  simp only [displacement, tripleSetup, pairSetup, Block.particles, Bool.false_eq_true,
    if_false]
  simp only [Nat.add_sub_cancel_left, List.range', List.mem_singleton, exists_eq_left]
  constructor
  · intro h; simpa using h.2
  · intro h; exact ⟨by simpa using le_of_lt h, by simpa using h⟩

/-- Result of the merge loop read off a contact map that marks the pairs of a list. -/
theorem merge_eval {α : Type} (n : Nat) {m : Nat → Nat → Int} (ps : List (Nat × Nat))
    (f : ClusterState → α) (v : α)
    (hm : ∀ i j, i < j → j < n → (m i j ≠ 0 ↔ (i, j) ∈ ps))
    (hval : (mergePass n (mapOfPairs ps) initClusters).map f = some v) :
    ∃ s, mergePass n m initClusters = some s ∧ f s = v := by
  have hcongr : mergePass n m initClusters = mergePass n (mapOfPairs ps) initClusters := by
    apply mergePass_congr
    intro i j hij hj
    rw [hm i j hij hj, mapOfPairs_ne_zero]
  obtain ⟨s, hrun, _⟩ := mergePass_ok (mergeInv_init n m)
  rw [← hcongr, hrun] at hval
  simp only [Option.map_some', Option.some.injEq] at hval
  exact ⟨s, hrun, hval⟩

theorem omp_one_thread_cs_map :
    (ompRun tripleSetup tripleFrame (List.replicate 15 0)
      (ompInit [[0, 1, 2]] (fun _ _ => 0))).cs_map
      = proximityLoop tripleSetup tripleFrame (fun _ _ => 0) := rfl

theorem omp_two_threads_cs_map :
    (ompRun tripleSetup tripleFrame [0, 0, 0, 1, 0, 0, 0, 0, 0, 0, 0, 1]
      (ompInit [[0, 1], [2]] (fun _ _ => 0))).cs_map
      = proximityStep tripleSetup tripleFrame 1
          (proximityStep tripleSetup tripleFrame 0 (fun _ _ => 0) 1) 2 := rfl

theorem omp_threads_finished :
    ((ompRun tripleSetup tripleFrame (List.replicate 15 0)
      (ompInit [[0, 1, 2]] (fun _ _ => 0))).threads 0).rows = [] ∧
    ((ompRun tripleSetup tripleFrame [0, 0, 0, 1, 0, 0, 0, 0, 0, 0, 0, 1]
      (ompInit [[0, 1], [2]] (fun _ _ => 0))).threads 0).rows = [] ∧
    ((ompRun tripleSetup tripleFrame [0, 0, 0, 1, 0, 0, 0, 0, 0, 0, 0, 1]
      (ompInit [[0, 1], [2]] (fun _ _ => 0))).threads 1).rows = [] :=
  ⟨rfl, rfl, rfl⟩

theorem tripleFrame_within (i j : Nat) (hij : i < j) (hj : j < 3) :
    WithinCutoffs tripleSetup tripleFrame i j ↔ (i, j) ∈ [(0, 2)] := by
  rw [tripleSetup_within]
  have hcases : (i = 0 ∧ j = 1) ∨ (i = 0 ∧ j = 2) ∨ (i = 1 ∧ j = 2) := by omega
  rcases hcases with ⟨rfl, rfl⟩ | ⟨rfl, rfl⟩ | ⟨rfl, rfl⟩ <;>
    norm_num [tripleFrame, norm2, rvec_sub]

/-- C18 under an interleaving of two threads: three entities of which only 0 and 2 are
within the cutoffs. One thread running the rows 0, 1, 2 leaves the contact map of the
sequential loop, and the merge loop puts entity 2 under label 0 with size 2. With two
threads (rows 0, 1 and row 2) and the schedule in which thread 1 executes its `j = i + 1`
between the first loop body and the `j++` of thread 0, both threads finish, the pair
`(0, 2)` is never examined, and the merge loop leaves entity 2 under label 2 and
`clust_size[0] = 1`. -/
theorem shared_loop_variable_changes_labelling :
    (ompRun tripleSetup tripleFrame (List.replicate 15 0)
        (ompInit [[0, 1, 2]] (fun _ _ => 0))).cs_map
      = proximityLoop tripleSetup tripleFrame (fun _ _ => 0) ∧
    ((ompRun tripleSetup tripleFrame [0, 0, 0, 1, 0, 0, 0, 0, 0, 0, 0, 1]
      (ompInit [[0, 1], [2]] (fun _ _ => 0))).threads 0).rows = [] ∧
    ((ompRun tripleSetup tripleFrame [0, 0, 0, 1, 0, 0, 0, 0, 0, 0, 0, 1]
      (ompInit [[0, 1], [2]] (fun _ _ => 0))).threads 1).rows = [] ∧
    ∃ s1 s2,
      mergePass 3 (ompRun tripleSetup tripleFrame (List.replicate 15 0)
        (ompInit [[0, 1, 2]] (fun _ _ => 0))).cs_map initClusters = some s1 ∧
      mergePass 3 (ompRun tripleSetup tripleFrame [0, 0, 0, 1, 0, 0, 0, 0, 0, 0, 0, 1]
        (ompInit [[0, 1], [2]] (fun _ _ => 0))).cs_map initClusters = some s2 ∧
      s1.clust_index 2 = 0 ∧ s1.clust_size 0 = 2 ∧
      s2.clust_index 2 = 2 ∧ s2.clust_size 0 = 1 := by
  refine ⟨omp_one_thread_cs_map, omp_threads_finished.2.1, omp_threads_finished.2.2, ?_⟩
  rw [omp_one_thread_cs_map, omp_two_threads_cs_map]
  obtain ⟨s1, hrun1, hv1⟩ := merge_eval 3
    (m := proximityLoop tripleSetup tripleFrame (fun _ _ => 0)) [(0, 2)]
    (fun s => (s.clust_index 2, s.clust_size 0)) (0, 2)
    (fun i j hij hj => by
      rw [proximityLoop_apply, ← tripleFrame_within i j hij hj]
      have hj' : j < tripleSetup.nindex := hj
      by_cases hw : WithinCutoffs tripleSetup tripleFrame i j
      · simp [hij, hj', hw]
      · simp [hw])
    (by decide)
  obtain ⟨s2, hrun2, hv2⟩ := merge_eval 3
    (m := proximityStep tripleSetup tripleFrame 1
      (proximityStep tripleSetup tripleFrame 0 (fun _ _ => 0) 1) 2) []
    (fun s => (s.clust_index 2, s.clust_size 0)) (2, 1)
    (fun i j hij hj => by
      rw [proximityStep_apply, proximityStep_apply]
      have h01 : ¬ WithinCutoffs tripleSetup tripleFrame 0 1 := by
        rw [tripleFrame_within 0 1 (by decide) (by decide)]; decide
      have h12 : ¬ WithinCutoffs tripleSetup tripleFrame 1 2 := by
        rw [tripleFrame_within 1 2 (by decide) (by decide)]; decide
      simp [h01, h12])
    (by decide)
  simp only [Prod.mk.injEq] at hv1 hv2
  exact ⟨s1, s2, hrun1, hrun2, hv1.1, hv1.2, hv2.1, hv2.2⟩

/-! ## Cluster count and histogram weight -/

/-- The cluster count is the number of distinct labels carried by the entities. -/
theorem nclust_eq_card_labels {n : Nat} {s : ClusterState} (h : SizeInv n s)
    (max_size : Int) :
    (aggregate n s.clust_size max_size).nclust
      = (((Finset.range n).image s.clust_index).card : Int) := by
  rw [aggregate_nclust, Finset.sum_boole]
  have hset : (Finset.range n).filter (fun c => 0 < s.clust_size c)
      = (Finset.range n).image s.clust_index := by
    ext c
    simp only [Finset.mem_filter, Finset.mem_range, Finset.mem_image]
    constructor
    · rintro ⟨hc, hpos⟩
      rw [h.size_eq c hc] at hpos
      exact (memberCount_pos_iff n _ c).1 hpos
    · rintro ⟨k, hk, rfl⟩
      have hlt := h.label_lt k hk
      refine ⟨hlt, ?_⟩
      rw [h.size_eq _ hlt]
      exact memberCount_pos hk _
  rw [hset]

/-- C23: for a frame analysed on any contact map, the cluster count is the number of
distinct values of `clust_index[k]` over the entities, and two entities carry the same
value exactly when a path of adjacent pairs joins them in the contact map the merge loop
read: the count is the number of connected components. -/
theorem cluster_count_is_component_count (S : Setup) (m : Nat → Nat → Int) (max_size : Int)
    (fr : Frame) :
    ∃ m' out, analyseFrame S m max_size fr = some (m', out) ∧
      out.agg.nclust = (((Finset.range S.nindex).image out.clusters.clust_index).card : Int) ∧
      ∀ a b, a < S.nindex → b < S.nindex →
        (out.clusters.clust_index a = out.clusters.clust_index b ↔
          Connected S.nindex m' a b) := by
  obtain ⟨s, _, heq, hinv, hcomplete⟩ := analyseFrame_ok S m max_size fr
  exact ⟨_, _, heq, nclust_eq_card_labels hinv.sizes max_size,
    fun a b ha hb => ⟨hinv.sound a b ha hb, hcomplete a b⟩⟩

theorem sum_Icc_weighted (n : Nat) (f : Nat → ℚ) :
    ∑ s in Finset.Icc 1 n, (s : ℚ) * f (s - 1)
      = ∑ j in Finset.range n, ((j : ℚ) + 1) * f j := by
  rw [← sum_Icc_pred n (fun j => ((j : ℚ) + 1) * f j)]
  apply Finset.sum_congr rfl
  intro s hs
  have h1 : 1 ≤ s := (Finset.mem_Icc.1 hs).1
  have hcast : (((s - 1 : Nat) : ℚ) + 1) = (s : ℚ) := by
    rw [Nat.cast_sub h1]
    simp
  simp only [hcast]

/-- When every size lies between 0 and `n`, the size-weighted sum of the histogram row is
the sum of the sizes. -/
theorem aggregate_weighted_row_sum (n : Nat) (size : Nat → Int) (max_size : Int)
    (hnn : ∀ c, c < n → 0 ≤ size c) (hle : ∀ c, c < n → size c ≤ n) :
    ∑ s in Finset.Icc 1 n, (s : ℚ) * (aggregate n size max_size).row (s - 1)
      = ∑ c in Finset.range n, (size c : ℚ) := by
  rw [sum_Icc_weighted]
  simp only [aggregate_row, Finset.mul_sum]
  rw [Finset.sum_comm]
  apply Finset.sum_congr rfl
  intro c hc
  have hc' := Finset.mem_range.1 hc
  have h0 := hnn c hc'
  have hn := hle c hc'
  by_cases hpos : 0 < size c
  · have hidx : (size c - 1).toNat ∈ Finset.range n := by
      rw [Finset.mem_range]; omega
    have hval : (((size c - 1).toNat : Nat) : ℚ) + 1 = (size c : ℚ) := by
      have hz : (((size c - 1).toNat : Nat) : Int) + 1 = size c := by omega
      exact_mod_cast hz
    simp only [hpos, true_and, mul_ite, mul_one, mul_zero]
    rw [Finset.sum_ite_eq, if_pos hidx, hval]
  · have hz : size c = 0 := by omega
    simp [hz]

theorem sizes_sum_cast {n : Nat} {s : ClusterState} (h : SizeInv n s) :
    ∑ c in Finset.range n, (s.clust_size c : ℚ) = n := by
  have hint : ∑ c in Finset.range n, s.clust_size c = n := by
    rw [Finset.sum_congr rfl (fun c hc => h.size_eq c (Finset.mem_range.1 hc))]
    exact memberCount_sum h.label_lt
  have hcast := congrArg (fun z : Int => (z : ℚ)) hint
  simpa using hcast

/-- C24: every analysed frame returns, and the size-weighted sum of its histogram row,
`s * hist[frame][s - 1]` over `s = 1 .. nindex`, is the entity count; this holds for a
frame analysed on any contact map, hence for every entry the frame loop records. -/
theorem histogram_accounts_for_every_entity (S : Setup) :
    (∀ (m : Nat → Nat → Int) (max_size : Int) (fr : Frame),
      ∃ m' out, analyseFrame S m max_size fr = some (m', out) ∧
        ∑ s in Finset.Icc 1 S.nindex, (s : ℚ) * out.agg.row (s - 1) = S.nindex) ∧
    ∀ frames : List Frame, ∃ st, runFrames S frames = some st ∧
      ∀ out ∈ st.analysed,
        ∑ s in Finset.Icc 1 S.nindex, (s : ℚ) * out.agg.row (s - 1) = S.nindex := by
  have hframe : ∀ (m : Nat → Nat → Int) (max_size : Int) (fr : Frame),
      ∃ m' out, analyseFrame S m max_size fr = some (m', out) ∧
        ∑ s in Finset.Icc 1 S.nindex, (s : ℚ) * out.agg.row (s - 1) = S.nindex := by
    intro m max_size fr
    obtain ⟨s, _, heq, hinv, _⟩ := analyseFrame_ok S m max_size fr
    refine ⟨_, _, heq, ?_⟩
    show ∑ b in Finset.Icc 1 S.nindex,
      (b : ℚ) * (aggregate S.nindex s.clust_size max_size).row (b - 1) = S.nindex
    rw [aggregate_weighted_row_sum S.nindex s.clust_size max_size
      (fun c hc => by rw [hinv.sizes.size_eq c hc]; exact memberCount_nonneg _ _ _)
      (fun c hc => by rw [hinv.sizes.size_eq c hc]; exact memberCount_le _ _ _)]
    exact sizes_sum_cast hinv.sizes
  refine ⟨hframe, fun frames => ?_⟩
  obtain ⟨st, hrun, _, hQ, _⟩ := runFrames_from S (fun _ => True)
    (fun out => ∑ s in Finset.Icc 1 S.nindex, (s : ℚ) * out.agg.row (s - 1) = S.nindex)
    (fun m max_size fr _ => by
      obtain ⟨m', out, h1, h2⟩ := hframe m max_size fr
      exact ⟨m', out, h1, trivial, h2⟩)
    frames runInit trivial (by intro out hout; cases hout)
  exact ⟨st, hrun, hQ⟩

/-! ## Average cluster size -/

theorem aggregateStep_cav_nav (size : Nat → Int) (a : Aggregate) (i : Nat) :
    (aggregateStep size a i).cav = a.cav + (if 1 < size i then (size i : ℚ) else 0) ∧
    (aggregateStep size a i).nav = a.nav + (if 1 < size i then 1 else 0) := by
  unfold aggregateStep
  simp only [gt_iff_lt]
  by_cases h1 : 1 < size i
  · have h0 : 0 < size i := by omega
    simp only [h0, h1, if_true]
    split_ifs <;> simp
  · simp only [h1, if_false, add_zero]
    split_ifs <;> simp

theorem aggregate_fold_cav_nav (size : Nat → Int) (a : Aggregate) (m : Nat) :
    ((List.range m).foldl (aggregateStep size) a).cav
      = a.cav + ∑ c in Finset.range m, (if 1 < size c then (size c : ℚ) else 0) ∧
    ((List.range m).foldl (aggregateStep size) a).nav
      = a.nav + ∑ c in Finset.range m, (if 1 < size c then 1 else 0) := by
  induction m with
  | zero => simp
  | succ m ih =>
    rw [List.range_succ, List.foldl_append, List.foldl_cons, List.foldl_nil]
    obtain ⟨hc, hn⟩ := aggregateStep_cav_nav size
      ((List.range m).foldl (aggregateStep size) a) m
    rw [hc, hn, ih.1, ih.2, Finset.sum_range_succ, Finset.sum_range_succ]
    constructor <;> ring

/-- The two accumulators of the average: `cav` is the sum of the sizes above 1 and `nav`
the number of labels with such a size. -/
theorem aggregate_cav_nav (n : Nat) (size : Nat → Int) (max_size : Int) :
    (aggregate n size max_size).cav
      = ∑ c in (Finset.range n).filter (fun c => 1 < size c), (size c : ℚ) ∧
    (aggregate n size max_size).nav
      = (((Finset.range n).filter (fun c => 1 < size c)).card : Int) := by
  obtain ⟨hc, hn⟩ := aggregate_fold_cav_nav size (aggregateInit max_size) n
  unfold aggregate
  rw [hc, hn, Finset.sum_filter, Finset.sum_boole]
  simp [aggregateInit]

theorem averageLine_aggregate (n : Nat) (size : Nat → Int) (max_size : Int) :
    averageLine (aggregate n size max_size)
      = (if ((Finset.range n).filter (fun c => 1 < size c)).card = 0 then none
         else some ((∑ c in (Finset.range n).filter (fun c => 1 < size c), (size c : ℚ))
           / (((Finset.range n).filter (fun c => 1 < size c)).card : ℚ))) := by
  obtain ⟨hc, hn⟩ := aggregate_cav_nav n size max_size
  unfold averageLine
  rw [hc, hn]
  by_cases hz : ((Finset.range n).filter (fun c => 1 < size c)).card = 0
  · simp [hz]
  · have hpos : (0 : Int) < (((Finset.range n).filter (fun c => 1 < size c)).card : Int) := by
      omega
    simp only [gt_iff_lt, hpos, if_true, hz, if_false, Int.cast_natCast]

/-- C21: for a frame analysed on any contact map, the average written for the frame is the
sum of `clust_size[i]` over the labels with size above 1 divided by the number of such
labels, and no average is written exactly when no size exceeds 1. -/
theorem average_cluster_size (S : Setup) (m : Nat → Nat → Int) (max_size : Int) (fr : Frame) :
    ∃ m' out, analyseFrame S m max_size fr = some (m', out) ∧
      averageLine out.agg
        = (if ((Finset.range S.nindex).filter
              (fun c => 1 < out.clusters.clust_size c)).card = 0 then none
           else some
            ((∑ c in (Finset.range S.nindex).filter (fun c => 1 < out.clusters.clust_size c),
                (out.clusters.clust_size c : ℚ))
              / (((Finset.range S.nindex).filter
                  (fun c => 1 < out.clusters.clust_size c)).card : ℚ))) ∧
      (averageLine out.agg = none ↔
        ∀ c, c < S.nindex → out.clusters.clust_size c ≤ 1) := by
  obtain ⟨s, _, heq, _, _⟩ := analyseFrame_ok S m max_size fr
  have havg := averageLine_aggregate S.nindex s.clust_size max_size
  refine ⟨_, _, heq, havg, ?_⟩
  show averageLine (aggregate S.nindex s.clust_size max_size) = none ↔
    ∀ c, c < S.nindex → s.clust_size c ≤ 1
  rw [havg]
  constructor
  · intro hnone c hc
    by_contra hgt
    have hmem : c ∈ (Finset.range S.nindex).filter (fun c => 1 < s.clust_size c) := by
      rw [Finset.mem_filter, Finset.mem_range]
      exact ⟨hc, by omega⟩
    have hcard : ((Finset.range S.nindex).filter (fun c => 1 < s.clust_size c)).card ≠ 0 :=
      Finset.card_ne_zero_of_mem hmem
    rw [if_neg hcard] at hnone
    cases hnone
  · intro hall
    have hempty : (Finset.range S.nindex).filter (fun c => 1 < s.clust_size c) = ∅ := by
      apply Finset.filter_eq_empty_iff.2
      intro c hc
      have := hall c (Finset.mem_range.1 hc)
      omega
    rw [hempty]
    simp

/-! ## Colour-scale scan -/

/-- With a zero fine cutoff the proximity loop sets no cell. -/
theorem proximityLoop_zero_cut (S : Setup) (hcut : S.cut = 0) (fr : Frame)
    (m : Nat → Nat → Int) (hm : ∀ i j, m i j = 0) (i j : Nat) :
    proximityLoop S fr m i j = 0 := by
  rw [proximityLoop_apply, hm i j, if_neg]
  rintro ⟨_, _, _, ii, _, jj, _, hlt⟩
  rw [hcut] at hlt
  have hnn := norm2_nonneg (displacement S fr (fr.x ii) (fr.x jj))
  simp only [mul_zero] at hlt
  exact absurd hlt (not_lt.2 hnn)

theorem aggregate_fold_max_size_le (size : Nat → Int) (a : Aggregate) (m : Nat) (M : Int)
    (ha : a.max_size ≤ M) (h : ∀ i, i < m → size i ≤ M) :
    ((List.range m).foldl (aggregateStep size) a).max_size ≤ M := by
  induction m with
  | zero => exact ha
  | succ m ih =>
    rw [List.range_succ, List.foldl_append, List.foldl_cons, List.foldl_nil,
      aggregateStep_max_size]
    have hprev := ih (fun i hi => h i (Nat.lt_succ_of_lt hi))
    have hm := h m (Nat.lt_succ_self m)
    split_ifs
    · exact max_le hprev hm
    · exact hprev

/-- Aggregation of `n ≥ 1` singletons from `max_size = 0`: the running `max_size` becomes 1,
bin 0 of the row holds `n`, every other bin 0. -/
theorem aggregate_singletons_row (n : Nat) (hn : 1 ≤ n) :
    (aggregate n initClusters.clust_size 0).max_size = 1 ∧
    (aggregate n initClusters.clust_size 0).row 0 = n ∧
    ∀ s, s ≠ 0 → (aggregate n initClusters.clust_size 0).row s = 0 := by
  refine ⟨?_, (aggregate_singletons n 0).2, ?_⟩
  · have hle := aggregate_fold_max_size_le initClusters.clust_size (aggregateInit 0) n 1
      (by simp [aggregateInit]) (fun i _ => by simp [initClusters])
    have hge := (aggregate_fold_max_size initClusters.clust_size (aggregateInit 0) n).2 0
      (by omega) (by simp [initClusters])
    have h1 : initClusters.clust_size 0 = 1 := rfl
    rw [h1] at hge
    unfold aggregate
    omega
  · intro s hs
    rw [aggregate_row]
    apply Finset.sum_eq_zero
    intro c _
    have hne : ¬ 0 = s := fun h => hs h.symm
    simp [initClusters, hne]

theorem scanInv_congr {h : Nat → Nat → ℚ} {seen seen' : Nat → Nat → Prop} {st : ScanState}
    (hiff : ∀ a b, seen a b ↔ seen' a b) (hinv : ScanInv h seen st) : ScanInv h seen' st := by
  have heq : seen = seen' := by
    funext a b
    exact propext (hiff a b)
  rw [← heq]
  exact hinv

theorem scanStep_inv {h : Nat → Nat → ℚ} {seen : Nat → Nat → Prop} {st : ScanState}
    (hinv : ScanInv h seen st) (i j : Nat) :
    ScanInv h (fun a b => seen a b ∨ (a = i ∧ b = j)) (scanStep i st j) := by
  obtain ⟨hsame, hge, hnn, hatt, hstart, hle, hmid⟩ := hinv
  have hcell : st.cs_dist i j = h i j := by rw [hsame]
  unfold scanStep
  simp only [hcell, gt_iff_lt]
  refine ⟨hsame, ?_, le_trans hnn (le_max_right _ _), ?_, ?_, ?_, ?_⟩
  · rintro a b (hs | ⟨rfl, rfl⟩)
    · exact le_trans (hge a b hs) (le_max_right _ _)
    · exact le_max_left _ _
  · rcases le_total (h i j) st.cmax with hc | hc
    · rw [max_eq_right hc]
      rcases hatt with h0 | ⟨a, b, hs, he⟩
      · exact Or.inl h0
      · exact Or.inr ⟨a, b, Or.inl hs, he⟩
    · rw [max_eq_left hc]
      exact Or.inr ⟨i, j, Or.inr ⟨rfl, rfl⟩, rfl⟩
  · split_ifs with hc
    · exact le_trans (le_of_lt hc.2) hstart
    · exact hstart
  · rintro a b (hs | ⟨rfl, rfl⟩) hpos
    · split_ifs with hc
      · exact le_trans (le_of_lt hc.2) (hle a b hs hpos)
      · exact hle a b hs hpos
    · split_ifs with hc
      · exact le_refl _
      · exact not_lt.1 (fun hlt => hc ⟨hpos, hlt⟩)
  · split_ifs with hc
    · exact Or.inr ⟨i, j, Or.inr ⟨rfl, rfl⟩, hc.1, rfl⟩
    · rcases hmid with h0 | ⟨a, b, hs, hp, he⟩
      · exact Or.inl h0
      · exact Or.inr ⟨a, b, Or.inl hs, hp, he⟩

theorem scanRow_inv {h : Nat → Nat → ℚ} {seen : Nat → Nat → Prop} {st : ScanState}
    (hinv : ScanInv h seen st) (i m : Nat) :
    ScanInv h (fun a b => seen a b ∨ (a = i ∧ b < m))
      ((List.range m).foldl (scanStep i) st) := by
  induction m with
  | zero =>
    refine scanInv_congr (fun a b => ?_) hinv
    simp
  | succ m ih =>
    rw [List.range_succ, List.foldl_append, List.foldl_cons, List.foldl_nil]
    refine scanInv_congr (fun a b => ?_) (scanStep_inv ih i m)
    constructor
    · rintro ((hs | ⟨ha, hb⟩) | ⟨ha, hb⟩)
      · exact Or.inl hs
      · exact Or.inr ⟨ha, Nat.lt_succ_of_lt hb⟩
      · exact Or.inr ⟨ha, by omega⟩
    · rintro (hs | ⟨ha, hb⟩)
      · exact Or.inl (Or.inl hs)
      · rcases Nat.lt_succ_iff_lt_or_eq.1 hb with hb | hb
        · exact Or.inl (Or.inr ⟨ha, hb⟩)
        · exact Or.inr ⟨ha, hb⟩

theorem scanRows_inv {h : Nat → Nat → ℚ} {st : ScanState}
    (hinv : ScanInv h (fun _ _ => False) st) (M k : Nat) :
    ScanInv h (fun a b => a < k ∧ b < M)
      ((List.range k).foldl (fun st i => (List.range M).foldl (scanStep i) st) st) := by
  induction k with
  | zero =>
    refine scanInv_congr (fun a b => ?_) hinv
    simp
  | succ k ih =>
    rw [List.range_succ, List.foldl_append, List.foldl_cons, List.foldl_nil]
    refine scanInv_congr (fun a b => ?_) (scanRow_inv ih k M)
    constructor
    · rintro (⟨ha, hb⟩ | ⟨ha, hb⟩)
      · exact ⟨Nat.lt_succ_of_lt ha, hb⟩
      · exact ⟨by omega, hb⟩
    · rintro ⟨ha, hb⟩
      rcases Nat.lt_succ_iff_lt_or_eq.1 ha with ha | ha
      · exact Or.inl ⟨ha, hb⟩
      · exact Or.inr ⟨ha, hb⟩

/-- The scan of the raw histogram in general: `cmax` is the largest of 0 and the scanned
cells, and `cmid` is the smallest of the start value 100 and the strictly positive scanned
cells. -/
theorem scanLoop_spec (n_x : Nat) (max_size : Int) (h : Nat → Nat → ℚ) :
    ScanInv h (fun a b => a < n_x ∧ b < max_size.toNat) (scanLoop n_x max_size h) := by
  unfold scanLoop
  apply scanRows_inv
  exact ⟨rfl, fun _ _ hf => absurd hf not_false, le_refl _, Or.inl rfl, le_refl _,
    fun _ _ hf => absurd hf not_false, Or.inl rfl⟩

theorem scanLoop_one_cell (h : Nat → Nat → ℚ) :
    (scanLoop 1 1 h).cmid = (if h 0 0 > 0 ∧ h 0 0 < 100 then h 0 0 else 100) ∧
    (scanLoop 1 1 h).cmax = max (h 0 0) 0 :=
  ⟨rfl, rfl⟩

theorem weightLoop_one_cell (h : Nat → Nat → ℚ) :
    (weightLoop 1 1 h).cmid
      = (if h 0 0 * (((0 : Nat) : ℚ) + 1) > 0 ∧ h 0 0 * (((0 : Nat) : ℚ) + 1) < 100
          then h 0 0 * (((0 : Nat) : ℚ) + 1) else 100) ∧
    (weightLoop 1 1 h).cmax = max (h 0 0 * (((0 : Nat) : ℚ) + 1)) 0 :=
  ⟨rfl, rfl⟩

/-- The run of 101 singletons over one frame: one histogram row with 101 in bin 0. -/
theorem crowd_run :
    ∃ st, runFrames crowdSetup [nearFrame] = some st ∧
      st.analysed.length = 1 ∧ st.max_size = 1 ∧
      rawHist st 0 0 = 101 ∧
      (∀ s, s ≠ 0 → rawHist st 0 s = 0) ∧
      ∀ f s, f ≠ 0 → rawHist st f s = 0 := by
  have hzero : ∀ i j, proximityLoop crowdSetup nearFrame (fun _ _ => 0) i j = 0 :=
    proximityLoop_zero_cut crowdSetup rfl nearFrame _ (fun _ _ => rfl)
  have hmerge : mergePass crowdSetup.nindex (proximityLoop crowdSetup nearFrame (fun _ _ => 0))
      initClusters = some initClusters := mergePass_unmarked hzero initClusters
  have hrun := runFrames_single crowdSetup nearFrame (by decide) hmerge
  obtain ⟨hms, hrow0, hrest⟩ := aggregate_singletons_row 101 (by decide)
  refine ⟨_, hrun, rfl, hms, ?_, ?_, ?_⟩
  · show (aggregate 101 initClusters.clust_size 0).row 0 = 101
    rw [hrow0]; norm_num
  · intro s hs
    exact hrest s hs
  · intro f s hf
    obtain ⟨g, rfl⟩ : ∃ g, f = g + 1 := ⟨f - 1, by omega⟩
    rfl

/-- C22 at a concrete run: 101 entities that stay singletons in a one-frame trajectory.
The raw histogram has the value 101 in cell `[0][0]` and 0 everywhere else, and so has the
weighted histogram; the smallest strictly positive value is 101 in both, yet both scans end
with `cmid = 100`, the value they start from. Both end with `cmax = 101`. -/
theorem scan_cmid_stays_at_start_value :
    ∃ st, runFrames crowdSetup [nearFrame] = some st ∧
      st.analysed.length = 1 ∧ st.max_size = 1 ∧
      rawHist st 0 0 = 101 ∧
      (∀ f s, rawHist st f s = 0 ∨ rawHist st f s = 101) ∧
      (scanLoop st.analysed.length st.max_size (rawHist st)).cmid = 100 ∧
      (scanLoop st.analysed.length st.max_size (rawHist st)).cmax = 101 ∧
      (weightLoop st.analysed.length st.max_size (rawHist st)).cs_dist 0 0 = 101 ∧
      (∀ f s, (weightLoop st.analysed.length st.max_size (rawHist st)).cs_dist f s = 0 ∨
        (weightLoop st.analysed.length st.max_size (rawHist st)).cs_dist f s = 101) ∧
      (weightLoop st.analysed.length st.max_size (rawHist st)).cmid = 100 ∧
      (weightLoop st.analysed.length st.max_size (rawHist st)).cmax = 101 := by
  obtain ⟨st, hrun, hlen, hms, h00, h0s, hfs⟩ := crowd_run
  have hcell : ∀ f s, (f = 0 ∧ s = 0 ∧ rawHist st f s = 101) ∨ rawHist st f s = 0 := by
    intro f s
    by_cases hf : f = 0
    · by_cases hs : s = 0
      · subst hf hs; exact Or.inl ⟨rfl, rfl, h00⟩
      · subst hf; exact Or.inr (h0s s hs)
    · exact Or.inr (hfs f s hf)
  obtain ⟨hsmid, hsmax⟩ := scanLoop_one_cell (rawHist st)
  obtain ⟨hwmid, hwmax⟩ := weightLoop_one_cell (rawHist st)
  refine ⟨st, hrun, hlen, hms, h00, ?_, ?_, ?_, ?_, ?_, ?_, ?_⟩
  · intro f s
    rcases hcell f s with ⟨_, _, h⟩ | h
    · exact Or.inr h
    · exact Or.inl h
  · rw [hlen, hms, hsmid, h00]; norm_num
  · rw [hlen, hms, hsmax, h00]; norm_num
  · rw [hlen, hms, weightLoop_apply, h00]; norm_num
  · intro f s
    rw [hlen, hms, weightLoop_apply]
    rcases hcell f s with ⟨rfl, rfl, h⟩ | h
    · right; rw [h]; norm_num
    · left; rw [h]; split_ifs <;> simp
  · rw [hlen, hms, hwmid, h00]; norm_num
  · rw [hlen, hms, hwmax, h00]; norm_num

/-! ## The temperature written at a frame -/

theorem tfac_ne_zero {ndf : Int} {natoms : Nat} (hndf : ndf ≠ 0) (hnat : 0 < natoms) :
    tfac ndf natoms ≠ 0 := by
  unfold tfac
  split_ifs with h
  · exact one_ne_zero
  · apply div_ne_zero
    · exact_mod_cast hndf
    · have hn : (natoms : ℚ) ≠ 0 := by exact_mod_cast (Nat.pos_iff_ne_zero.1 hnat)
      exact mul_ne_zero (by norm_num) hn

/-- The stride block on any state: it returns, leaves the temperature lines alone, keeps
the max cluster size at 1 or more, and for an analysed frame the state holds the record of
this frame. -/
theorem strideBlock_spec (T : TempSetup) (st : TempRunState) (fr : TrajFrame)
    (hpos : 1 ≤ st.max_clust_size) :
    ∃ s1, strideBlock T st fr = some s1 ∧ s1.temps = st.temps ∧ 1 ≤ s1.max_clust_size ∧
      (isAnalysed T.nskip st.run.nframe = true →
        ∃ out, s1.run.analysed = st.run.analysed ++ [out] ∧ s1.run.clusters = out.clusters ∧
          s1.max_clust_size = out.agg.max_clust_size ∧
          s1.max_clust_ind = out.agg.max_clust_ind) := by
  by_cases han : isAnalysed T.nskip st.run.nframe = true
  · obtain ⟨s, hrun, _⟩ :=
      mergePass_ok (mergeInv_init T.nindex (proximityLoop T.toSetup fr.toFrame st.run.cs_map))
    refine ⟨_, strideBlock_analysed T st fr han hrun, rfl, ?_, fun _ => ⟨_, rfl, rfl, rfl, rfl⟩⟩
    have h1 := (aggregate_fold_max s.clust_size st.run.max_size T.nindex).1
    exact h1
  · have hf : isAnalysed T.nskip st.run.nframe = false := by simpa using han
    exact ⟨st, strideBlock_skipped T st fr hf, rfl, hpos, fun h => absurd h han⟩

theorem tempFrameStep_size_pos (T : TempSetup) (st : TempRunState) (fr : TrajFrame)
    (hpos : 1 ≤ st.max_clust_size) :
    ∃ st', tempFrameStep T st fr = some st' ∧ 1 ≤ st'.max_clust_size := by
  obtain ⟨s1, hs1, _, hp1, _⟩ := strideBlock_spec T st fr hpos
  exact ⟨_, tempFrameStep_of_stride hs1, hp1⟩

/-- C15, amended: let `ndf` be different from 0, `natoms` at least 1 and `BOLTZ` different
from 0, and let `fr` be the frame that follows any trajectory `pre`. The frame loop returns
before and after `fr`. With `N` the max cluster size and `L` the max cluster label the loop
holds after the stride block of `fr` (those of the record of `fr` when `fr` is analysed),
the divisor `3 * dof_factor * N * k_B` is not zero, and when `fr` has velocities, a tpr
file is given and `L ≥ 0`, exactly one line is added to the temperature file, with the
value `2 * E / (3 * dof_factor * N * k_B)`, where `E` is the sum of the kinetic energy loop
over the velocities of `fr` for the label `L`; otherwise no line is added. Here
`dof_factor` is 1 when `ndf ≤ -1` and `ndf / (3 * natoms)` otherwise. -/
theorem emitted_temperature_formula (T : TempSetup) (hndf : T.ndf ≠ 0) (hnat : 0 < T.natoms)
    (hk : T.BOLTZ ≠ 0) (pre : List TrajFrame) (fr : TrajFrame) :
    (T.ndf ≤ -1 → tfac T.ndf T.natoms = 1) ∧
    (-1 < T.ndf → tfac T.ndf T.natoms = (T.ndf : ℚ) / (3 * (T.natoms : ℚ))) ∧
    ∃ st st', tempRunFrames T pre = some st ∧ tempRunFrames T (pre ++ [fr]) = some st' ∧
      (isAnalysed T.nskip st.run.nframe = true →
        ∃ out, st'.run.analysed = st.run.analysed ++ [out] ∧
          st'.run.clusters = out.clusters ∧
          st'.max_clust_size = out.agg.max_clust_size ∧
          st'.max_clust_ind = out.agg.max_clust_ind) ∧
      3 * tfac T.ndf T.natoms * (st'.max_clust_size : ℚ) * T.BOLTZ ≠ 0 ∧
      ((fr.bV = true ∧ T.tpr = true ∧ 0 ≤ st'.max_clust_ind) →
        st'.temps = st.temps ++
          [(st'.frameTime,
            2 * ekinLoop T fr.v st'.run.clusters.clust_index st'.max_clust_ind
              / (3 * tfac T.ndf T.natoms * (st'.max_clust_size : ℚ) * T.BOLTZ))]) ∧
      (¬ (fr.bV = true ∧ T.tpr = true ∧ 0 ≤ st'.max_clust_ind) → st'.temps = st.temps) := by
  refine ⟨fun h => by simp [tfac, h], fun h => by simp [tfac, not_le.2 h], ?_⟩
  obtain ⟨st, hrun, hpos⟩ := forM?_invariant
    (fun st : TempRunState => 1 ≤ st.max_clust_size)
    (tempFrameStep T) (fun st fr h => tempFrameStep_size_pos T st fr h)
    pre tempRunInit (by decide)
  obtain ⟨s1, hs1, htemps, hp1, hrec⟩ := strideBlock_spec T st fr hpos
  have hstep := tempFrameStep_of_stride hs1
  have hN : ((s1.max_clust_size : Int) : ℚ) ≠ 0 := by
    have : s1.max_clust_size ≠ 0 := by omega
    exact_mod_cast this
  refine ⟨st, { s1 with
      temps := velocityBlock T s1 fr
      run := { s1.run with nframe := s1.run.nframe + 1 } }, hrun, ?_, hrec, ?_, ?_, ?_⟩
  · unfold tempRunFrames
    rw [forM?_append, hrun]
    simp only [Option.some_bind]
    rw [forM?_singleton]
    exact hstep
  · exact mul_ne_zero (mul_ne_zero (mul_ne_zero (by norm_num) (tfac_ne_zero hndf hnat)) hN) hk
  · rintro ⟨hbv, htpr, hind⟩
    show velocityBlock T s1 fr = _
    have hind' : s1.max_clust_ind ≥ 0 := hind
    simp only [velocityBlock, hbv, htpr, if_true, hind', htemps, temperature_eq]
  · intro hno
    show velocityBlock T s1 fr = _
    unfold velocityBlock
    split_ifs with h1 h2 h3
    · exact absurd ⟨h1, h2, h3⟩ hno
    · exact htemps
    · exact htemps
    · exact htemps

/-- Witness of C15, amended: the first frame of the two-entity setup with a tpr file. -/
theorem emitted_temperature_formula_witness :
    pairTempSetup.ndf ≠ 0 ∧ 0 < pairTempSetup.natoms ∧ pairTempSetup.BOLTZ ≠ 0 ∧
    (pairTempSetup.ndf ≤ -1 → tfac pairTempSetup.ndf pairTempSetup.natoms = 1) ∧
    (-1 < pairTempSetup.ndf → tfac pairTempSetup.ndf pairTempSetup.natoms
      = (pairTempSetup.ndf : ℚ) / (3 * (pairTempSetup.natoms : ℚ))) ∧
    ∃ st st', tempRunFrames pairTempSetup [] = some st ∧
      tempRunFrames pairTempSetup ([] ++ [timedNearFrame 5]) = some st' ∧
      (isAnalysed pairTempSetup.nskip st.run.nframe = true →
        ∃ out, st'.run.analysed = st.run.analysed ++ [out] ∧
          st'.run.clusters = out.clusters ∧
          st'.max_clust_size = out.agg.max_clust_size ∧
          st'.max_clust_ind = out.agg.max_clust_ind) ∧
      3 * tfac pairTempSetup.ndf pairTempSetup.natoms * (st'.max_clust_size : ℚ)
        * pairTempSetup.BOLTZ ≠ 0 ∧
      (((timedNearFrame 5).bV = true ∧ pairTempSetup.tpr = true ∧ 0 ≤ st'.max_clust_ind) →
        st'.temps = st.temps ++
          [(st'.frameTime,
            2 * ekinLoop pairTempSetup (timedNearFrame 5).v st'.run.clusters.clust_index
                st'.max_clust_ind
              / (3 * tfac pairTempSetup.ndf pairTempSetup.natoms * (st'.max_clust_size : ℚ)
                  * pairTempSetup.BOLTZ))]) ∧
      (¬ ((timedNearFrame 5).bV = true ∧ pairTempSetup.tpr = true ∧ 0 ≤ st'.max_clust_ind) →
        st'.temps = st.temps) :=
  ⟨by decide, by decide, by norm_num [pairTempSetup],
    emitted_temperature_formula pairTempSetup (by decide) (by decide)
      (by norm_num [pairTempSetup]) [] (timedNearFrame 5)⟩

/-! ## Two threads on the two-entity setup -/

theorem omp_pair_one_thread_cs_map :
    (ompRun pairSetup nearFrame (List.replicate 7 0)
      (ompInit [[0, 1]] (fun _ _ => 0))).cs_map
      = proximityLoop pairSetup nearFrame (fun _ _ => 0) := rfl

theorem omp_pair_two_threads_cs_map :
    (ompRun pairSetup nearFrame [0, 1, 0, 1]
      (ompInit [[0], [1]] (fun _ _ => 0))).cs_map = fun _ _ => 0 := rfl

theorem omp_pair_threads_finished :
    ((ompRun pairSetup nearFrame (List.replicate 7 0)
      (ompInit [[0, 1]] (fun _ _ => 0))).threads 0).rows = [] ∧
    ((ompRun pairSetup nearFrame [0, 1, 0, 1]
      (ompInit [[0], [1]] (fun _ _ => 0))).threads 0).rows = [] ∧
    ((ompRun pairSetup nearFrame [0, 1, 0, 1]
      (ompInit [[0], [1]] (fun _ _ => 0))).threads 1).rows = [] :=
  ⟨rfl, rfl, rfl⟩

/-- C6 under an interleaving of two threads, first frame (zeroed contact map): two
single-particle entities 1/2 apart with both cutoffs 1, so the coarse test on the centres
passes and the particle pair is strictly below the fine cutoff. One thread running the rows
0, 1 leaves the contact map of the sequential loop, with `cs_map[0][1] = 1`. With two
threads (row 0 on thread 0, row 1 on thread 1) and the schedule in which thread 1 executes
its `j = i + 1` between the `j = i + 1` and the test `j < nindex` of thread 0, both threads
finish, the pair `(0, 1)` is never examined and `cs_map[0][1]` stays 0. -/
theorem two_threads_leave_contact_unmarked :
    WithinCutoffs pairSetup nearFrame 0 1 ∧
    ((ompRun pairSetup nearFrame (List.replicate 7 0)
      (ompInit [[0, 1]] (fun _ _ => 0))).threads 0).rows = [] ∧
    (ompRun pairSetup nearFrame (List.replicate 7 0)
      (ompInit [[0, 1]] (fun _ _ => 0))).cs_map 0 1 = 1 ∧
    ((ompRun pairSetup nearFrame [0, 1, 0, 1]
      (ompInit [[0], [1]] (fun _ _ => 0))).threads 0).rows = [] ∧
    ((ompRun pairSetup nearFrame [0, 1, 0, 1]
      (ompInit [[0], [1]] (fun _ _ => 0))).threads 1).rows = [] ∧
    (ompRun pairSetup nearFrame [0, 1, 0, 1]
      (ompInit [[0], [1]] (fun _ _ => 0))).cs_map 0 1 = 0 := by
  refine ⟨nearFrame_within, omp_pair_threads_finished.1, ?_, omp_pair_threads_finished.2.1,
    omp_pair_threads_finished.2.2, ?_⟩
  · rw [omp_pair_one_thread_cs_map, proximityLoop_apply,
      if_pos ⟨by decide, by decide, nearFrame_within⟩]
  · rw [omp_pair_two_threads_cs_map]

/-- C10 under an interleaving of two threads: two single-particle entities 1/2 apart with
both cutoffs 1, so `nindex ≥ 1`, every block is non-empty, and every centre and particle
distance is below the cutoffs. With one thread the frame has one cluster. With two threads
(row 0 on thread 0, row 1 on thread 1) and the schedule in which thread 1 executes its
`j = i + 1` between the `j = i + 1` and the test `j < nindex` of thread 0, both threads
finish, and the merge loop on the contact map they leave gives the labels 0 and 1, two
labels of size 1 and the cluster count 2. -/
theorem two_threads_split_all_within_pair :
    1 ≤ pairSetup.nindex ∧
    (∀ i, i < pairSetup.nindex →
      (pairSetup.mols (pairSetup.index i)).first < (pairSetup.mols (pairSetup.index i)).stop) ∧
    (∀ i j, i < j → j < pairSetup.nindex →
      norm2 (displacement pairSetup nearFrame (centre pairSetup nearFrame i)
        (centre pairSetup nearFrame j)) < pairSetup.mol_cut * pairSetup.mol_cut) ∧
    (∀ i j, i < j → j < pairSetup.nindex →
      ∀ ii ∈ (pairSetup.mols (pairSetup.index i)).particles,
      ∀ jj ∈ (pairSetup.mols (pairSetup.index j)).particles,
        norm2 (displacement pairSetup nearFrame (nearFrame.x ii) (nearFrame.x jj))
          < pairSetup.cut * pairSetup.cut) ∧
    (∃ s, mergePass pairSetup.nindex
        (ompRun pairSetup nearFrame (List.replicate 7 0)
          (ompInit [[0, 1]] (fun _ _ => 0))).cs_map initClusters = some s ∧
      s.clust_index 0 = 0 ∧ s.clust_index 1 = 0 ∧ s.clust_size 0 = 2 ∧ s.clust_size 1 = 0 ∧
      (aggregate pairSetup.nindex s.clust_size 0).nclust = 1) ∧
    ((ompRun pairSetup nearFrame [0, 1, 0, 1]
      (ompInit [[0], [1]] (fun _ _ => 0))).threads 0).rows = [] ∧
    ((ompRun pairSetup nearFrame [0, 1, 0, 1]
      (ompInit [[0], [1]] (fun _ _ => 0))).threads 1).rows = [] ∧
    ∃ s, mergePass pairSetup.nindex
        (ompRun pairSetup nearFrame [0, 1, 0, 1]
          (ompInit [[0], [1]] (fun _ _ => 0))).cs_map initClusters = some s ∧
      s.clust_index 0 = 0 ∧ s.clust_index 1 = 1 ∧ s.clust_size 0 = 1 ∧ s.clust_size 1 = 1 ∧
      (aggregate pairSetup.nindex s.clust_size 0).nclust = 2 := by
  have hn : pairSetup.nindex = 2 := rfl
  refine ⟨by decide, fun i _ => by simp [pairSetup], ?_, ?_, ?_,
    omp_pair_threads_finished.2.1, omp_pair_threads_finished.2.2, ?_⟩
  · intro i j hij hj
    have hj2 : j < 2 := hj
    have hi : i = 0 := by omega
    have hj1 : j = 1 := by omega
    subst hi hj1
    exact nearFrame_coarse
  · intro i j hij hj ii hii jj hjj
    have hj2 : j < 2 := hj
    have hi : i = 0 := by omega
    have hj1 : j = 1 := by omega
    subst hi hj1
    rw [pairSetup_particles, List.mem_singleton] at hii hjj
    subst hii hjj
    exact nearFrame_fine
  · rw [omp_pair_one_thread_cs_map, hn]
    obtain ⟨s, hrun, h0, h1, h2, h3⟩ := pair_merge_marked
      (m := proximityLoop pairSetup nearFrame (fun _ _ => 0))
      (by rw [proximityLoop_apply, if_pos ⟨by decide, by decide, nearFrame_within⟩]; decide)
    refine ⟨s, hrun, h0, h1, h2, h3, ?_⟩
    rw [aggregate_nclust]
    simp only [Finset.sum_range_succ, Finset.sum_range_zero, h2, h3]
    decide
  · rw [omp_pair_two_threads_cs_map, hn]
    obtain ⟨s, hrun, h0, h1, h2, h3⟩ := pair_merge_unmarked
      (m := fun _ _ => (0 : Int)) rfl
    refine ⟨s, hrun, h0, h1, h2, h3, ?_⟩
    rw [aggregate_nclust]
    simp only [Finset.sum_range_succ, Finset.sum_range_zero, h2, h3]
    decide

/-! ## A frame of two pairs after a frame of four neighbours -/

theorem quad_pairs (i j : Nat) (hij : i < j) (hj : j < 4) :
    (i = 0 ∧ j = 1) ∨ (i = 0 ∧ j = 2) ∨ (i = 0 ∧ j = 3) ∨
    (i = 1 ∧ j = 2) ∨ (i = 1 ∧ j = 3) ∨ (i = 2 ∧ j = 3) := by omega

theorem quadNearFrame_within (i j : Nat) (hij : i < j) (hj : j < 4) :
    WithinCutoffs quadSetup quadNearFrame i j := by
  rw [quadSetup_within]
  rcases quad_pairs i j hij hj with ⟨rfl, rfl⟩ | ⟨rfl, rfl⟩ | ⟨rfl, rfl⟩ | ⟨rfl, rfl⟩ |
    ⟨rfl, rfl⟩ | ⟨rfl, rfl⟩ <;>
    norm_num [quadNearFrame, norm2, rvec_sub]

theorem twoPairsFrame_within (i j : Nat) (hij : i < j) (hj : j < 4) :
    WithinCutoffs quadSetup twoPairsFrame i j ↔ j = twoPairsPartner i := by
  rw [quadSetup_within]
  rcases quad_pairs i j hij hj with ⟨rfl, rfl⟩ | ⟨rfl, rfl⟩ | ⟨rfl, rfl⟩ | ⟨rfl, rfl⟩ |
    ⟨rfl, rfl⟩ | ⟨rfl, rfl⟩ <;>
    norm_num [twoPairsFrame, twoPairsPartner, norm2, rvec_sub]

/-- The contact map after `quadNearFrame` and then `twoPairsFrame`: every cell above the
diagonal is still set. -/
theorem quad_stale_map (i j : Nat) (hij : i < j) (hj : j < 4) :
    proximityLoop quadSetup twoPairsFrame
      (proximityLoop quadSetup quadNearFrame (fun _ _ => 0)) i j = 1 := by
  have hj' : j < quadSetup.nindex := hj
  have hfirst : proximityLoop quadSetup quadNearFrame (fun _ _ => 0) i j = 1 := by
    rw [proximityLoop_apply, if_pos ⟨hij, hj', quadNearFrame_within i j hij hj⟩]
  rw [proximityLoop_apply, hfirst]
  split_ifs <;> rfl

/-- C11 on a second frame: four single-particle entities, both cutoffs 1. In `twoPairsFrame`
the entities form the pairs `{0, 2}` and `{1, 3}`: two entities are within the cutoffs
exactly when they are partners. Analysed as the only frame, the frame has cluster count 2
and the value 2 in bin 1 of the histogram row. Analysed after `quadNearFrame`, in which
every pair is within the cutoffs, the contact map still holds the cells of the earlier
frame: every entity gets label 0, `clust_size[0] = 4`, the cluster count is 1, bin 1 of the
histogram row is 0 and bin 3 is 1. -/
theorem stale_contacts_join_two_pairs :
    (∀ i, i < 4 → twoPairsPartner i < 4 ∧ twoPairsPartner i ≠ i ∧
      twoPairsPartner (twoPairsPartner i) = i) ∧
    (∀ i j, i < j → j < 4 →
      (WithinCutoffs quadSetup twoPairsFrame i j ↔ j = twoPairsPartner i)) ∧
    (∃ st o, runFrames quadSetup [twoPairsFrame] = some st ∧ st.analysed = [o] ∧
      o.agg.nclust = 2 ∧ o.agg.row 1 = 2) ∧
    ∃ st o1 o2, runFrames quadSetup [quadNearFrame, twoPairsFrame] = some st ∧
      st.analysed = [o1, o2] ∧
      (∀ k, k < 4 → o2.clusters.clust_index k = 0) ∧
      o2.clusters.clust_size 0 = 4 ∧
      o2.agg.nclust = 1 ∧ o2.agg.row 1 = 0 ∧ o2.agg.row 3 = 1 := by
  refine ⟨fun i hi => by unfold twoPairsPartner; omega, twoPairsFrame_within, ?_, ?_⟩
  · obtain ⟨st, o, hrun, han, hc, _, hb, _⟩ := two_pairs_two_clusters_witness.2.2
    exact ⟨st, o, hrun, han, hc, hb⟩
  · have hs : isAnalysed quadSetup.nskip 0 = true := by decide
    have hs1 : isAnalysed quadSetup.nskip (0 + 1) = true := by decide
    have hn : quadSetup.nindex = 4 := rfl
    obtain ⟨s1, hrun1, _⟩ := mergePass_ok
      (mergeInv_init 4 (proximityLoop quadSetup quadNearFrame (fun _ _ => 0)))
    obtain ⟨s2, hrun2, hv⟩ := merge_eval 4
      (m := proximityLoop quadSetup twoPairsFrame
        (proximityLoop quadSetup quadNearFrame (fun _ _ => 0)))
      [(0, 1), (0, 2), (0, 3), (1, 2), (1, 3), (2, 3)]
      (fun s => ((s.clust_index 0, s.clust_index 1, s.clust_index 2, s.clust_index 3),
        (s.clust_size 0, s.clust_size 1, s.clust_size 2, s.clust_size 3)))
      ((0, 0, 0, 0), (4, 0, 0, 0))
      (fun i j hij hj => by
        rw [quad_stale_map i j hij hj]
        rcases quad_pairs i j hij hj with ⟨rfl, rfl⟩ | ⟨rfl, rfl⟩ | ⟨rfl, rfl⟩ | ⟨rfl, rfl⟩ |
          ⟨rfl, rfl⟩ | ⟨rfl, rfl⟩ <;> decide)
      (by decide)
    simp only [Prod.mk.injEq] at hv
    obtain ⟨⟨i0, i1, i2, i3⟩, z0, z1, z2, z3⟩ := hv
    have ha1 := analyseFrame_eq quadSetup (fun _ _ => 0) 0 quadNearFrame (hn ▸ hrun1)
    have ha2 := analyseFrame_eq quadSetup
      (proximityLoop quadSetup quadNearFrame (fun _ _ => 0))
      (aggregate 4 s1.clust_size 0).max_size twoPairsFrame (hn ▸ hrun2)
    refine ⟨{ cs_map := proximityLoop quadSetup twoPairsFrame
                (proximityLoop quadSetup quadNearFrame (fun _ _ => 0))
              clusters := s2
              nframe := 0 + 1 + 1
              max_size := (aggregate 4 s2.clust_size (aggregate 4 s1.clust_size 0).max_size).max_size
              analysed := [] ++ [{ clusters := s1, agg := aggregate 4 s1.clust_size 0 }] ++
                [{ clusters := s2
                   agg := aggregate 4 s2.clust_size (aggregate 4 s1.clust_size 0).max_size }] },
      { clusters := s1, agg := aggregate 4 s1.clust_size 0 },
      { clusters := s2
        agg := aggregate 4 s2.clust_size (aggregate 4 s1.clust_size 0).max_size },
      ?_, rfl, ?_, z0, ?_, ?_, ?_⟩
    · simp only [hn] at ha1 ha2
      simp only [runFrames, forM?, frameStep, runInit, hs, hs1, if_true]
      rw [ha1]
      simp only [hs1, if_true]
      rw [ha2]
    · intro k hk
      show s2.clust_index k = 0
      have hcases : k = 0 ∨ k = 1 ∨ k = 2 ∨ k = 3 := by omega
      rcases hcases with rfl | rfl | rfl | rfl
      · exact i0
      · exact i1
      · exact i2
      · exact i3
    · show (aggregate 4 s2.clust_size _).nclust = 1
      rw [aggregate_nclust]
      simp only [Finset.sum_range_succ, Finset.sum_range_zero, z0, z1, z2, z3]
      decide
    · show (aggregate 4 s2.clust_size _).row 1 = 0
      rw [aggregate_row]
      simp only [Finset.sum_range_succ, Finset.sum_range_zero, z0, z1, z2, z3]
      norm_num
      decide
    · show (aggregate 4 s2.clust_size _).row 3 = 1
      rw [aggregate_row]
      simp only [Finset.sum_range_succ, Finset.sum_range_zero, z0, z1, z2, z3]
      norm_num
      decide

end ClustSize
